import Mathlib

/-!
Verification of the hierarchical configuration diff engine of
`check_cisco_nxos_config_diff_check.py`.

The Python source is shallowly embedded: a configuration text is modelled as
its list of lines (Python `str.splitlines`), Python strings are Lean
`String`s (sequences of code points), Python floats are modelled as exact
rationals (the similarity weights 0.7/0.3, the threshold 0.6 and the
sentinels -1.0 and -2.0 are all exactly representable intents of the source),
and CPython's id-based consumed-candidate tracking (`id(item)` in
`used_target_lines`) is modelled by the stable 0-based index of the target
line in discovery order, which is faithful because distinct parsed line
dicts are distinct objects.
-/

/- Batteries marks the rational operations irreducible, which blocks
evaluation of concrete similarity scores in examples; restore the default
reducibility for this file. -/
attribute [local semireducible] Rat.add Rat.mul Rat.inv Rat.sub Rat.ofScientific

namespace ConfDiff

/-! ## Python string primitives -/

/-- Whitespace test used for Python `str.strip()` and `str.split()`
(space, tab, carriage return, line feed). -/
def isSpaceChar (c : Char) : Bool := c.isWhitespace

/-- Python `str.strip()` on the character list: drop whitespace from both ends. -/
def pyStripList (cs : List Char) : List Char :=
  ((cs.dropWhile isSpaceChar).reverse.dropWhile isSpaceChar).reverse

/-- Python `line.strip()`. -/
def pyStrip (s : String) : String := ⟨pyStripList s.data⟩

/-- Python `len(line) - len(line.lstrip(" "))`: the number of leading space
characters (only `' '`, exactly as in the source's `indent` helper). -/
def indentOf (s : String) : Nat := (s.data.takeWhile (fun c => c = ' ')).length

/-- Helper for Python `str.split()`: accumulate maximal runs of
non-whitespace characters; `acc` holds the current token reversed. -/
def splitTokensAux : List Char → List Char → List (List Char)
  | [], acc => if acc.isEmpty then [] else [acc.reverse]
  | c :: cs, acc =>
    if isSpaceChar c then
      if acc.isEmpty then splitTokensAux cs [] else acc.reverse :: splitTokensAux cs []
    else splitTokensAux cs (c :: acc)

/-- Python `s.split()` with no argument: whitespace-delimited tokens, no empties. -/
def pySplit (s : String) : List String := (splitTokensAux s.data []).map fun l => ⟨l⟩

/-- Python `s.split(sep)` for a single-character separator `sep`:
chunks between occurrences, keeping empties. -/
def splitCharAux (sep : Char) : List Char → List Char → List String
  | [], acc => [⟨acc.reverse⟩]
  | c :: cs, acc =>
    if c = sep then ⟨acc.reverse⟩ :: splitCharAux sep cs [] else splitCharAux sep cs (c :: acc)

/-- Python `s.split(sep)` for one-character `sep`. -/
def splitChar (sep : Char) (s : String) : List String := splitCharAux sep s.data []

/-! ## Similarity primitives (`ConfigDiffer.compare` inner functions) -/

/-- Length of the longest common token prefix: the loop
`for at, bt in zip(a_tokens, b_tokens): if at == bt: match_len += 1 else: break`. -/
def matchLen : List String → List String → Nat
  | x :: xs, y :: ys => if x = y then matchLen xs ys + 1 else 0
  | _, _ => 0

/-- `left_prefix_similarity(a, b)` from the source: common-token-prefix length
divided by the larger token count, `0.0` when both token lists are empty. -/
def left_prefix_similarity (a b : String) : ℚ :=
  if max (pySplit a).length (pySplit b).length = 0 then 0
  else (matchLen (pySplit a) (pySplit b) : ℚ) /
    (max (pySplit a).length (pySplit b).length : ℚ)

/-- `token_jaccard(a, b)` from the source: Jaccard similarity of the two token
sets, defined as `1.0` when both sets are empty. -/
def token_jaccard (a b : String) : ℚ :=
  if (pySplit a).toFinset = ∅ ∧ (pySplit b).toFinset = ∅ then 1
  else (((pySplit a).toFinset ∩ (pySplit b).toFinset).card : ℚ) /
    (((pySplit a).toFinset ∪ (pySplit b).toFinset).card : ℚ)

/-- `cisco_similarity(a, b)` from the source: `0.0` on empty token lists,
differing first tokens, or token counts differing by more than 4; otherwise
the left-biased composite `0.7 * left_prefix_similarity + 0.3 * token_jaccard`. -/
def cisco_similarity (a b : String) : ℚ :=
  match pySplit a, pySplit b with
  | [], _ => 0
  | _, [] => 0
  | a0 :: ta, b0 :: tb =>
    if a0 ≠ b0 then 0
    else if (((a0 :: ta).length : ℤ) - ((b0 :: tb).length : ℤ)).natAbs > 4 then 0
    else 7/10 * left_prefix_similarity a b + 3/10 * token_jaccard a b

/-! ## The hierarchy parser (`ConfigDiffer.parse`) -/

/-- The path separator, code point U+F000, used by the source as DELIM. -/
def DELIMC : Char := '\uF000'

/-- The path separator as a one-character string, for the DELIM.join calls. -/
def DELIM : String := "\uF000"

/-- One parsed structural line: stripped text, DELIM-joined ancestor path,
and the parent flag, exactly the dict the source's `parse` builds. -/
structure ParsedLine where
  string : String
  path : String
  is_parent : Bool
deriving Repr, DecidableEq, Inhabited

/-- The forward lookahead of `parse`: scan the remaining lines for the first
non-blank one and test whether its indent is strictly greater. -/
def lookaheadIsParent (indentLevel : Nat) : List String → Bool
  | [] => false
  | l :: rest =>
    if pyStrip l ≠ "" then decide (indentOf l > indentLevel)
    else lookaheadIsParent indentLevel rest

/-- The body of `ConfigDiffer.parse`: walk the lines keeping the stack of open
`(indent, stripped_text)` scopes (top of stack at the head). -/
def parseAux : List String → List (Nat × String) → List ParsedLine
  | [], _ => []
  | line :: rest, stack =>
    let stripped := pyStrip line
    if stripped = "" then parseAux rest stack
    else
      let ind := indentOf line
      let stack' := stack.dropWhile (fun p => p.1 ≥ ind)
      let path := DELIM.intercalate (stack'.reverse.map Prod.snd)
      let ip := lookaheadIsParent ind rest
      { string := stripped, path := path, is_parent := ip } ::
        parseAux rest ((ind, stripped) :: stack')

/-- `ConfigDiffer.parse` on the line list of a configuration text.  The
source's result dict keyed `1..n` in insertion order is the list in order
(index `i` is key `i+1`). -/
def parse (lines : List String) : List ParsedLine := parseAux lines []

/-! ## The line matcher (`ConfigDiffer.compare`) -/

/-- One comparison result, the dict stored in `self.results`.  `matched_idx`
is the index of the consumed target line (the value whose `id(...)` the
source adds to `used_target_lines`); it is `none` exactly when the record is
unmatched, mirroring that only accepted matches are consumed. -/
structure DiffRecord where
  string : String
  best_match : String
  is_parent : Bool
  similarity_score : ℚ
  is_matched : Bool
  diff_positions : List Nat
  path : String
  is_added : Bool
  matched_idx : Option Nat
deriving Repr, DecidableEq, Inhabited

/-- The `diff_positions` computation for an accepted match: indices below the
shorter length where the characters differ, then every index from the
shorter length up to the longer length. -/
def diffPositions (a b : String) : List Nat :=
  let minLen := min a.length b.length
  (List.range minLen).filter (fun i => decide (a.data.getD i ' ' ≠ b.data.getD i ' ')) ++
    List.range' minLen (max a.length b.length - minLen)

/-- The candidate pool, indexed from `i`: the source's list comprehension
selecting target items at the base line's path that are not yet consumed. -/
def candidatesAux (path : String) (used : List Nat) : Nat → List ParsedLine → List (Nat × ParsedLine)
  | _, [] => []
  | i, t :: ts =>
    if t.path = path ∧ i ∉ used then (i, t) :: candidatesAux path used (i + 1) ts
    else candidatesAux path used (i + 1) ts

/-- Candidate pool for a base path over the whole target list. -/
def candidatesOf (targets : List ParsedLine) (path : String) (used : List Nat) :
    List (Nat × ParsedLine) :=
  candidatesAux path used 0 targets

/-- One step of the non-parent best-candidate loop: replace the running best
only on a strictly greater `cisco_similarity` score. -/
def pickBest (base : String) (acc : Option Nat × ℚ) (c : Nat × ParsedLine) : Option Nat × ℚ :=
  let sc := cisco_similarity base c.2.string
  if sc > acc.2 then (some c.1, sc) else acc

/-- The candidate loop of `compare`: a parent base line takes the first exact
text match (score fixed at 1.0, otherwise no match and the initial score
-1.0); a non-parent base line keeps the strictly-best-scoring candidate. -/
def scanCandidates (b : ParsedLine) (cands : List (Nat × ParsedLine)) : Option Nat × ℚ :=
  if b.is_parent then
    match cands.find? (fun c => c.2.string == b.string) with
    | some c => (some c.1, 1)
    | none => (none, -1)
  else
    cands.foldl (pickBest b.string) (none, -1)

/-- Candidate selection for one base line against the unconsumed pool. -/
def matchResult (targets : List ParsedLine) (used : List Nat) (b : ParsedLine) :
    Option Nat × ℚ :=
  scanCandidates b (candidatesOf targets b.path used)

/-- One iteration of the base-line loop: build the result record and consume
the accepted candidate (`is_matched = best_match is not None and best_score >= 0.6`). -/
def compareStep (targets : List ParsedLine) (used : List Nat) (b : ParsedLine) :
    DiffRecord × List Nat :=
  match matchResult targets used b with
  | (some idx, sc) =>
    if 3/5 ≤ sc then
      let ms := (targets.getD idx default).string
      ({ string := b.string, best_match := ms, is_parent := b.is_parent,
         similarity_score := sc, is_matched := true,
         diff_positions := diffPositions b.string ms, path := b.path,
         is_added := false, matched_idx := some idx }, used ++ [idx])
    else
      ({ string := b.string, best_match := "", is_parent := b.is_parent,
         similarity_score := sc, is_matched := false,
         diff_positions := List.range b.string.length, path := b.path,
         is_added := false, matched_idx := none }, used)
  | (none, sc) =>
      ({ string := b.string, best_match := "", is_parent := b.is_parent,
         similarity_score := sc, is_matched := false,
         diff_positions := List.range b.string.length, path := b.path,
         is_added := false, matched_idx := none }, used)

/-- The main loop of `compare` over the base lines in discovery order,
threading the set of consumed target indices. -/
def compareLoop (targets : List ParsedLine) : List ParsedLine → List Nat →
    List DiffRecord × List Nat
  | [], used => ([], used)
  | b :: bs, used =>
    let step := compareStep targets used b
    let rest := compareLoop targets bs step.2
    (step.1 :: rest.1, rest.2)

/-- The added record built for a never-consumed target line. -/
def addedRecord (t : ParsedLine) : DiffRecord :=
  { string := t.string, best_match := "", is_parent := t.is_parent,
    similarity_score := -2, is_matched := false,
    diff_positions := List.range t.string.length, path := t.path,
    is_added := true, matched_idx := none }

/-- The trailing loop of `compare`: every target line never consumed becomes
an added record, in target discovery order, indexed from `i`. -/
def addedAux (used : List Nat) : Nat → List ParsedLine → List DiffRecord
  | _, [] => []
  | i, t :: ts =>
    if i ∈ used then addedAux used (i + 1) ts else addedRecord t :: addedAux used (i + 1) ts

/-- `ConfigDiffer.compare` on two parsed hierarchies: base-derived records in
base order followed by added records in target order. -/
def compareParsed (tp bp : List ParsedLine) : List DiffRecord :=
  (compareLoop tp bp []).1 ++ addedAux (compareLoop tp bp []).2 0 tp

/-- `ConfigDiffer.compare` on the two configuration texts (as line lists):
parse both, match every base line, then append added records. -/
def compare (target_lines base_lines : List String) : List DiffRecord :=
  compareParsed (parse target_lines) (parse base_lines)

/-! ## Dispositions (`DiffRenderer._render_item` classification) -/

/-- The four dispositions of the specification. -/
inductive Disp where
  | added
  | removed
  | changed
  | identical
deriving Repr, DecidableEq

/-- The disposition of a record, read off the branch order of
`DiffRenderer._render_item`: `is_added`, then unmatched, then a score below
1.0, else identical.  (An identical parent record renders no visible item in
the source but its disposition is still Matched-Identical.) -/
def disposition (r : DiffRecord) : Disp :=
  if r.is_added then .added
  else if !r.is_matched then .removed
  else if r.similarity_score < 1 then .changed
  else .identical

/-- The CSS item class `_render_item` emits for a record, `none` when the
record renders no item div (a matched parent header). -/
def renderClass (r : DiffRecord) : Option String :=
  if r.is_added then some "is-added"
  else if !r.is_matched then some "is-removed"
  else if r.similarity_score < 1 then some "is-changed"
  else if r.is_parent then none
  else some "is-unchanged"

/-! ## The diff tree builder (`DiffRenderer._build_tree`)

The source's tree is a nested Python dict whose values are heterogeneous:
a path segment maps to a child subtree (another dict), while the magic key
"root_items" maps to a LIST of records.  `PyNode` mirrors this exactly: a
node is either a dict with insertion-ordered entries or a list of records.
`_build_tree` can raise `AttributeError`: `node.setdefault(part, {})` when
the value reached by the descent is a list, or
`node.setdefault("root_items", []).append(...)` when the existing
"root_items" value is a dict.  Both happen when a path segment is the
literal text "root_items" and collides with the magic key.  The embedding
returns `Except Unit PyNode` with `.error ()` at exactly those points;
`handle_initial` catches every exception and reports status 5. -/

/-- A value of the source's tree dict: a nested dict (insertion-ordered
association list) or a list of records (the "root_items" payload). -/
inductive PyNode where
  | dict (entries : List (String × PyNode))
  | recs (its : List DiffRecord)

/-- Python dict lookup on the insertion-ordered entry list (keys unique). -/
def lookupVal : List (String × PyNode) → String → Option PyNode
  | [], _ => none
  | (k, v) :: rest, key => if k = key then some v else lookupVal rest key

/-- Replace the value stored at an existing key, keeping insertion order
(the mutation performed through the reference Python's `setdefault`
returns; absent keys are handled separately by appending). -/
def setEntry : List (String × PyNode) → String → PyNode → List (String × PyNode)
  | [], _, _ => []
  | (k, v) :: rest, key, nv =>
    if k = key then (k, nv) :: rest else (k, v) :: setEntry rest key nv

/-- The guard of `_build_tree`: a record is kept out of its node's record
list iff it is a parent header that is not matched
(`if not (item["is_parent"] and not item["is_matched"])`). -/
def excludedFromTree (r : DiffRecord) : Bool := r.is_parent && !r.is_matched

/-- One `_build_tree` iteration for record `r`: descend (creating missing
dicts) along the remaining path parts, then append the record under
"root_items" subject to the guard.  `.error ()` at exactly the source's
`AttributeError` points: a `setdefault` call on a list (descending into a
"root_items" list, or appending at a node that IS a list), and an
`.append` on a dict stored under "root_items".  Note that the descent
`setdefault`s happen before the guard, so an excluded record still creates
the intermediate dicts of its path. -/
def insertItem (r : DiffRecord) : PyNode → List String → Except Unit PyNode
  | .recs its, [] => if excludedFromTree r then .ok (.recs its) else .error ()
  | .recs _, _ :: _ => .error ()
  | .dict es, [] =>
    if excludedFromTree r then .ok (.dict es)
    else
      match lookupVal es "root_items" with
      | none => .ok (.dict (es ++ [("root_items", .recs [r])]))
      | some (.recs its) => .ok (.dict (setEntry es "root_items" (.recs (its ++ [r]))))
      | some (.dict _) => .error ()
  | .dict es, p :: ps =>
    match lookupVal es p with
    | none =>
      match insertItem r (.dict []) ps with
      | .error e => .error e
      | .ok child => .ok (.dict (es ++ [(p, child)]))
    | some v =>
      match insertItem r v ps with
      | .error e => .error e
      | .ok child => .ok (.dict (setEntry es p child))

/-- The path segments `_build_tree` descends for an item:
none for an empty path, else the DELIM-separated parts. -/
def pathParts (p : String) : List String := if p = "" then [] else splitChar DELIMC p

/-- The record loop of `_build_tree`, aborting at the first raise. -/
def buildTreeAux : PyNode → List DiffRecord → Except Unit PyNode
  | t, [] => .ok t
  | t, r :: rs =>
    match insertItem r t (pathParts r.path) with
    | .error e => .error e
    | .ok t' => buildTreeAux t' rs

/-- `DiffRenderer._build_tree`: insert every record, in result order, at the
node addressed by its path segments, starting from the empty root dict;
`.error ()` when the source raises `AttributeError`. -/
def buildTree (out : List DiffRecord) : Except Unit PyNode :=
  buildTreeAux (.dict []) out

/-- Follow a key path through nested dict entries. -/
def descendNode : PyNode → List String → Option PyNode
  | t, [] => some t
  | .dict es, p :: ps =>
    match lookupVal es p with
    | some v => descendNode v ps
    | none => none
  | .recs _, _ :: _ => none

/-- The records stored at the node addressed by a key path: the list under
the node's "root_items" key (empty when the node or the list is missing). -/
def nodeItems (t : PyNode) (kp : List String) : List DiffRecord :=
  match descendNode t kp with
  | some (.dict es) =>
    match lookupVal es "root_items" with
    | some (.recs its) => its
    | _ => []
  | _ => []

/-- The records at a key path of the tree built from a record set
(empty when the builder raises). -/
def treeItems (out : List DiffRecord) (kp : List String) : List DiffRecord :=
  match buildTree out with
  | .ok t => nodeItems t kp
  | .error _ => []

/-! ## The compliance summary (`ConfigAuditDiffCheck.handle_initial`) -/

/-- Python `round` on an exact rational: round half to even. -/
def pyRound (q : ℚ) : ℤ :=
  let f := q.floor
  let frac := q - (f : ℚ)
  if frac < 1/2 then f
  else if 1/2 < frac then f + 1
  else if f % 2 = 0 then f else f + 1

/-- Number of records of the output with a given disposition. -/
def dispCount (out : List DiffRecord) (d : Disp) : Nat :=
  out.countP (fun r => decide (disposition r = d))

/-- Number of non-parent records of the output with a given disposition. -/
def dispCountNonParent (out : List DiffRecord) (d : Disp) : Nat :=
  out.countP (fun r => !r.is_parent && decide (disposition r = d))

/-- The compliance tier formula exactly as the specification words it, as a
function of per-disposition counts `u` (unchanged), `c` (changed) and `r`
(removed): fully compliant iff `c` and `r` are both zero, otherwise
partially compliant iff `round(100*u/(u+c+r)) >= 80`, otherwise
non-compliant (status codes 1, 4 and 3 respectively). -/
def claimTier (u c r : Nat) : Nat :=
  if c = 0 ∧ r = 0 then 1
  else if 80 ≤ pyRound (100 * (u : ℚ) / ((u + c + r : ℕ) : ℚ)) then 4
  else 3

/-! ## The rendered HTML and the regex statistics
(`DiffRenderer.render` / `ConfigAuditDiffCheck.handle_initial`)

`handle_initial` computes its statistics with
`len(re.findall(r'class="item\s+is-..."', renderer.html))` over the full
rendered page: the HTML template with the rendered item divs substituted
for `content` (unescaped, `| safe`) and the two raw configuration texts
substituted escaped (`| e`).  The counts are therefore regex-match counts
over a string, not record counts: configuration text is inserted verbatim,
so a config line containing `class="item is-removed"` inflates the counts.
The embedding models the page string and the scan exactly.  Configuration
texts enter as newline-joined line lists, consistent with `parse`
receiving the line list of `cfg.splitlines()`. -/

/-- The character class of Python's regex `\s` on `str` patterns
(`re.UNICODE` is the default): the Unicode whitespace set of CPython's
`sre` engine. -/
def pyIsSpace (c : Char) : Bool :=
  c == ' ' || c == '\t' || c == '\n' || c == '\r' || c == '\x0b' || c == '\x0c' ||
  c == '\x1c' || c == '\x1d' || c == '\x1e' || c == '\x1f' || c == '\x85' || c == '\xa0' ||
  c == '\u1680' || (decide ('\u2000' ≤ c) && decide (c ≤ '\u200a')) ||
  c == '\u2028' || c == '\u2029' || c == '\u202f' || c == '\u205f' || c == '\u3000'

/-- Match a literal character sequence at the front, returning the rest. -/
def litMatch : List Char → List Char → Option (List Char)
  | [], s => some s
  | _ :: _, [] => none
  | p :: ps, c :: cs => if c = p then litMatch ps cs else none

/-- Consume a maximal run of regex whitespace, returning its length and the
rest.  (`\s+` is greedy; backtracking never helps here because the
character after the run in the pattern is never itself whitespace.) -/
def wsChomp : List Char → Nat → Nat × List Char
  | [], n => (n, [])
  | c :: cs, n => if pyIsSpace c then wsChomp cs (n + 1) else (n, c :: cs)

/-- The literal head of all four statistics patterns. -/
def pPat : List Char := "class=\"item".data

/-- Attempt the regex `class="item\s+CLS"` at the current position,
returning the rest of the input after the match. -/
def matchClassAt (cls : List Char) (s : List Char) : Option (List Char) :=
  match litMatch pPat s with
  | none => none
  | some r1 =>
    match wsChomp r1 0 with
    | (0, _) => none
    | (_ + 1, r2) => litMatch (cls ++ ['"']) r2

/-- `re.findall` as a count: scan left to right, at each position try the
pattern; on a match, count it and resume after the match's end (fuel is the
remaining length; every step consumes at least one character). -/
def countAux (cls : List Char) : Nat → List Char → Nat → Nat
  | 0, _, acc => acc
  | _ + 1, [], acc => acc
  | f + 1, c :: rest, acc =>
    match matchClassAt cls (c :: rest) with
    | some after => countAux cls f after (acc + 1)
    | none => countAux cls f rest acc

/-- The item class named by each disposition, as the regex tail. -/
def clsOf : Disp → List Char
  | .added => "is-added".data
  | .removed => "is-removed".data
  | .changed => "is-changed".data
  | .identical => "is-unchanged".data

/-- `len(re.findall(r'class="item\s+CLS"', s))` for the class of
disposition `d`. -/
def reCount (d : Disp) (s : String) : Nat :=
  countAux (clsOf d) s.data.length s.data 0

/-- The full fixed-form occurrence `class="item CLS"` (one space), the only
shape the renderer itself emits. -/
def fullPat (d : Disp) : List Char := pPat ++ ' ' :: (clsOf d ++ ['"'])

/-- Quadruples of counts per disposition class (added, removed, changed,
unchanged), for the verification-side scanner. -/
abbrev Counts := Nat × Nat × Nat × Nat

/-- Project the count of one disposition class. -/
def projC (c : Counts) : Disp → Nat
  | .added => c.1
  | .removed => c.2.1
  | .changed => c.2.2.1
  | .identical => c.2.2.2

/-- The indicator quadruple of one disposition class. -/
def unitC : Disp → Counts
  | .added => (1, 0, 0, 0)
  | .removed => (0, 1, 0, 0)
  | .changed => (0, 0, 1, 0)
  | .identical => (0, 0, 0, 1)

/-- Componentwise sum. -/
def addC (x y : Counts) : Counts :=
  (x.1 + y.1, x.2.1 + y.2.1, x.2.2.1 + y.2.2.1, x.2.2.2 + y.2.2.2)

/-- The zero quadruple. -/
def zeroC : Counts := (0, 0, 0, 0)

/-- Identify which fixed-form occurrence starts here, if any. -/
def classifySite (s : List Char) : Option Disp :=
  if (fullPat .added).isPrefixOf s then some .added
  else if (fullPat .removed).isPrefixOf s then some .removed
  else if (fullPat .changed).isPrefixOf s then some .changed
  else if (fullPat .identical).isPrefixOf s then some .identical
  else none

/-- Verification-side scanner: walk every position; wherever the literal
`class="item` occurs, require a full fixed-form occurrence and count it;
fail otherwise.  Success certifies that every occurrence of the pattern
head in the string is one of the renderer's own item divs. -/
def scanAux : List Char → Counts → Option Counts
  | [], acc => some acc
  | c :: rest, acc =>
    if pPat.isPrefixOf (c :: rest) then
      match classifySite (c :: rest) with
      | some d => scanAux rest (addC acc (unitC d))
      | none => none
    else scanAux rest acc

/-- Scan from zero. -/
def scanCounts (s : List Char) : Option Counts := scanAux s zeroC

/-- The last character cannot begin or continue a pattern-head straddle. -/
def lastSafe (s : List Char) : Bool :=
  match s.getLast? with
  | none => true
  | some c => !pPat.contains c

/-- The first character cannot continue a pattern head started to the left. -/
def headSafe (s : List Char) : Bool :=
  match s.head? with
  | none => true
  | some c => !(pPat.drop 1).contains c

/-- No double quote at all. -/
def qFree (s : List Char) : Bool := !s.contains '"'

/-- No double quote is immediately followed by `i`, and none ends the
string: then no occurrence of `class="item` can start inside the string. -/
def nqiOK (s : List Char) : Prop :=
  (∀ i < s.length, ¬ (s.get? i = some '"' ∧ s.get? (i + 1) = some 'i')) ∧
    s.getLast? ≠ some '"'

instance (s : List Char) : Decidable (nqiOK s) := by
  unfold nqiOK
  infer_instance

/-- Decimal digits of a natural number, Python `str(int)`
(fuel-based structural recursion so that the kernel can evaluate it). -/
def natStrAux : Nat → Nat → List Char
  | 0, _ => []
  | f + 1, n =>
    if n < 10 then [Char.ofNat (48 + n)]
    else natStrAux f (n / 10) ++ [Char.ofNat (48 + n % 10)]

/-- Python `str` of a natural number. -/
def natStr (n : Nat) : String := ⟨natStrAux (n + 1) n⟩

/-- markupsafe `escape` of one character, as used by Jinja's `| e` filter. -/
def escChar (c : Char) : String :=
  if c = '&' then "&amp;"
  else if c = '<' then "&lt;"
  else if c = '>' then "&gt;"
  else if c = '\'' then "&#39;"
  else if c = '"' then "&#34;"
  else String.singleton c

/-- Jinja `{{ x | e }}`: escape every special character. -/
def jinjaEscape (s : String) : String := String.join (s.data.map escChar)

/-- One character of `_highlight_diff`: wrapped in a diff span iff its
index is among the record's diff positions. -/
def hlChar (dps : List Nat) (p : Nat × Char) : String :=
  if dps.contains p.1 then
    "<span class=\"diff-char\">" ++ String.singleton p.2 ++ "</span>"
  else String.singleton p.2

/-- `DiffRenderer._highlight_diff`. -/
def highlightDiff (text : String) (dps : List Nat) : String :=
  if dps = [] then text
  else String.join (text.data.enum.map (hlChar dps))

/-- `DiffRenderer._render_simple_item`. -/
def renderSimpleItem (r : DiffRecord) (cls icon : String) : String :=
  "<div class=\"item " ++ cls ++ "\" data-type=\"" ++ cls ++ "\">" ++
    "<i class=\"fas fa-" ++ icon ++ "\"></i>" ++ r.string ++ "</div>"

/-- `DiffRenderer._render_changed_item`. -/
def renderChangedItem (r : DiffRecord) : String :=
  "<div class=\"item is-changed\" data-type=\"is-changed\">" ++
    "<i class=\"fas fa-not-equal\"></i>" ++
    highlightDiff r.string r.diff_positions ++
    "<span class=\"arrow\"><i class=\"fas fa-arrow-right\"></i></span>" ++
    highlightDiff r.best_match r.diff_positions ++ "</div>"

/-- `DiffRenderer._render_item`: the branch order of the source. -/
def renderItem (r : DiffRecord) : String :=
  if r.is_added then renderSimpleItem r "is-added" "plus"
  else if !r.is_matched then renderSimpleItem r "is-removed" "minus"
  else if r.similarity_score < 1 then renderChangedItem r
  else if r.is_parent then ""
  else renderSimpleItem r "is-unchanged" "equals"

/-- The `path_scores` key of a record:
`DELIM.join([path, string] if path else [string])`. -/
def scoreKey (r : DiffRecord) : String :=
  if r.path = "" then r.string else r.path ++ DELIM ++ r.string

/-- `self.path_scores.get(k)`: every record writes its key in order, later
writes win (Python dict assignment). -/
def scoreLookup (out : List DiffRecord) (k : String) : Option ℚ :=
  match (out.filter (fun r => scoreKey r == k)).getLast? with
  | some r => some r.similarity_score
  | none => none

/-- `DiffRenderer._get_section_state` on a node's entries: the state comes
from the path score of the first record of the node's "root_items" list
(-1.0 for removed, -2.0 for added).  An empty list, a missing key, and an
empty dict under the key are all falsy (`if not items: return None`); a
non-empty dict under the key is unreachable here because `_render_section`
raises in its loop before calling `_get_section_state`. -/
def stateOfNode (out : List DiffRecord) (es : List (String × PyNode)) : Option String :=
  match lookupVal es "root_items" with
  | some (.recs (it :: _)) =>
    (match scoreLookup out it.path with
     | some sc => if sc = -1 then some "removed" else if sc = -2 then some "added" else none
     | none => none)
  | _ => none

/-- `f"card is-{state}" if state else "card"`. -/
def cardCls (state : Option String) : String :=
  match state with
  | some st => "card is-" ++ st
  | none => "card"

/-- The six literal pieces of the `_render_section` card f-string. -/
def cc1 : String := "\n            <div class=\""

/-- Card piece between the class and the depth. -/
def cc2 : String := "\" data-depth=\""

/-- Card piece between the depth and its second use. -/
def cc3 : String := "\" style=\"--depth: "

/-- Card piece between the second depth and the title. -/
def cc4 : String := ";\">\n                <div class=\"card-header\">\n                    <i class=\"fas fa-chevron-down toggle-icon\"></i>"

/-- Card piece between the title and the joined body. -/
def cc5 : String := "\n                </div>\n                <div class=\"card-body\">\n                    "

/-- Card closing piece. -/
def cc6 : String := "\n                </div>\n            </div>\n        "

/-- The card f-string of `_render_section`. -/
def cardString (state : Option String) (depth : Nat) (title body : String) : String :=
  cc1 ++ cardCls state ++ cc2 ++ natStr depth ++ cc3 ++ natStr depth ++ cc4 ++
    title ++ cc5 ++ body ++ cc6

/-- The "root_items" arm of the `_render_section` loop:
`section.extend(self._render_item(item) for item in value)`.  Iterating a
list renders each record; iterating a dict yields its keys, which are
strings, and `str.get` raises `AttributeError` on the first one - so a
non-empty dict is an error and an empty dict contributes nothing. -/
def renderItemsVal : PyNode → Except Unit (List String)
  | .recs its => .ok (its.map renderItem)
  | .dict [] => .ok []
  | .dict (_ :: _) => .error ()

mutual

/-- `DiffRenderer._render_section(title, subtree, depth)`: on a list value
`.items()` raises `AttributeError`; on a dict, render the loop body, return
`""` when the section list stayed empty, else the card around the joined
pieces. -/
def renderVal (out : List DiffRecord) (title : String) (depth : Nat) :
    PyNode → Except Unit String
  | .recs _ => .error ()
  | .dict es =>
    match renderBody out es depth with
    | .error e => .error e
    | .ok parts =>
      if parts.isEmpty then .ok ""
      else .ok (cardString (stateOfNode out es) depth title (String.join parts))

/-- The `for key, value in subtree.items()` loop of `_render_section`:
"root_items" extends with the item renders, any other key appends one
nested section render. -/
def renderBody (out : List DiffRecord) :
    List (String × PyNode) → Nat → Except Unit (List String)
  | [], _ => .ok []
  | (k, v) :: rest, depth =>
    match (if k = "root_items" then renderItemsVal v
           else
             match renderVal out k (depth + 1) v with
             | .error e => .error e
             | .ok s => .ok [s]) with
    | .error e => .error e
    | .ok pieces =>
      match renderBody out rest depth with
      | .error e => .error e
      | .ok more => .ok (pieces ++ more)

end

/-- Python `self.tree.pop("root_items", [])`: the removed value (if any)
and the remaining entries in order. -/
def popEntry : List (String × PyNode) → String → Option PyNode × List (String × PyNode)
  | [], _ => (none, [])
  | (k, v) :: rest, key =>
    if k = key then (some v, rest)
    else
      match popEntry rest key with
      | (found, rest') => (found, (k, v) :: rest')

/-- Python truthiness of a tree value (`if global_items:`). -/
def pyTruthy : PyNode → Bool
  | .recs its => !its.isEmpty
  | .dict es => !es.isEmpty

/-- `if global_items: html.append(self._render_section("global",
{"root_items": global_items}, depth=0))`. -/
def renderGlobal (out : List DiffRecord) : Option PyNode → Except Unit (List String)
  | some g =>
    if pyTruthy g then
      match renderVal out "global" 0 (.dict [("root_items", g)]) with
      | .error e => .error e
      | .ok s => .ok [s]
    else .ok []
  | none => .ok []

/-- The `for section, subtree in self.tree.items()` loop of `render`. -/
def renderTops (out : List DiffRecord) : List (String × PyNode) → Except Unit (List String)
  | [] => .ok []
  | (k, v) :: rest =>
    match renderVal out k 0 v with
    | .error e => .error e
    | .ok s =>
      match renderTops out rest with
      | .error e => .error e
      | .ok more => .ok (s :: more)

/-- The `content` string of `render`: pop "root_items", render the global
section (when truthy) then every remaining top section, and join the html
list with newlines (empty section strings are appended and joined too). -/
def renderContent (out : List DiffRecord) (es : List (String × PyNode)) :
    Except Unit String :=
  match renderGlobal out (popEntry es "root_items").1 with
  | .error e => .error e
  | .ok glist =>
    match renderTops out (popEntry es "root_items").2 with
    | .error e => .error e
    | .ok tops => .ok (String.intercalate "\n" (glist ++ tops))

/-- Verbatim segment of the source HTML_TEMPLATE (in order). -/
def tplA1 : String := "<!DOCTYPE html>\n<html>\n<head>\n    <meta charset=\"utf-8\">\n    <title>Config Differ</title>\n    <link rel=\"stylesheet\" href=\"https://cdnjs.cloudflare.com/ajax/libs/font-awesome/6.0.0-beta3/css/all.min.css\">\n    <link href=\"https://fonts.googleapis.com/css2?family=Inter:wght@400;600&display=swap\" rel=\"stylesheet\">\n    <style>\n        * \x7b\n            box-sizing: border-box;\n        \x7d\n\n        html, body \x7b\n            height: 100%;\n            margin: 0;\n            padding: 0;\n            overflow: hidden; \n        \x7d\n\n        body \x7b\n            font-family: 'Inter', sans-serif;\n            font-size: 12px;\n            background: #ffffff;\n            color: #222;\n            display: flex;\n            flex-direction: column;\n        \x7d\n\n        i \x7b\n            margin-right: 8px;\n        \x7d\n\n        .toolbar \x7b\n            position: sticky;\n"

/-- Verbatim segment of the source HTML_TEMPLATE (in order). -/
def tplA2 : String := "            top: 0;\n            z-index: 100;\n            height: 48px;\n            min-height: 42px;\n            padding: 6px 8px;\n            background: #ffffff;\n            border-bottom: 1px solid #d0d7e2;\n            display: flex;\n            align-items: center;\n        \x7d\n\n        .toolbar button \x7b\n            padding: 8px;\n            font-size: 12px;\n            margin-right: 6px;\n            cursor: pointer;\n            border: 1px solid #c7ccd6;\n            background: #f3f6fb;\n            border-radius: 3px;\n        \x7d\n\n        .toolbar button:hover \x7b\n            background: #e8eef9;\n        \x7d\n\n        .toolbar .sep \x7b\n            width: 1px;\n            height: 18px;\n            background: #ccc;\n            margin: 0 6px;\n        \x7d\n\n        .toolbar label \x7b\n            margin-right: 12px;\n            cursor: pointer;\n"

/-- Verbatim segment of the source HTML_TEMPLATE (in order). -/
def tplA3 : String := "        \x7d\n\n        .toolbar input[type=\"checkbox\"] \x7b\n            vertical-align: middle;\n            margin-right: 4px;\n        \x7d\n\n        /* Filter toggle buttons */\n\n        .filter-btn \x7b\n            border-color: #c7ccd6;\n            background: #f3f6fb;\n            color: #222;\n        \x7d\n\n        .filter-btn.active \x7b\n            background: #1e5bb8;\n            color: #ffffff;\n            border-color: #1e5bb8;\n        \x7d\n\n        .filter-btn.active:hover \x7b\n            background: #154a9c;\n            border-color: #154a9c;\n        \x7d\n\n        .main-layout \x7b\n            flex: 1;\n            display: flex;\n            min-height: 0;\n        \x7d\n\n        .diff-pane \x7b\n            flex: 1;\n            overflow-y: auto;\n            padding-right: 6px;\n            margin: 0 8px;\n            background: #ffffff;\n        \x7d\n\n        .card \x7b\n"

/-- Verbatim segment of the source HTML_TEMPLATE (in order). -/
def tplA4 : String := "            --indent: calc(var(--depth) * 14px);\n            margin: 10px 4px 10px var(--indent);\n            border: 1px solid #d0d7e2;\n            border-radius: 4px;\n            background: #ffffff;\n            position: relative;\n        \x7d\n\n        /* vertical hierarchy line */\n\n        .card::before \x7b\n            content: \"\";\n            position: absolute;\n            left: -8px;\n            top: 0;\n            bottom: 0;\n            width: 1px;\n            background: #d0d7e2;\n        \x7d\n\n        .card[data-depth=\"0\"]::before \x7b\n            display: none;\n        \x7d\n\n        .card-header \x7b\n            background: #f3f6fb;\n            color: #1e5bb8;\n            font-weight: 600;\n            padding: 6px 10px;\n            border-bottom: 1px solid #d0d7e2;\n            cursor: pointer;\n            user-select: none;\n"

/-- Verbatim segment of the source HTML_TEMPLATE (in order). -/
def tplA5 : String := "            display: flex;\n            align-items: center;\n        \x7d\n\n        .toggle-icon \x7b\n            transition: transform 0.2s ease;\n            margin-right: 6px;\n        \x7d\n\n        .card.collapsed .toggle-icon \x7b\n            transform: rotate(-90deg);\n        \x7d\n\n        .card-body \x7b\n            padding: 4px 0;\n        \x7d\n\n        .card.collapsed .card-body \x7b\n            display: none;\n        \x7d\n\n        .card.is-removed \x7b\n            border-color: #d93025;\n        \x7d\n\n        .card.is-removed .card-header \x7b\n            background: #ffebeb;\n            border-bottom-color: #d93025;\n            color: #d93025;\n        \x7d\n\n        .card.is-added \x7b\n            border-color: #188038;\n        \x7d\n\n        .card.is-added .card-header \x7b\n            background: #e6ffed;\n            border-bottom-color: #188038;\n            color: #188038;\n"

/-- Verbatim segment of the source HTML_TEMPLATE (in order). -/
def tplA6 : String := "        \x7d\n\n        .item \x7b\n            padding: 6px 8px;\n            margin: 0 4px;\n            border-left: 3px solid transparent;\n            border-radius: 3px;\n        \x7d\n\n        /* Added */\n\n        .item.is-added \x7b\n            background: #e6ffed;\n            border-left-color: #188038;\n        \x7d\n\n        .item.is-added i \x7b\n            color: #188038;\n        \x7d\n\n        /* Removed */\n\n        .item.is-removed \x7b\n            background: #ffecec;\n            border-left-color: #d93025;\n        \x7d\n\n        .item.is-removed i \x7b\n            color: #d93025;\n        \x7d\n\n        /* Changed */\n\n        .item.is-changed \x7b\n            background: #fff6e5;\n            border-left-color: #f4a100;\n        \x7d\n\n        .item.is-changed i \x7b\n            color: #f4a100;\n        \x7d\n\n        /* Unchanged */\n\n        .item.is-same \x7b\n"

/-- Verbatim segment of the source HTML_TEMPLATE (in order). -/
def tplA7 : String := "            background: #ffffff;\n            border-left-color: #e0e0e0;\n        \x7d\n\n        .item.is-same i \x7b\n            color: #888;\n            opacity: 0.6;\n        \x7d\n\n        .diff-char \x7b\n            color: #d93025;\n            background: #ffcccc;\n            padding: 0 1px;\n            border-radius: 2px;\n        \x7d\n\n        .arrow \x7b\n            margin: 0 8px;\n        \x7d\n\n        .raw-pane \x7b\n            width: 40%;\n            background: #f9fafc;\n            border-left: 1px solid #d0d7e2;\n            display: flex;\n            flex-direction: column;\n            overflow: hidden;\n        \x7d\n\n        .raw-pane.hidden \x7b\n            display: none;\n        \x7d\n\n        .raw-header \x7b\n            display: flex;\n            align-items: center;\n            background: #eef2f8;\n            border-bottom: 1px solid #d0d7e2;\n        \x7d\n\n"

/-- Verbatim segment of the source HTML_TEMPLATE (in order). -/
def tplA8 : String := "        .raw-header button \x7b\n            font-size: 12px;\n        \x7d\n\n        .raw-tab \x7b\n            padding: 6px 12px;\n            border: none;\n            background: transparent;\n            cursor: pointer;\n            font-weight: 600;\n        \x7d\n\n        .raw-tab.active \x7b\n            background: #ffffff;\n            border-bottom: 2px solid #1e5bb8;\n            color: #1e5bb8;\n        \x7d\n\n        .raw-close \x7b\n            margin-left: auto;\n            padding: 6px 10px;\n            border: none;\n            background: transparent;\n            cursor: pointer;\n        \x7d\n\n        .raw-content \x7b\n            flex: 1;\n            padding: 8px;\n            font-family: 'Inter', monospace;\n            line-height: 1.8;\n            overflow-y: auto;\n            background: #ffffff;\n            display: none;\n        \x7d\n\n"

/-- Verbatim segment of the source HTML_TEMPLATE (in order). -/
def tplA9 : String := "        .raw-content.active \x7b\n            display: block;\n        \x7d\n    </style>\n</head>\n<body>\n<div class=\"toolbar\">\n    <button class=\"filter-btn\" data-filter=\"is-added\">\n        <i class=\"fas fa-plus\"></i>Added\n    </button>\n    <button class=\"filter-btn active\" data-filter=\"is-removed\">\n        <i class=\"fas fa-minus\"></i>Removed\n    </button>\n    <button class=\"filter-btn active\" data-filter=\"is-changed\">\n        <i class=\"fas fa-not-equal\"></i>Changed\n    </button>\n    <button class=\"filter-btn\" data-filter=\"is-unchanged\">\n        <i class=\"fas fa-equals\"></i>Same\n    </button>\n\n    <span class=\"sep\"></span>\n\n    <button id=\"expand-all\">\n        <i class=\"fas fa-expand\"></i>Expand All\n    </button>\n    <button id=\"collapse-all\">\n        <i class=\"fas fa-compress\"></i>Collapse All\n    </button>\n    <button id=\"show-raw\">\n"

/-- Verbatim segment of the source HTML_TEMPLATE (in order). -/
def tplA10 : String := "        <i class=\"fas fa-book\"></i>Raw\n    </button>\n</div>\n\n<div class=\"main-layout\">\n    <div class=\"diff-pane\">\n        "

/-- Verbatim segment of the source HTML_TEMPLATE (in order). -/
def tplB1 : String := "\n    </div>\n\n    <div id=\"raw-pane\" class=\"raw-pane hidden\">\n        <div class=\"raw-header\">\n            <button class=\"raw-tab active\" data-target=\"raw-base\">Base</button>\n            <button class=\"raw-tab\" data-target=\"raw-target\">Target</button>\n            <button id=\"close-raw\" class=\"raw-close\">\n                <i class=\"fas fa-times\"></i>\n            </button>\n        </div>\n\n        <pre id=\"raw-base\" class=\"raw-content active\">"

/-- Verbatim segment of the source HTML_TEMPLATE (in order). -/
def tplC1 : String := "</pre>\n        <pre id=\"raw-target\" class=\"raw-content\">"

/-- Verbatim segment of the source HTML_TEMPLATE (in order). -/
def tplD1 : String := "</pre>\n\n    </div>\n</div>\n<script>\n    /* ---------- Section Toggle ---------- */\n    document.querySelectorAll('.card-header').forEach(header => \x7b\n        header.addEventListener('click', () => \x7b\n            header.closest('.card').classList.toggle('collapsed');\n        \x7d);\n    \x7d);\n\n    /* ---------- Expand / Collapse ---------- */\n    document.getElementById('expand-all').onclick = () => \x7b\n        document.querySelectorAll('.card').forEach(c => c.classList.remove('collapsed'));\n    \x7d;\n\n    document.getElementById('collapse-all').onclick = () => \x7b\n        document.querySelectorAll('.card').forEach(c => c.classList.add('collapsed'));\n    \x7d;\n\n    /* ---------- Filter Toggle Buttons ---------- */\n    function applyFilters() \x7b\n        const enabled = new Set(\n            Array.from(document.querySelectorAll('.filter-btn.active'))\n"

/-- Verbatim segment of the source HTML_TEMPLATE (in order). -/
def tplD2 : String := "                .map(btn => btn.dataset.filter)\n        );\n\n        document.querySelectorAll('.item').forEach(item => \x7b\n            const visible = [...item.classList].some(cls => enabled.has(cls));\n            item.style.display = visible ? '' : 'none';\n        \x7d);\n\n        updateCardVisibility();\n    \x7d\n\n    document.querySelectorAll('.filter-btn').forEach(btn => \x7b\n        btn.addEventListener('click', () => \x7b\n            btn.classList.toggle('active');\n            applyFilters();\n        \x7d);\n    \x7d);\n\n    /* ---------- Hide empty cards ---------- */\n    function updateCardVisibility() \x7b\n        document.querySelectorAll('.card').forEach(card => \x7b\n            const visibleItems = card.querySelectorAll('.item:not([style*=\"display: none\"])');\n            card.style.display = visibleItems.length ? '' : 'none';\n        \x7d);\n    \x7d\n\n"

/-- Verbatim segment of the source HTML_TEMPLATE (in order). -/
def tplD3 : String := "    /* Initial state */\n    applyFilters();\n\n    /* ---------- Raw Pane Toggle ---------- */\n    const rawPane = document.getElementById('raw-pane');\n    const showRawBtn = document.getElementById('show-raw');\n    const closeRawBtn = document.getElementById('close-raw');\n\n    showRawBtn.onclick = () => \x7b\n        rawPane.classList.toggle('hidden');\n    \x7d;\n\n    closeRawBtn.onclick = () => \x7b\n        rawPane.classList.add('hidden');\n    \x7d;\n\n    /* ---------- Raw Tabs ---------- */\n    document.querySelectorAll('.raw-tab').forEach(tab => \x7b\n        tab.addEventListener('click', () => \x7b\n            document.querySelectorAll('.raw-tab').forEach(t => t.classList.remove('active'));\n            document.querySelectorAll('.raw-content').forEach(c => c.classList.remove('active'));\n\n            tab.classList.add('active');\n"

/-- Verbatim segment of the source HTML_TEMPLATE (in order). -/
def tplD4 : String := "            document.getElementById(tab.dataset.target).classList.add('active');\n        \x7d);\n    \x7d);\n</script>\n</body>\n</html>"

/-- The HTML template before the `content` placeholder. -/
def tplA : String := tplA1 ++ tplA2 ++ tplA3 ++ tplA4 ++ tplA5 ++ tplA6 ++ tplA7 ++ tplA8 ++ tplA9 ++ tplA10

/-- The HTML template between `content` and the escaped base config pane. -/
def tplB : String := tplB1

/-- The HTML template between the two escaped config panes. -/
def tplC : String := tplC1

/-- The HTML template after the escaped target config pane. -/
def tplD : String := tplD1 ++ tplD2 ++ tplD3 ++ tplD4

/-- `DiffRenderer.render` as the final page string: build the tree, render
the content, then substitute into the template - `content` raw (`| safe`),
the two configuration texts escaped (`| e`), base pane first.  The builder
root is always a dict, so the `.recs` arm is unreachable; any
`AttributeError` of the build or the section loop propagates as
`.error ()`. -/
def renderHtml (target_lines base_lines : List String) : Except Unit String :=
  match buildTree (ConfDiff.compare target_lines base_lines) with
  | .error e => .error e
  | .ok (.recs _) => .error ()
  | .ok (.dict es) =>
    match renderContent (ConfDiff.compare target_lines base_lines) es with
    | .error e => .error e
    | .ok content =>
      .ok (tplA ++ content ++ tplB ++
        jinjaEscape (String.intercalate "\n" base_lines) ++ tplC ++
        jinjaEscape (String.intercalate "\n" target_lines) ++ tplD)

/-- The page string, or `""` when the pipeline raises (accessor for
stating count equalities). -/
def htmlOf (tl bl : List String) : String :=
  match renderHtml tl bl with
  | .ok h => h
  | .error _ => ""

/-- The status code `handle_initial` stores: 5 when any step raises
(`except Exception`), else 1 for COMPLIANT (zero changed and zero removed
regex counts), else 4 for PARTIALLY COMPLIANT when the rounded unchanged
percentage over the baseline total is at least 80 (100 when the total is
zero), else 3 for NON-COMPLIANT.  The float percentage is modelled exactly
on rationals. -/
def checkStatus (target_lines base_lines : List String) : Nat :=
  match renderHtml target_lines base_lines with
  | .error _ => 5
  | .ok html =>
    if reCount Disp.changed html = 0 ∧ reCount Disp.removed html = 0 then 1
    else if 80 ≤ (if reCount Disp.identical html + reCount Disp.changed html +
          reCount Disp.removed html = 0 then (100 : ℤ)
        else pyRound ((reCount Disp.identical html : ℚ) /
          ((reCount Disp.identical html + reCount Disp.changed html +
            reCount Disp.removed html : ℕ) : ℚ) * 100)) then 4
    else 3

/-! ## Token and similarity lemmas -/

theorem splitTokensAux_ne_nil_of_acc {cs : List Char} {acc : List Char} (h : ¬ acc.isEmpty) :
    splitTokensAux cs acc ≠ [] := by
  induction cs generalizing acc with
  | nil => simp [splitTokensAux, h]
  | cons c cs ih =>
    by_cases hs : isSpaceChar c
    · simp only [splitTokensAux, hs, if_true, h, if_neg, if_false]
      simp [h]
    · simp only [splitTokensAux, hs, if_false]
      exact ih (by simp)

theorem splitTokensAux_ne_nil {cs : List Char} {acc : List Char}
    (h : ∃ c ∈ cs, ¬ isSpaceChar c) : splitTokensAux cs acc ≠ [] := by
  induction cs generalizing acc with
  | nil => simp at h
  | cons c cs ih =>
    by_cases hs : isSpaceChar c
    · have h' : ∃ d ∈ cs, ¬ isSpaceChar d := by
        rcases h with ⟨d, hd, hdn⟩
        rcases List.mem_cons.mp hd with hd | hd
        · exact absurd hs (by rw [hd] at hdn; exact hdn)
        · exact ⟨d, hd, hdn⟩
      by_cases ha : acc.isEmpty
      · simpa [splitTokensAux, hs, ha] using @ih [] h'
      · simp [splitTokensAux, hs, ha]
    · simpa [splitTokensAux, hs] using
        @splitTokensAux_ne_nil_of_acc cs (c :: acc) (by simp)

theorem dropWhile_eq_cons_head_not {p : Char → Bool} :
    ∀ {l : List Char} {c : Char} {rest : List Char},
      l.dropWhile p = c :: rest → p c = false := by
  intro l
  induction l with
  | nil => intro c rest h; simp [List.dropWhile] at h
  | cons a l ih =>
    intro c rest h
    rw [List.dropWhile_cons] at h
    by_cases ha : p a
    · exact ih (by simpa [ha] using h)
    · rw [if_neg (by simpa using ha)] at h
      cases h
      simpa using ha

/-- A non-empty stripped line splits into at least one token. -/
theorem pySplit_pyStrip_ne_nil {s : String} (h : pyStrip s ≠ "") : pySplit (pyStrip s) ≠ [] := by
  have hne : pyStripList s.data ≠ [] := by
    intro hnil
    exact h (show pyStrip s = "" by simp [pyStrip, hnil])
  rcases hc : (s.data.dropWhile isSpaceChar).reverse.dropWhile isSpaceChar with _ | ⟨c, rest⟩
  · exact absurd (by simp [pyStripList, hc]) hne
  · have hcw : isSpaceChar c = false := dropWhile_eq_cons_head_not hc
    have hmem : ∃ d ∈ (pyStrip s).data, ¬ isSpaceChar d := by
      refine ⟨c, ?_, by simp [hcw]⟩
      show c ∈ pyStripList s.data
      simp [pyStripList, hc]
    simp only [pySplit]
    intro hcon
    exact splitTokensAux_ne_nil hmem (List.map_eq_nil_iff.mp hcon)

theorem matchLen_self : ∀ xs : List String, matchLen xs xs = xs.length := by
  intro xs
  induction xs with
  | nil => rfl
  | cons x xs ih => simp [matchLen, ih]

theorem matchLen_le_left : ∀ xs ys : List String, matchLen xs ys ≤ xs.length := by
  intro xs
  induction xs with
  | nil => intro ys; cases ys <;> simp [matchLen]
  | cons x xs ih =>
    intro ys
    cases ys with
    | nil => simp [matchLen]
    | cons y ys =>
      by_cases hxy : x = y
      · simpa [matchLen, hxy] using ih ys
      · simp [matchLen, hxy]

theorem matchLen_le_right : ∀ xs ys : List String, matchLen xs ys ≤ ys.length := by
  intro xs
  induction xs with
  | nil => intro ys; cases ys <;> simp [matchLen]
  | cons x xs ih =>
    intro ys
    cases ys with
    | nil => simp [matchLen]
    | cons y ys =>
      by_cases hxy : x = y
      · simpa [matchLen, hxy] using ih ys
      · simp [matchLen, hxy]

theorem eq_of_matchLen_eq_max :
    ∀ xs ys : List String, matchLen xs ys = max xs.length ys.length → xs = ys := by
  intro xs
  induction xs with
  | nil =>
    intro ys h
    cases ys with
    | nil => rfl
    | cons y ys => simp [matchLen] at h
  | cons x xs ih =>
    intro ys h
    cases ys with
    | nil => simp [matchLen] at h
    | cons y ys =>
      by_cases hxy : x = y
      · subst hxy
        have hm : matchLen (x :: xs) (x :: ys) = matchLen xs ys + 1 := by simp [matchLen]
        rw [hm, List.length_cons, List.length_cons] at h
        have h' : matchLen xs ys = max xs.length ys.length := by
          have hle1 := matchLen_le_left xs ys
          have hle2 := matchLen_le_right xs ys
          omega
        rw [ih ys h']
      · simp only [matchLen, if_neg hxy, List.length_cons] at h
        omega

theorem left_prefix_similarity_nonneg (a b : String) : 0 ≤ left_prefix_similarity a b := by
  unfold left_prefix_similarity
  split
  · exact le_refl 0
  · positivity

theorem left_prefix_similarity_le_one (a b : String) : left_prefix_similarity a b ≤ 1 := by
  unfold left_prefix_similarity
  split
  · norm_num
  · rename_i hmax
    have hpos : (0 : ℚ) < (max (pySplit a).length (pySplit b).length : ℚ) := by
      exact_mod_cast Nat.pos_of_ne_zero hmax
    rw [div_le_one hpos]
    exact_mod_cast (matchLen_le_left (pySplit a) (pySplit b)).trans
      (le_max_left (pySplit a).length (pySplit b).length)

theorem left_prefix_similarity_self {a : String} (h : pySplit a ≠ []) :
    left_prefix_similarity a a = 1 := by
  unfold left_prefix_similarity
  have hlen : (pySplit a).length ≠ 0 := by simpa using h
  rw [if_neg (by simpa using hlen), matchLen_self, max_self]
  exact div_self (by exact_mod_cast hlen)

theorem pySplit_eq_of_left_prefix_similarity_eq_one {a b : String}
    (h : left_prefix_similarity a b = 1) : pySplit a = pySplit b := by
  unfold left_prefix_similarity at h
  split at h
  · norm_num at h
  · rename_i hmax
    have hpos : (0 : ℚ) < (max (pySplit a).length (pySplit b).length : ℚ) := by
      have : 0 < max (pySplit a).length (pySplit b).length := Nat.pos_of_ne_zero hmax
      exact_mod_cast this
    rw [div_eq_one_iff_eq (ne_of_gt hpos)] at h
    exact eq_of_matchLen_eq_max _ _ (by exact_mod_cast h)

theorem token_jaccard_nonneg (a b : String) : 0 ≤ token_jaccard a b := by
  unfold token_jaccard
  split
  · norm_num
  · positivity

theorem token_jaccard_le_one (a b : String) : token_jaccard a b ≤ 1 := by
  unfold token_jaccard
  split
  · norm_num
  · rename_i hne
    have hunion : ((pySplit a).toFinset ∪ (pySplit b).toFinset) ≠ ∅ := by
      intro hcon
      exact hne (by constructor <;>
        [exact Finset.union_eq_empty.mp hcon |>.1; exact Finset.union_eq_empty.mp hcon |>.2])
    have hpos : (0 : ℚ) <
        (((pySplit a).toFinset ∪ (pySplit b).toFinset).card : ℚ) := by
      exact_mod_cast Finset.card_pos.mpr (Finset.nonempty_iff_ne_empty.mpr hunion)
    rw [div_le_one hpos]
    exact_mod_cast Finset.card_le_card Finset.inter_subset_union

theorem token_jaccard_eq_one_of_eq {a b : String} (h : pySplit a = pySplit b) :
    token_jaccard a b = 1 := by
  unfold token_jaccard
  rw [h]
  split
  · rfl
  · rename_i hne
    have hset : (pySplit b).toFinset ≠ ∅ := by
      intro hcon
      exact hne ⟨hcon, hcon⟩
    rw [Finset.inter_self, Finset.union_self]
    exact div_self (by
      exact_mod_cast Nat.pos_of_ne_zero (fun hc =>
        hset (Finset.card_eq_zero.mp hc)) |>.ne')

theorem cisco_similarity_nonneg (a b : String) : 0 ≤ cisco_similarity a b := by
  unfold cisco_similarity
  split
  · exact le_refl 0
  · exact le_refl 0
  · split
    · exact le_refl 0
    · split
      · exact le_refl 0
      · have h1 := left_prefix_similarity_nonneg a b
        have h2 := token_jaccard_nonneg a b
        linarith

theorem cisco_similarity_le_one (a b : String) : cisco_similarity a b ≤ 1 := by
  unfold cisco_similarity
  split
  · norm_num
  · norm_num
  · split
    · norm_num
    · split
      · norm_num
      · have h1 := left_prefix_similarity_le_one a b
        have h2 := token_jaccard_le_one a b
        linarith

theorem cisco_similarity_self {a : String} (h : pySplit a ≠ []) :
    cisco_similarity a a = 1 := by
  unfold cisco_similarity
  rcases hs : pySplit a with _ | ⟨a0, ta⟩
  · exact absurd hs h
  · simp only
    rw [if_neg (by simp), if_neg (by simp)]
    rw [left_prefix_similarity_self h, token_jaccard_eq_one_of_eq rfl]
    norm_num

theorem cisco_similarity_eq_one_iff {a b : String} (ha : pySplit a ≠ []) (hb : pySplit b ≠ []) :
    cisco_similarity a b = 1 ↔ pySplit a = pySplit b := by
  constructor
  · intro h
    unfold cisco_similarity at h
    rcases hsa : pySplit a with _ | ⟨a0, ta⟩
    · exact absurd hsa ha
    rcases hsb : pySplit b with _ | ⟨b0, tb⟩
    · exact absurd hsb hb
    rw [hsa, hsb] at h
    simp only at h
    split at h
    · norm_num at h
    · split at h
      · norm_num at h
      · have h1 := left_prefix_similarity_le_one a b
        have h2 := token_jaccard_le_one a b
        have h3 := left_prefix_similarity_nonneg a b
        have h4 := token_jaccard_nonneg a b
        have hp1 : left_prefix_similarity a b = 1 := by linarith
        have hres := pySplit_eq_of_left_prefix_similarity_eq_one hp1
        rw [hsa, hsb] at hres
        exact hres
  · intro h
    unfold cisco_similarity
    rcases hsa : pySplit a with _ | ⟨a0, ta⟩
    · exact absurd hsa ha
    rcases hsb : pySplit b with _ | ⟨b0, tb⟩
    · exact absurd hsb hb
    have hab : a0 = b0 ∧ ta = tb := by
      rw [hsa, hsb] at h
      exact ⟨by injection h, by injection h⟩
    simp only
    rw [if_neg (by simp [hab.1]), if_neg (by simp [hab.1, hab.2])]
    have hp : left_prefix_similarity a b = 1 := by
      unfold left_prefix_similarity
      rw [h, matchLen_self]
      have hlen : (pySplit b).length ≠ 0 := by simpa using hb
      rw [if_neg (by simpa using hlen), max_self]
      exact div_self (show ((pySplit b).length : ℚ) ≠ 0 from Nat.cast_ne_zero.mpr hlen)
    rw [hp, token_jaccard_eq_one_of_eq h]
    norm_num

/-! ## Candidate pool lemmas -/

theorem candidatesAux_mem {path : String} {used : List Nat} :
    ∀ (ts : List ParsedLine) (i : Nat) (c : Nat × ParsedLine),
      c ∈ candidatesAux path used i ts ↔
        ((∃ k, ts.get? k = some c.2 ∧ c.1 = i + k) ∧ c.2.path = path ∧ c.1 ∉ used) := by
  intro ts
  induction ts with
  | nil => intro i c; simp [candidatesAux]
  | cons t ts ih =>
    intro i c
    by_cases hc : t.path = path ∧ i ∉ used
    · rw [candidatesAux, if_pos hc]
      constructor
      · intro hmem
        rcases List.mem_cons.mp hmem with hmem | hmem
        · subst hmem
          exact ⟨⟨0, by simp, by simp⟩, hc.1, hc.2⟩
        · rcases (ih (i + 1) c).mp hmem with ⟨⟨k, hk1, hk2⟩, hp, hu⟩
          exact ⟨⟨k + 1, by simpa using hk1, by omega⟩, hp, hu⟩
      · rintro ⟨⟨k, hk1, hk2⟩, hp, hu⟩
        cases k with
        | zero =>
          have h2 : t = c.2 := by simpa using hk1
          have h1 : c.1 = i := by simpa using hk2
          exact List.mem_cons.mpr (Or.inl (Prod.ext h1 h2.symm))
        | succ k =>
          refine List.mem_cons.mpr (Or.inr ((ih (i + 1) c).mpr ⟨⟨k, ?_, by omega⟩, hp, hu⟩))
          simpa using hk1
    · rw [candidatesAux, if_neg hc]
      rw [ih (i + 1) c]
      constructor
      · rintro ⟨⟨k, hk1, hk2⟩, hp, hu⟩
        exact ⟨⟨k + 1, by simpa using hk1, by omega⟩, hp, hu⟩
      · rintro ⟨⟨k, hk1, hk2⟩, hp, hu⟩
        cases k with
        | zero =>
          exfalso
          have h2 : t = c.2 := by simpa using hk1
          have h1 : c.1 = i := by simpa using hk2
          rw [← h2] at hp
          rw [h1] at hu
          exact hc ⟨hp, hu⟩
        | succ k =>
          exact ⟨⟨k, by simpa using hk1, by omega⟩, hp, hu⟩

theorem candidatesAux_pairwise {path : String} {used : List Nat} :
    ∀ (ts : List ParsedLine) (i : Nat),
      (candidatesAux path used i ts).Pairwise (fun a b => a.1 < b.1) := by
  intro ts
  induction ts with
  | nil => intro i; simp [candidatesAux]
  | cons t ts ih =>
    intro i
    rw [candidatesAux]
    split
    · refine List.Pairwise.cons ?_ (ih (i + 1))
      intro c hc
      rcases (candidatesAux_mem ts (i + 1) c).mp hc with ⟨⟨k, _, hk2⟩, _, _⟩
      simp only
      omega
    · exact ih (i + 1)

theorem find?_earlier_false :
    ∀ {l : List (Nat × ParsedLine)} {p : Nat × ParsedLine → Bool} {c : Nat × ParsedLine},
      l.Pairwise (fun a b => a.1 < b.1) → l.find? p = some c →
      ∀ d ∈ l, d.1 < c.1 → p d = false := by
  intro l
  induction l with
  | nil => intro p c _ hf; simp at hf
  | cons a l ih =>
    intro p c hp hf d hd hdc
    by_cases hpa : p a
    · rw [List.find?_cons_of_pos _ hpa] at hf
      cases hf
      rcases List.mem_cons.mp hd with hd | hd
      · subst hd; omega
      · exact absurd hdc (by have := (List.pairwise_cons.mp hp).1 d hd; omega)
    · rw [List.find?_cons_of_neg _ (by simpa using hpa)] at hf
      rcases List.mem_cons.mp hd with hd | hd
      · subst hd; simpa using hpa
      · exact ih (List.pairwise_cons.mp hp).2 hf d hd hdc

/-! ## Best-candidate fold lemmas -/

theorem foldl_pickBest_stay {base : String} :
    ∀ (l : List (Nat × ParsedLine)) (acc : Option Nat × ℚ),
      (∀ c ∈ l, cisco_similarity base c.2.string ≤ acc.2) →
      l.foldl (pickBest base) acc = acc := by
  intro l
  induction l with
  | nil => intro acc _; rfl
  | cons c l ih =>
    intro acc hle
    rw [List.foldl_cons]
    have hc : pickBest base acc c = acc := by
      unfold pickBest
      rw [if_neg (by simpa using not_lt.mpr (hle c (List.mem_cons_self c l)))]
    rw [hc]
    exact ih acc (fun d hd => hle d (List.mem_cons_of_mem c hd))

/-- Characterization of the non-parent candidate fold: either no candidate
strictly improved on the initial accumulator, or the result is the first
candidate attaining the maximum score. -/
theorem foldl_pickBest_spec {base : String} :
    ∀ (l : List (Nat × ParsedLine)) (acc : Option Nat × ℚ),
      (l.foldl (pickBest base) acc = acc ∧
        ∀ c ∈ l, cisco_similarity base c.2.string ≤ acc.2) ∨
      (∃ pre c post, l = pre ++ c :: post ∧
        l.foldl (pickBest base) acc = (some c.1, cisco_similarity base c.2.string) ∧
        acc.2 < cisco_similarity base c.2.string ∧
        (∀ d ∈ pre, cisco_similarity base d.2.string < cisco_similarity base c.2.string) ∧
        (∀ d ∈ post, cisco_similarity base d.2.string ≤ cisco_similarity base c.2.string)) := by
  intro l
  induction l with
  | nil => intro acc; left; exact ⟨rfl, by simp⟩
  | cons c l ih =>
    intro acc
    by_cases himp : cisco_similarity base c.2.string > acc.2
    · have hstep : pickBest base acc c = (some c.1, cisco_similarity base c.2.string) := by
        unfold pickBest
        rw [if_pos (by simpa using himp)]
      rcases ih (some c.1, cisco_similarity base c.2.string) with ⟨heq, hall⟩ | hex
      · right
        refine ⟨[], c, l, by simp, ?_, himp, by simp, ?_⟩
        · rw [List.foldl_cons, hstep, heq]
        · intro d hd
          simpa using hall d hd
      · right
        rcases hex with ⟨pre, c', post, hsplit, heq, hgt, hpre, hpost⟩
        refine ⟨c :: pre, c', post, by rw [hsplit]; rfl, ?_, ?_, ?_, hpost⟩
        · rw [List.foldl_cons, hstep, heq]
        · simp only at hgt
          linarith
        · intro d hd
          rcases List.mem_cons.mp hd with hd | hd
          · subst hd
            simp only at hgt
            linarith
          · exact hpre d hd
    · have hstep : pickBest base acc c = acc := by
        unfold pickBest
        rw [if_neg (by simpa using himp)]
      rcases ih acc with ⟨heq, hall⟩ | hex
      · left
        constructor
        · rw [List.foldl_cons, hstep, heq]
        · intro d hd
          rcases List.mem_cons.mp hd with hd | hd
          · subst hd; exact not_lt.mp himp
          · exact hall d hd
      · right
        rcases hex with ⟨pre, c', post, hsplit, heq, hgt, hpre, hpost⟩
        refine ⟨c :: pre, c', post, by rw [hsplit]; rfl, ?_, hgt, ?_, hpost⟩
        · rw [List.foldl_cons, hstep, heq]
        · intro d hd
          rcases List.mem_cons.mp hd with hd | hd
          · subst hd
            have := not_lt.mp himp
            linarith
          · exact hpre d hd

/-! ## Selection characterization -/

theorem getD_eq_of_get? {α : Type} : ∀ {l : List α} {j : Nat} {t : α} (d : α),
    l.get? j = some t → l.getD j d = t := by
  intro l
  induction l with
  | nil => intro j t d h; simp at h
  | cons a l ih =>
    intro j t d h
    cases j with
    | zero => simp at h; simpa [List.getD] using h
    | succ j => simpa [List.getD] using ih d (by simpa using h)

theorem matchResult_none {tp : List ParsedLine} {used : List Nat} {b : ParsedLine}
    (h : (matchResult tp used b).1 = none) : matchResult tp used b = (none, -1) := by
  unfold matchResult scanCandidates at h ⊢
  by_cases hpar : b.is_parent
  · rw [if_pos hpar] at h ⊢
    rcases hf : (candidatesOf tp b.path used).find? (fun c => c.2.string == b.string) with
      _ | c
    · rw [hf]
    · rw [hf] at h; simp at h
  · rw [if_neg hpar] at h ⊢
    rcases @foldl_pickBest_spec b.string (candidatesOf tp b.path used) (none, -1) with
      ⟨heq, _⟩ | ⟨pre, c, post, _, heq, _, _, _⟩
    · exact heq
    · rw [heq] at h; simp at h

theorem matchResult_some {tp : List ParsedLine} {used : List Nat} {b : ParsedLine}
    {j : Nat} {sc : ℚ} (h : matchResult tp used b = (some j, sc)) :
    ∃ t, tp.get? j = some t ∧ t.path = b.path ∧ j ∉ used ∧
      ((b.is_parent = true ∧ t.string = b.string ∧ sc = 1) ∨
       (b.is_parent = false ∧ sc = cisco_similarity b.string t.string)) := by
  unfold matchResult scanCandidates at h
  by_cases hpar : b.is_parent
  · rw [if_pos hpar] at h
    rcases hf : (candidatesOf tp b.path used).find? (fun c => c.2.string == b.string) with
      _ | c
    · rw [hf] at h; simp at h
    · rw [hf] at h
      have hj : j = c.1 ∧ sc = 1 := by
        constructor
        · have := congrArg Prod.fst h; simpa using this.symm
        · have := congrArg Prod.snd h; simpa using this.symm
      have hmem := List.mem_of_find?_eq_some hf
      have hpred : c.2.string = b.string := by
        have := List.find?_some hf
        simpa using this
      rcases (candidatesAux_mem tp 0 c).mp hmem with ⟨⟨k, hk1, hk2⟩, hp, hu⟩
      refine ⟨c.2, ?_, hp, ?_, Or.inl ⟨hpar, hpred, hj.2⟩⟩
      · rw [hj.1, hk2]; simpa using hk1
      · rw [hj.1]; exact hu
  · rw [if_neg hpar] at h
    rcases @foldl_pickBest_spec b.string (candidatesOf tp b.path used) (none, -1) with
      ⟨heq, _⟩ | ⟨pre, c, post, hsplit, heq, _, _, _⟩
    · rw [heq] at h; simp at h
    · rw [heq] at h
      have hj : j = c.1 ∧ sc = cisco_similarity b.string c.2.string := by
        constructor
        · have := congrArg Prod.fst h; simpa using this.symm
        · have := congrArg Prod.snd h; simpa using this.symm
      have hmem : c ∈ candidatesOf tp b.path used := by
        rw [hsplit]
        exact List.mem_append.mpr (Or.inr (List.mem_cons_self c post))
      rcases (candidatesAux_mem tp 0 c).mp hmem with ⟨⟨k, hk1, hk2⟩, hp, hu⟩
      refine ⟨c.2, ?_, hp, ?_, Or.inr ⟨Bool.eq_false_iff.mpr hpar, hj.2⟩⟩
      · rw [hj.1, hk2]; simpa using hk1
      · rw [hj.1]; exact hu

/-! ## Record invariant over the compare output -/

/-- The invariant every record of the matcher output satisfies, relating its
stored fields to the parsed target list it was matched against. -/
def recordOK (tp : List ParsedLine) (r : DiffRecord) : Prop :=
  pySplit r.string ≠ [] ∧
  (r.is_added = true →
    r.is_matched = false ∧ r.similarity_score = -2 ∧ r.best_match = "" ∧
    r.matched_idx = none ∧ r.diff_positions = List.range r.string.length) ∧
  (r.is_matched = false →
    r.best_match = "" ∧ r.matched_idx = none ∧
    r.diff_positions = List.range r.string.length) ∧
  (r.is_matched = true →
    r.is_added = false ∧ 3/5 ≤ r.similarity_score ∧ r.similarity_score ≤ 1 ∧
    pySplit r.best_match ≠ [] ∧
    r.diff_positions = diffPositions r.string r.best_match ∧
    (∃ j t, r.matched_idx = some j ∧ tp.get? j = some t ∧ r.best_match = t.string ∧
      t.path = r.path) ∧
    (r.is_parent = true → r.best_match = r.string ∧ r.similarity_score = 1) ∧
    (r.is_parent = false → r.similarity_score = cisco_similarity r.string r.best_match))

theorem compareStep_recordOK {tp : List ParsedLine}
    (htp : ∀ t ∈ tp, pySplit t.string ≠ []) (used : List Nat) {b : ParsedLine}
    (hb : pySplit b.string ≠ []) : recordOK tp (compareStep tp used b).1 := by
  rcases hm : matchResult tp used b with ⟨o, sc⟩
  cases o with
  | none =>
    simp only [compareStep, hm]
    exact ⟨hb, fun hc => Bool.noConfusion hc, fun _ => ⟨rfl, rfl, rfl⟩,
      fun hc => Bool.noConfusion hc⟩
  | some j =>
    by_cases hthr : (3 : ℚ)/5 ≤ sc
    · simp only [compareStep, hm, if_pos hthr]
      rcases matchResult_some hm with ⟨t, hget, hpath, hnu, hcases⟩
      have hbm : (tp.getD j default).string = t.string := by
        rw [getD_eq_of_get? default hget]
      refine ⟨hb, fun hc => Bool.noConfusion hc, fun hc => Bool.noConfusion hc, fun _ => ?_⟩
      refine ⟨rfl, hthr, ?_, ?_, rfl, ⟨j, t, rfl, hget, hbm, hpath⟩, ?_, ?_⟩
      · rcases hcases with ⟨_, _, h1⟩ | ⟨_, h1⟩
        · rw [h1]
        · rw [h1]; exact cisco_similarity_le_one _ _
      · show pySplit (tp.getD j default).string ≠ []
        rw [hbm]; exact htp t (List.get?_mem hget)
      · intro hpar
        rcases hcases with ⟨_, hts, h1⟩ | ⟨hnp, _⟩
        · exact ⟨by show (tp.getD j default).string = b.string; rw [hbm, hts], h1⟩
        · rw [show b.is_parent = true from hpar] at hnp; cases hnp
      · intro hpar
        rcases hcases with ⟨hp, _, _⟩ | ⟨_, h1⟩
        · rw [show b.is_parent = false from hpar] at hp; cases hp
        · show sc = cisco_similarity b.string (tp.getD j default).string
          rw [hbm, h1]
    · simp only [compareStep, hm, if_neg hthr]
      exact ⟨hb, fun hc => Bool.noConfusion hc, fun _ => ⟨rfl, rfl, rfl⟩,
        fun hc => Bool.noConfusion hc⟩

theorem compareLoop_recordOK {tp : List ParsedLine}
    (htp : ∀ t ∈ tp, pySplit t.string ≠ []) :
    ∀ (bs : List ParsedLine) (used : List Nat), (∀ b ∈ bs, pySplit b.string ≠ []) →
      ∀ r ∈ (compareLoop tp bs used).1, recordOK tp r := by
  intro bs
  induction bs with
  | nil => intro used _ r hr; simp [compareLoop] at hr
  | cons b bs ih =>
    intro used hbs r hr
    rw [compareLoop] at hr
    rcases List.mem_cons.mp hr with hr | hr
    · subst hr
      exact compareStep_recordOK htp used (hbs b (List.mem_cons_self b bs))
    · exact ih _ (fun x hx => hbs x (List.mem_cons_of_mem b hx)) r hr

theorem addedAux_mem_shape {used : List Nat} :
    ∀ {ts : List ParsedLine} {i : Nat} {r : DiffRecord},
      r ∈ addedAux used i ts → ∃ t ∈ ts, r = addedRecord t := by
  intro ts
  induction ts with
  | nil => intro i r hr; simp [addedAux] at hr
  | cons t ts ih =>
    intro i r hr
    rw [addedAux] at hr
    split at hr
    · rcases ih hr with ⟨t', ht', hrt⟩
      exact ⟨t', List.mem_cons_of_mem t ht', hrt⟩
    · rcases List.mem_cons.mp hr with hr | hr
      · exact ⟨t, List.mem_cons_self t ts, hr⟩
      · rcases ih hr with ⟨t', ht', hrt⟩
        exact ⟨t', List.mem_cons_of_mem t ht', hrt⟩

theorem parse_tokens_ne_nil : ∀ (lines : List String) (stack : List (Nat × String)),
    ∀ p ∈ parseAux lines stack, pySplit p.string ≠ [] := by
  intro lines
  induction lines with
  | nil => intro stack p hp; simp [parseAux] at hp
  | cons line rest ih =>
    intro stack p hp
    rw [parseAux] at hp
    by_cases hs : pyStrip line = ""
    · rw [if_pos hs] at hp
      exact ih stack p hp
    · rw [if_neg hs] at hp
      rcases List.mem_cons.mp hp with hp | hp
      · rw [hp]
        exact pySplit_pyStrip_ne_nil hs
      · exact ih _ p hp

/-- Every record of the matcher output satisfies the invariant. -/
theorem compare_recordOK (tl bl : List String) :
    ∀ r ∈ ConfDiff.compare tl bl, recordOK (parse tl) r := by
  intro r hr
  have htp : ∀ t ∈ parse tl, pySplit t.string ≠ [] := fun t ht =>
    parse_tokens_ne_nil tl [] t ht
  have hbp : ∀ b ∈ parse bl, pySplit b.string ≠ [] := fun b hb =>
    parse_tokens_ne_nil bl [] b hb
  unfold ConfDiff.compare compareParsed at hr
  rcases List.mem_append.mp hr with hr | hr
  · exact compareLoop_recordOK htp (parse bl) [] hbp r hr
  · rcases addedAux_mem_shape hr with ⟨t, ht, hrt⟩
    subst hrt
    refine ⟨htp t ht, fun _ => ⟨rfl, rfl, rfl, rfl, rfl⟩, fun _ => ⟨rfl, rfl, rfl⟩,
      by intro hc; cases hc⟩

/-! ## Structure of the compare loop -/

theorem compareStep_fields (tp : List ParsedLine) (used : List Nat) (b : ParsedLine) :
    (compareStep tp used b).1.string = b.string ∧
    (compareStep tp used b).1.path = b.path ∧
    (compareStep tp used b).1.is_parent = b.is_parent ∧
    (compareStep tp used b).1.is_added = false := by
  rcases hm : matchResult tp used b with ⟨o, sc⟩
  cases o with
  | none => simp [compareStep, hm]
  | some j =>
    by_cases hthr : (3 : ℚ)/5 ≤ sc
    · simp [compareStep, hm, if_pos hthr]
    · simp [compareStep, hm, if_neg hthr]

theorem compareStep_used (tp : List ParsedLine) (used : List Nat) (b : ParsedLine) :
    (compareStep tp used b).2 = used ++ ((compareStep tp used b).1.matched_idx).toList := by
  rcases hm : matchResult tp used b with ⟨o, sc⟩
  cases o with
  | none => simp [compareStep, hm]
  | some j =>
    by_cases hthr : (3 : ℚ)/5 ≤ sc
    · simp [compareStep, hm, if_pos hthr]
    · simp [compareStep, hm, if_neg hthr]

theorem compareStep_matched_src (tp : List ParsedLine) (used : List Nat) (b : ParsedLine)
    {j : Nat} (h : (compareStep tp used b).1.matched_idx = some j) :
    ∃ sc, matchResult tp used b = (some j, sc) ∧ 3/5 ≤ sc ∧
      (compareStep tp used b).2 = used ++ [j] := by
  rcases hm : matchResult tp used b with ⟨o, sc⟩
  cases o with
  | none => simp [compareStep, hm] at h
  | some j' =>
    by_cases hthr : (3 : ℚ)/5 ≤ sc
    · have h' : j' = j := by
        simp only [compareStep, hm, if_pos hthr] at h
        exact Option.some.inj h
      subst h'
      refine ⟨sc, rfl, hthr, ?_⟩
      simp only [compareStep, hm, if_pos hthr]
    · simp [compareStep, hm, if_neg hthr] at h

theorem compareLoop_map_string (tp : List ParsedLine) :
    ∀ (bs : List ParsedLine) (used : List Nat),
      ((compareLoop tp bs used).1).map (fun r => r.string) = bs.map (fun b => b.string) := by
  intro bs
  induction bs with
  | nil => intro used; rfl
  | cons b bs ih =>
    intro used
    rw [compareLoop]
    simp only [List.map_cons]
    rw [(compareStep_fields tp used b).1, ih]

theorem compareLoop_not_added (tp : List ParsedLine) :
    ∀ (bs : List ParsedLine) (used : List Nat),
      ∀ r ∈ (compareLoop tp bs used).1, r.is_added = false := by
  intro bs
  induction bs with
  | nil => intro used r hr; simp [compareLoop] at hr
  | cons b bs ih =>
    intro used r hr
    rw [compareLoop] at hr
    rcases List.mem_cons.mp hr with hr | hr
    · rw [hr]; exact (compareStep_fields tp used b).2.2.2
    · exact ih _ r hr

theorem compareLoop_used (tp : List ParsedLine) :
    ∀ (bs : List ParsedLine) (used : List Nat),
      (compareLoop tp bs used).2 =
        used ++ ((compareLoop tp bs used).1).filterMap (fun r => r.matched_idx) := by
  intro bs
  induction bs with
  | nil => intro used; simp [compareLoop]
  | cons b bs ih =>
    intro used
    rw [compareLoop]
    simp only
    rw [ih, compareStep_used tp used b]
    rcases ho : (compareStep tp used b).1.matched_idx with _ | j
    · simp [List.filterMap_cons, ho]
    · simp [List.filterMap_cons, ho]

theorem compareLoop_matched_fresh (tp : List ParsedLine) :
    ∀ (bs : List ParsedLine) (used : List Nat),
      ∀ r ∈ (compareLoop tp bs used).1, ∀ j, r.matched_idx = some j →
        j ∉ used ∧ j < tp.length := by
  intro bs
  induction bs with
  | nil => intro used r hr; simp [compareLoop] at hr
  | cons b bs ih =>
    intro used r hr j hj
    rw [compareLoop] at hr
    rcases List.mem_cons.mp hr with hr | hr
    · subst hr
      rcases compareStep_matched_src tp used b hj with ⟨sc, hm, _, _⟩
      rcases matchResult_some hm with ⟨t, hget, _, hnu, _⟩
      refine ⟨hnu, ?_⟩
      by_contra hge
      rw [List.get?_eq_none.mpr (Nat.le_of_not_lt hge)] at hget
      cases hget
    · have := ih (compareStep tp used b).2 r hr j hj
      refine ⟨?_, this.2⟩
      intro hmem
      exact this.1 (by rw [compareStep_used tp used b]; exact List.mem_append.mpr (Or.inl hmem))

theorem compareLoop_matched_nodup (tp : List ParsedLine) :
    ∀ (bs : List ParsedLine) (used : List Nat),
      (∀ j ∈ ((compareLoop tp bs used).1).filterMap (fun r => r.matched_idx), j ∉ used) ∧
      (((compareLoop tp bs used).1).filterMap (fun r => r.matched_idx)).Nodup := by
  intro bs
  induction bs with
  | nil => intro used; simp [compareLoop]
  | cons b bs ih =>
    intro used
    rw [compareLoop]
    simp only
    rcases ho : (compareStep tp used b).1.matched_idx with _ | j0
    · simp only [List.filterMap_cons, ho]
      have hused : (compareStep tp used b).2 = used := by
        rw [compareStep_used tp used b, ho]; simp
      rw [hused]
      exact ih used
    · simp only [List.filterMap_cons, ho]
      rcases compareStep_matched_src tp used b ho with ⟨sc, hm, _, hstep2⟩
      rcases matchResult_some hm with ⟨t, _, _, hnu, _⟩
      rw [hstep2]
      have hrest := ih (used ++ [j0])
      constructor
      · intro j hj
        rcases List.mem_cons.mp hj with hj | hj
        · subst hj; exact hnu
        · intro hmem
          exact hrest.1 j hj (List.mem_append.mpr (Or.inl hmem))
      · refine List.Nodup.cons ?_ hrest.2
        intro hmem
        exact hrest.1 j0 hmem (List.mem_append.mpr (Or.inr (List.mem_cons_self j0 [])))

theorem addedAux_eq (used : List Nat) :
    ∀ (ts : List ParsedLine) (i : Nat),
      addedAux used i ts =
        ((List.enumFrom i ts).filter (fun c => decide (c.1 ∉ used))).map
          (fun c => addedRecord c.2) := by
  intro ts
  induction ts with
  | nil => intro i; rfl
  | cons t ts ih =>
    intro i
    rw [addedAux, List.enumFrom_cons]
    by_cases hu : i ∈ used
    · rw [if_pos hu, ih (i + 1)]
      simp [List.filter_cons, hu]
    · rw [if_neg hu, ih (i + 1)]
      simp [List.filter_cons, hu]

/-! ## Claim theorems -/

/-- C1: for every pair of input configuration texts, the matcher produces
exactly one DiffRecord for each parsed base line (the base-derived prefix of
the output, in base order, carrying the base texts), and every parsed target
line is either consumed as the matched text of exactly one record (the
consumed indices are pairwise distinct, in range, and each determines the
record's `best_match`) or yields exactly one Unmatched-Added record appended
after all base-derived records, in target discovery order; no parsed line is
dropped or appears in two records. -/
theorem C1_coverage (tl bl : List String) :
    ConfDiff.compare tl bl =
        (compareLoop (parse tl) (parse bl) []).1 ++
          ((List.enumFrom 0 (parse tl)).filter (fun c =>
            decide (c.1 ∉ ((compareLoop (parse tl) (parse bl) []).1).filterMap
              (fun r => r.matched_idx)))).map (fun c => addedRecord c.2) ∧
      ((compareLoop (parse tl) (parse bl) []).1).map (fun r => r.string) =
        (parse bl).map (fun b => b.string) ∧
      (∀ r ∈ (compareLoop (parse tl) (parse bl) []).1, r.is_added = false) ∧
      (((compareLoop (parse tl) (parse bl) []).1).filterMap (fun r => r.matched_idx)).Nodup ∧
      (∀ j ∈ ((compareLoop (parse tl) (parse bl) []).1).filterMap (fun r => r.matched_idx),
        j < (parse tl).length) ∧
      (∀ r ∈ ConfDiff.compare tl bl, ∀ j, r.matched_idx = some j →
        r.is_matched = true ∧ r.best_match = ((parse tl).getD j default).string) ∧
      (∀ r ∈ ConfDiff.compare tl bl, r.is_added = true → r.matched_idx = none) := by
  have hused : (compareLoop (parse tl) (parse bl) []).2 =
      ((compareLoop (parse tl) (parse bl) []).1).filterMap (fun r => r.matched_idx) := by
    rw [compareLoop_used (parse tl) (parse bl) []]
    simp
  refine ⟨?_, compareLoop_map_string (parse tl) (parse bl) [],
    compareLoop_not_added (parse tl) (parse bl) [],
    (compareLoop_matched_nodup (parse tl) (parse bl) []).2, ?_, ?_, ?_⟩
  · show compareParsed (parse tl) (parse bl) = _
    unfold compareParsed
    rw [hused, addedAux_eq (((compareLoop (parse tl) (parse bl) []).1).filterMap
      (fun r => r.matched_idx)) (parse tl) 0]
  · intro j hj
    rcases List.mem_filterMap.mp hj with ⟨r, hr, hrj⟩
    exact (compareLoop_matched_fresh (parse tl) (parse bl) [] r hr j hrj).2
  · intro r hr j hj
    have hok := compare_recordOK tl bl r hr
    rcases hmt : r.is_matched with _ | _
    · rcases hok.2.2.1 hmt with ⟨_, hnone, _⟩
      rw [hnone] at hj
      cases hj
    · rcases hok.2.2.2 hmt with ⟨_, _, _, _, _, ⟨j', t, hj', hget, hbm, _⟩, _, _⟩
      rw [hj'] at hj
      cases hj
      exact ⟨rfl, by rw [hbm, getD_eq_of_get? default hget]⟩
  · intro r hr ha
    exact ((compare_recordOK tl bl r hr).2.1 ha).2.2.2.1

/-- Witness for C1 at a concrete input: in comparing the one-line
configuration against itself, the single record consumed target line 0 as
its matched text. -/
theorem C1_coverage_witness :
    ((ConfDiff.compare ["a"] ["a"]).getD 0 default).is_matched = true ∧
    ((ConfDiff.compare ["a"] ["a"]).getD 0 default).best_match =
      ((parse ["a"]).getD 0 default).string := by
  have h := C1_coverage ["a"] ["a"]
  exact h.2.2.2.2.2.1 _ (by decide) 0 (by decide)

theorem matchResult_nil (used : List Nat) (b : ParsedLine) :
    matchResult [] used b = (none, -1) := by
  unfold matchResult scanCandidates candidatesOf candidatesAux
  by_cases hpar : b.is_parent
  · rw [if_pos hpar]; rfl
  · rw [if_neg hpar]; rfl

theorem compareLoop_nil_target (used : List Nat) :
    ∀ (bs : List ParsedLine), ∀ r ∈ (compareLoop [] bs used).1,
      r.is_matched = false ∧ r.is_added = false := by
  intro bs
  induction bs generalizing used with
  | nil => intro r hr; simp [compareLoop] at hr
  | cons b bs ih =>
    intro r hr
    rw [compareLoop] at hr
    rcases List.mem_cons.mp hr with hr | hr
    · subst hr
      simp [compareStep, matchResult_nil used b]
    · exact ih _ r hr

theorem parseAux_length : ∀ (lines : List String) (stack : List (Nat × String)),
    (parseAux lines stack).length ≤ lines.length := by
  intro lines
  induction lines with
  | nil => intro stack; simp [parseAux]
  | cons line rest ih =>
    intro stack
    rw [parseAux]
    by_cases hs : pyStrip line = ""
    · rw [if_pos hs]
      exact (ih stack).trans (by simp)
    · rw [if_neg hs]
      simpa using ih ((indentOf line, pyStrip line) ::
        stack.dropWhile (fun p => p.1 ≥ indentOf line))

/-- C7: if the base text parses to zero structural lines, every record of
the comparison is Unmatched-Added; if the target text parses to zero
structural lines, every record is Unmatched-Removed.  Neither case is an
error: parsing and comparison are total functions of the input lines (in
particular the parser emits at most one record per input line on arbitrary
input). -/
theorem C7_graceful (tl bl : List String) :
    (parse bl = [] → ∀ r ∈ ConfDiff.compare tl bl, disposition r = Disp.added) ∧
    (parse tl = [] → ∀ r ∈ ConfDiff.compare tl bl, disposition r = Disp.removed) ∧
    (parse tl).length ≤ tl.length := by
  refine ⟨?_, ?_, parseAux_length tl []⟩
  · intro hbl r hr
    unfold ConfDiff.compare compareParsed at hr
    rw [hbl] at hr
    simp only [compareLoop] at hr
    rcases List.mem_append.mp hr with hr | hr
    · simp at hr
    · rcases addedAux_mem_shape hr with ⟨t, _, hrt⟩
      subst hrt
      simp [disposition, addedRecord]
  · intro htl r hr
    unfold ConfDiff.compare compareParsed at hr
    rw [htl] at hr
    rcases List.mem_append.mp hr with hr | hr
    · have hu := compareLoop_nil_target [] (parse bl) r hr
      simp [disposition, hu.1, hu.2]
    · rcases addedAux_mem_shape hr with ⟨t, ht, _⟩
      simp at ht
/-- Witness for C7: an empty base yields an added record; an empty target
yields a removed record. -/
theorem C7_graceful_witness :
    disposition ((ConfDiff.compare ["interface Eth1/2"] []).getD 0 default) = Disp.added ∧
    disposition ((ConfDiff.compare [] ["interface Eth1/1"]).getD 0 default) = Disp.removed := by
  exact ⟨(C7_graceful ["interface Eth1/2"] []).1 rfl _ (by decide),
    (C7_graceful [] ["interface Eth1/1"]).2.1 rfl _ (by decide)⟩

/-- C9: on the concrete scenario-5 inputs (base parent `router bgp 65000`
with child `neighbor 10.0.0.1 remote-as 65001`, target child ending in
`65002`), the parent record is Matched-Identical, the child's composite
score `0.7 * prefix + 0.3 * overlap` evaluates to `141/200 = 0.705`, which
crosses the `0.6` acceptance threshold, so the child record is classified
Matched-Changed and not Unmatched-Removed. -/
theorem C9_scenario5 :
    (ConfDiff.compare
        ["router bgp 65000", "  neighbor 10.0.0.1 remote-as 65002"]
        ["router bgp 65000", "  neighbor 10.0.0.1 remote-as 65001"]).map disposition =
      [Disp.identical, Disp.changed] ∧
    cisco_similarity "neighbor 10.0.0.1 remote-as 65001"
        "neighbor 10.0.0.1 remote-as 65002" =
      7/10 * left_prefix_similarity "neighbor 10.0.0.1 remote-as 65001"
          "neighbor 10.0.0.1 remote-as 65002" +
        3/10 * token_jaccard "neighbor 10.0.0.1 remote-as 65001"
          "neighbor 10.0.0.1 remote-as 65002" ∧
    ((ConfDiff.compare
        ["router bgp 65000", "  neighbor 10.0.0.1 remote-as 65002"]
        ["router bgp 65000", "  neighbor 10.0.0.1 remote-as 65001"]).getD 1
        default).similarity_score = 141/200 ∧
    (3 : ℚ)/5 ≤ 141/200 := by
  refine ⟨by decide, by decide, by decide, by norm_num⟩

/-- C3 counterexample: on base line `a  b` (two spaces) against target line
`a b`, the record is accepted with score 1.0 and classified
Matched-Identical although its text and matched text are not exactly equal,
refuting the claim that Matched-Identical holds exactly on string equality. -/
theorem C3_counterexample :
    ((ConfDiff.compare ["a b"] ["a  b"]).getD 0 default).is_matched = true ∧
    disposition ((ConfDiff.compare ["a b"] ["a  b"]).getD 0 default) = Disp.identical ∧
    ((ConfDiff.compare ["a b"] ["a  b"]).getD 0 default).string ≠
      ((ConfDiff.compare ["a b"] ["a  b"]).getD 0 default).best_match := by
  refine ⟨by decide, by decide, by decide⟩

/-- C3 (amended): a record's disposition is Matched-Identical exactly when
it is an accepted match whose similarity score is 1.0, equivalently whose
two texts split into identical whitespace-delimited token sequences (not
necessarily exactly equal strings); an accepted match with differing token
sequences is Matched-Changed; a base line with no accepted candidate is
Unmatched-Removed; a never-consumed target line is Unmatched-Added. -/
theorem C3_disposition_amended (tl bl : List String) :
    ∀ r ∈ ConfDiff.compare tl bl,
      (disposition r = Disp.identical ↔
        r.is_matched = true ∧ pySplit r.string = pySplit r.best_match) ∧
      (disposition r = Disp.identical ↔
        r.is_matched = true ∧ r.similarity_score = 1) ∧
      (r.is_matched = true → pySplit r.string ≠ pySplit r.best_match →
        disposition r = Disp.changed) ∧
      (r.is_matched = false → r.is_added = false → disposition r = Disp.removed) ∧
      (r.is_added = true → disposition r = Disp.added) := by
  intro r hr
  have hok := compare_recordOK tl bl r hr
  rcases hmt : r.is_matched with _ | _
  · have hda : disposition r ≠ Disp.identical := by
      rcases hba : r.is_added with _ | _
      · simp [disposition, hmt, hba]
      · simp [disposition, hba]
    refine ⟨by simp [hda, hmt], by simp [hda, hmt], fun hc => Bool.noConfusion hc, ?_, ?_⟩
    · intro _ hba
      simp [disposition, hmt, hba]
    · intro hba
      simp [disposition, hba]
  · rcases hok.2.2.2 hmt with ⟨hadd, hthr, hle, hbmtok, _, _, hpar, hnpar⟩
    have hkey : r.similarity_score = 1 ↔ pySplit r.string = pySplit r.best_match := by
      rcases hbp : r.is_parent with _ | _
      · rw [hnpar hbp, cisco_similarity_eq_one_iff hok.1 hbmtok]
      · rcases hpar hbp with ⟨hbs, hsc⟩
        rw [hbs, hsc]
        simp
    have hdisp : disposition r = Disp.identical ↔ r.similarity_score = 1 := by
      constructor
      · intro hd
        by_contra hne
        have hlt : r.similarity_score < 1 := lt_of_le_of_ne hle hne
        simp [disposition, hmt, hadd, hlt] at hd
      · intro h1
        simp [disposition, hmt, hadd, h1]
    refine ⟨?_, ?_, ?_, ?_, ?_⟩
    · rw [hdisp, hkey]
      simp [hmt]
    · rw [hdisp]
      simp [hmt]
    · intro _ hne
      have hne1 : r.similarity_score ≠ 1 := fun h1 => hne (hkey.mp h1)
      have hlt : r.similarity_score < 1 := lt_of_le_of_ne hle hne1
      simp [disposition, hmt, hadd, hlt]
    · exact fun hc => Bool.noConfusion hc
    · intro hba
      exact absurd hba (by simp [hadd])

/-- Witness for C3 (amended) at a concrete input: the changed record of
scenario 2 is Matched-Changed because its token sequences differ. -/
theorem C3_disposition_amended_witness :
    disposition ((ConfDiff.compare ["x a b"] ["x a c"]).getD 0 default) = Disp.changed := by
  exact ((C3_disposition_amended ["x a b"] ["x a c"] _ (by decide)).2.2.1 (by decide) (by decide))

/-- C5: for a parent base line, the matcher accepts only an exact text match
among the not-yet-consumed target lines at the same path, consumes the
first such exact match in target discovery order with score fixed at 1.0,
and never accepts a parent line on partial similarity (when no unconsumed
same-path target has exactly the same text, no match is accepted at all). -/
theorem C5_parent_exact (targets : List ParsedLine) (used : List Nat) (b : ParsedLine)
    (hp : b.is_parent = true) :
    (∀ j, (matchResult targets used b).1 = some j →
      (matchResult targets used b).2 = 1 ∧
      (compareStep targets used b).2 = used ++ [j] ∧
      ∃ t, targets.get? j = some t ∧ t.string = b.string ∧ t.path = b.path ∧ j ∉ used ∧
        (∀ j' t', j' < j → targets.get? j' = some t' → t'.path = b.path → j' ∉ used →
          t'.string ≠ b.string)) ∧
    ((matchResult targets used b).1 = none →
      ∀ j t, targets.get? j = some t → t.path = b.path → j ∉ used →
        t.string ≠ b.string) := by
  have hmr : matchResult targets used b =
      (match (candidatesOf targets b.path used).find? (fun c => c.2.string == b.string) with
        | some c => (some c.1, 1)
        | none => (none, -1)) := by
    unfold matchResult scanCandidates
    rw [if_pos (by simp [hp])]
  rcases hf : (candidatesOf targets b.path used).find? (fun c => c.2.string == b.string) with
    _ | c
  · rw [hf] at hmr
    constructor
    · intro j hj
      rw [hmr] at hj
      simp at hj
    · intro _ j t hget hpath hnu hstr
      have hmem : (j, t) ∈ candidatesOf targets b.path used :=
        (candidatesAux_mem targets 0 (j, t)).mpr ⟨⟨j, by simpa using hget, by simp⟩, hpath, hnu⟩
      have := List.find?_eq_none.mp hf (j, t) hmem
      simp only [beq_iff_eq] at this
      exact this hstr
  · rw [hf] at hmr
    constructor
    · intro j hj
      rw [hmr] at hj
      have hcj : c.1 = j := by simpa using hj
      have hmem := List.mem_of_find?_eq_some hf
      have hpred : c.2.string = b.string := by
        have := List.find?_some hf
        simpa using this
      rcases (candidatesAux_mem targets 0 c).mp hmem with ⟨⟨k, hk1, hk2⟩, hpath, hnu⟩
      have hk : k = c.1 := by omega
      subst hk
      refine ⟨by rw [hmr], ?_, c.2, by rw [← hcj]; simpa using hk1, hpred, hpath,
        by rw [← hcj]; exact hnu, ?_⟩
      · have hthr : (3 : ℚ)/5 ≤ (1 : ℚ) := by norm_num
        rw [← hcj]
        simp only [compareStep, hmr, if_pos hthr]
      · intro j' t' hlt hget' hpath' hnu' hstr'
        have hmem' : (j', t') ∈ candidatesOf targets b.path used :=
          (candidatesAux_mem targets 0 (j', t')).mpr
            ⟨⟨j', by simpa using hget', by simp⟩, hpath', hnu'⟩
        have hfalse := find?_earlier_false (candidatesAux_pairwise targets 0) hf (j', t')
          hmem' (by omega)
        exact absurd hstr' (by simpa using hfalse)
    · intro hnone
      rw [hmr] at hnone
      simp at hnone

/-- Witness for C5: the parent line `a` of `a` / `  b` exact-matches target
line 0 with score 1.0 and consumes it. -/
theorem C5_parent_exact_witness :
    (matchResult (parse ["a", " b"]) [] ((parse ["a", " b"]).getD 0 default)).2 = 1 ∧
    (compareStep (parse ["a", " b"]) [] ((parse ["a", " b"]).getD 0 default)).2 = [] ++ [0] := by
  have h := (C5_parent_exact (parse ["a", " b"]) [] ((parse ["a", " b"]).getD 0 default)
    (by decide)).1 0 (by decide)
  exact ⟨h.1, h.2.1⟩

/-- C10: for a non-parent base line, the selection over the unconsumed
same-path candidate pool keeps the running best only on a strictly greater
composite score, so the accepted candidate is the earliest candidate in
target discovery order attaining the maximal score (every earlier candidate
scores strictly lower, every later one no higher), it is consumed when
accepted, and with no candidates no match is selected; the pairing is thus
a deterministic function of the two parsed inputs. -/
theorem C10_tie_break (targets : List ParsedLine) (used : List Nat) (b : ParsedLine)
    (hnp : b.is_parent = false) :
    ((matchResult targets used b).1 = none → candidatesOf targets b.path used = []) ∧
    (∀ j, (matchResult targets used b).1 = some j →
      ∃ t pre post, candidatesOf targets b.path used = pre ++ (j, t) :: post ∧
        (matchResult targets used b).2 = cisco_similarity b.string t.string ∧
        (∀ d ∈ pre, cisco_similarity b.string d.2.string <
          cisco_similarity b.string t.string) ∧
        (∀ d ∈ post, cisco_similarity b.string d.2.string ≤
          cisco_similarity b.string t.string) ∧
        (3/5 ≤ (matchResult targets used b).2 →
          (compareStep targets used b).2 = used ++ [j])) := by
  have hfold : matchResult targets used b =
      (candidatesOf targets b.path used).foldl (pickBest b.string) (none, -1) := by
    unfold matchResult scanCandidates
    rw [if_neg (by simp [hnp])]
  rcases @foldl_pickBest_spec b.string (candidatesOf targets b.path used) (none, -1)
    with ⟨heq, hall⟩ | ⟨pre, c, post, hsplit, heq, hgt, hpre, hpost⟩
  · constructor
    · intro _
      rcases hc : candidatesOf targets b.path used with _ | ⟨d, l⟩
      · rfl
      · exfalso
        have h1 := hall d (by rw [hc]; exact List.mem_cons_self d l)
        have h2 := cisco_similarity_nonneg b.string d.2.string
        simp only at h1
        linarith
    · intro j hj
      rw [hfold, heq] at hj
      simp at hj
  · constructor
    · intro hnone
      rw [hfold, heq] at hnone
      simp at hnone
    · intro j hj
      rw [hfold, heq] at hj
      have hcj : c.1 = j := by simpa using hj
      have hres : matchResult targets used b =
          (some j, cisco_similarity b.string c.2.string) := by
        rw [hfold, heq, hcj]
      refine ⟨c.2, pre, post, by rw [← hcj]; exact hsplit, by rw [hres], hpre, hpost, ?_⟩
      intro hthr
      rw [hres] at hthr
      simp only at hthr
      simp only [compareStep, hres, if_pos hthr]

/-- Witness for C10: with base line `x 2` against targets `x 1`, `x 2`,
the strictly-greater rule selects target index 1 and consumes it. -/
theorem C10_tie_break_witness :
    (compareStep (parse ["x 1", "x 2"]) [] ((parse ["x 2"]).getD 0 default)).2 = [] ++ [1] := by
  obtain ⟨t, pre, post, hsplit, hsc, hpre, hpost, hcons⟩ :=
    (C10_tie_break (parse ["x 1", "x 2"]) [] ((parse ["x 2"]).getD 0 default) (by decide)).2
      1 (by decide)
  exact hcons (by decide)

theorem mem_diffPositions {a b : String} {i : Nat} :
    i ∈ diffPositions a b ↔
      ((i < min a.length b.length ∧ a.data.getD i ' ' ≠ b.data.getD i ' ') ∨
        (min a.length b.length ≤ i ∧ i < max a.length b.length)) := by
  have hmm : min a.length b.length + (max a.length b.length - min a.length b.length) =
      max a.length b.length := by omega
  unfold diffPositions
  simp only [List.mem_append, List.mem_filter, List.mem_range, List.mem_range'_1,
    decide_eq_true_eq, hmm]

/-- C8: for every accepted match, the difference span is exactly the set of
indices below the shorter text length at which the two texts' characters
differ, together with every index from the shorter length up to the longer
length; for every unmatched record it is exactly every index of the text;
consequently every index of the span is strictly below the maximum of the
two text lengths. -/
theorem C8_diff_span (tl bl : List String) :
    ∀ r ∈ ConfDiff.compare tl bl,
      (r.is_matched = true → ∀ i,
        (i ∈ r.diff_positions ↔
          ((i < min r.string.length r.best_match.length ∧
              r.string.data.getD i ' ' ≠ r.best_match.data.getD i ' ') ∨
            (min r.string.length r.best_match.length ≤ i ∧
              i < max r.string.length r.best_match.length)))) ∧
      (r.is_matched = false → r.diff_positions = List.range r.string.length) ∧
      (∀ i ∈ r.diff_positions, i < max r.string.length r.best_match.length) := by
  intro r hr
  have hok := compare_recordOK tl bl r hr
  refine ⟨?_, ?_, ?_⟩
  · intro hmt i
    rw [(hok.2.2.2 hmt).2.2.2.2.1]
    exact mem_diffPositions
  · intro hmf
    exact (hok.2.2.1 hmf).2.2
  · intro i hi
    rcases hmt : r.is_matched with _ | _
    · rw [(hok.2.2.1 hmt).2.2] at hi
      exact lt_of_lt_of_le (List.mem_range.mp hi) (le_max_left _ _)
    · rw [(hok.2.2.2 hmt).2.2.2.2.1] at hi
      rcases mem_diffPositions.mp hi with ⟨h1, _⟩ | ⟨_, h2⟩
      · omega
      · exact h2

/-- Witness for C8: the removed record of an empty target carries the full
index range of its text as its span. -/
theorem C8_diff_span_witness :
    ((ConfDiff.compare [] ["q"]).getD 0 default).diff_positions =
      List.range ((ConfDiff.compare [] ["q"]).getD 0 default).string.length :=
  (C8_diff_span [] ["q"] _ (by decide)).2.1 (by decide)

/-! ## Tree lemmas -/

/-! ## Tree lemmas -/

theorem lookupVal_append (es l2 : List (String × PyNode)) (q : String) :
    lookupVal (es ++ l2) q =
      match lookupVal es q with
      | some v => some v
      | none => lookupVal l2 q := by
  induction es with
  | nil => simp [lookupVal]
  | cons e rest ih =>
    rcases e with ⟨k, v⟩
    by_cases hk : k = q
    · simp [lookupVal, hk]
    · simp [lookupVal, hk, ih]

theorem lookupVal_single_ne {q key : String} (h : ¬ key = q) (v : PyNode) :
    lookupVal [(key, v)] q = none := by
  simp [lookupVal, h]

theorem lookupVal_setEntry (es : List (String × PyNode)) (key q : String) (nv : PyNode) :
    lookupVal (setEntry es key nv) q =
      if q = key then
        (match lookupVal es key with
         | some _ => some nv
         | none => none)
      else lookupVal es q := by
  induction es with
  | nil => by_cases hq : q = key <;> simp [setEntry, lookupVal, hq]
  | cons e rest ih =>
    rcases e with ⟨k, v⟩
    by_cases hk : k = key <;> by_cases hq : q = k
    · have h1 : q = key := hq.trans hk
      simp [setEntry, lookupVal, hk, hq, h1]
    · have h1 : ¬ q = key := fun h => hq (h.trans hk.symm)
      have h2 : ¬ key = q := fun h => h1 h.symm
      simp [setEntry, lookupVal, hk, h1, h2]
    · have h1 : ¬ q = key := fun h => hk (hq.symm.trans h)
      simp [setEntry, lookupVal, hk, hq, h1]
    · have h2 : ¬ k = q := fun h => hq h.symm
      simp [setEntry, lookupVal, hk, h2, ih]

theorem nodeItems_dict_nil (es : List (String × PyNode)) :
    nodeItems (.dict es) [] =
      (match lookupVal es "root_items" with
       | some (.recs its) => its
       | _ => []) := rfl

theorem nodeItems_dict_cons (es : List (String × PyNode)) (q : String) (qs : List String) :
    nodeItems (.dict es) (q :: qs) =
      (match lookupVal es q with
       | some v => nodeItems v qs
       | none => []) := by
  rcases hl : lookupVal es q with _ | v
  · simp [nodeItems, descendNode, hl]
  · simp [nodeItems, descendNode, hl]

theorem nodeItems_recs (its : List DiffRecord) (kp : List String) :
    nodeItems (.recs its) kp = [] := by
  cases kp <;> rfl

theorem nodeItems_emptyDict (kp : List String) : nodeItems (.dict []) kp = [] := by
  cases kp <;> rfl

theorem insertItem_recs_ok {r : DiffRecord} {its : List DiffRecord} {parts : List String}
    {t' : PyNode} (h : insertItem r (.recs its) parts = Except.ok t') : t' = .recs its := by
  cases parts with
  | nil =>
    by_cases he : excludedFromTree r
    · simp only [insertItem, if_pos he, Except.ok.injEq] at h
      exact h.symm
    · simp only [insertItem, if_neg he] at h
      exact Except.noConfusion h
  | cons p ps =>
    simp only [insertItem] at h
    exact Except.noConfusion h

theorem insertItem_dict_shape {r : DiffRecord} {es : List (String × PyNode)}
    {parts : List String} {t' : PyNode}
    (h : insertItem r (.dict es) parts = Except.ok t') : ∃ es', t' = .dict es' := by
  cases parts with
  | nil =>
    by_cases he : excludedFromTree r
    · simp only [insertItem, if_pos he, Except.ok.injEq] at h
      exact ⟨es, h.symm⟩
    · rcases hl : lookupVal es "root_items" with _ | v
      · simp only [insertItem, if_neg he, hl, Except.ok.injEq] at h
        exact ⟨_, h.symm⟩
      · rcases v with es2 | its
        · simp only [insertItem, if_neg he, hl] at h
          exact Except.noConfusion h
        · simp only [insertItem, if_neg he, hl, Except.ok.injEq] at h
          exact ⟨_, h.symm⟩
  | cons p ps =>
    rcases hl : lookupVal es p with _ | v
    · rcases hc : insertItem r (.dict []) ps with e | child
      · simp only [insertItem, hl, hc] at h
        exact Except.noConfusion h
      · simp only [insertItem, hl, hc, Except.ok.injEq] at h
        exact ⟨_, h.symm⟩
    · rcases hc : insertItem r v ps with e | child
      · simp only [insertItem, hl, hc] at h
        exact Except.noConfusion h
      · simp only [insertItem, hl, hc, Except.ok.injEq] at h
        exact ⟨_, h.symm⟩

theorem nodeItems_insertItem (r : DiffRecord) :
    ∀ (parts : List String) (t t' : PyNode), insertItem r t parts = Except.ok t' →
      ∀ kp : List String,
        nodeItems t' kp =
          if kp = parts ∧ excludedFromTree r = false then nodeItems t kp ++ [r]
          else nodeItems t kp := by
  intro parts
  induction parts with
  | nil =>
    intro t t' hok kp
    cases t with
    | recs its =>
      have ht' := insertItem_recs_ok hok
      subst ht'
      by_cases he : excludedFromTree r
      · rw [if_neg (fun hc => by rw [hc.2] at he; cases he)]
      · simp only [insertItem, if_neg he] at hok
        exact Except.noConfusion hok
    | dict es =>
      by_cases he : excludedFromTree r
      · simp only [insertItem, if_pos he, Except.ok.injEq] at hok
        subst hok
        rw [if_neg (fun hc => by rw [hc.2] at he; cases he)]
      · have hef : excludedFromTree r = false := by
          rcases hx : excludedFromTree r with _ | _
          · rfl
          · exact absurd hx he
        rcases hl : lookupVal es "root_items" with _ | v
        · simp only [insertItem, if_neg he, hl, Except.ok.injEq] at hok
          subst hok
          cases kp with
          | nil =>
            rw [if_pos ⟨rfl, hef⟩, nodeItems_dict_nil, nodeItems_dict_nil,
              lookupVal_append, hl]
            simp [lookupVal]
          | cons q qs =>
            rw [if_neg (by simp), nodeItems_dict_cons, nodeItems_dict_cons,
              lookupVal_append]
            by_cases hq : q = "root_items"
            · subst hq
              rw [hl]
              simp [lookupVal, nodeItems_recs]
            · have hne : ¬ "root_items" = q := fun h => hq h.symm
              rw [lookupVal_single_ne hne]
              rcases lookupVal es q with _ | w <;> rfl
        · rcases v with es2 | its
          · simp only [insertItem, if_neg he, hl] at hok
            exact Except.noConfusion hok
          · simp only [insertItem, if_neg he, hl, Except.ok.injEq] at hok
            subst hok
            cases kp with
            | nil =>
              rw [if_pos ⟨rfl, hef⟩, nodeItems_dict_nil, nodeItems_dict_nil,
                lookupVal_setEntry, if_pos rfl, hl]
            | cons q qs =>
              rw [if_neg (by simp), nodeItems_dict_cons, nodeItems_dict_cons,
                lookupVal_setEntry]
              by_cases hq : q = "root_items"
              · subst hq
                rw [if_pos rfl, hl]
                simp [nodeItems_recs]
              · rw [if_neg hq]
  | cons p ps ih =>
    intro t t' hok kp
    cases t with
    | recs its =>
      simp only [insertItem] at hok
      exact Except.noConfusion hok
    | dict es =>
      rcases hl : lookupVal es p with _ | v
      · rcases hc : insertItem r (.dict []) ps with e | child
        · simp only [insertItem, hl, hc] at hok
          exact Except.noConfusion hok
        · simp only [insertItem, hl, hc, Except.ok.injEq] at hok
          subst hok
          have hchild := ih (.dict []) child hc
          cases kp with
          | nil =>
            rw [if_neg (by simp), nodeItems_dict_nil, nodeItems_dict_nil,
              lookupVal_append]
            by_cases hp : p = "root_items"
            · subst hp
              rw [hl]
              rcases insertItem_dict_shape hc with ⟨es', he'⟩
              subst he'
              simp [lookupVal]
            · rw [lookupVal_single_ne hp]
              rcases lookupVal es "root_items" with _ | w <;> rfl
          | cons q qs =>
            rw [nodeItems_dict_cons, nodeItems_dict_cons, lookupVal_append]
            by_cases hq : q = p
            · subst hq
              have hone : lookupVal [(q, child)] q = some child := by simp [lookupVal]
              simp only [hl, hone]
              rw [hchild qs, nodeItems_emptyDict]
              by_cases hqs : qs = ps ∧ excludedFromTree r = false
              · rw [if_pos hqs, if_pos ⟨by rw [hqs.1], hqs.2⟩]
              · rw [if_neg hqs,
                  if_neg (fun hh => hqs ⟨(by simpa using hh.1 : qs = ps), hh.2⟩)]
            · have hne : ¬ p = q := fun h => hq h.symm
              rw [lookupVal_single_ne hne, if_neg (by simp [hq])]
              rcases lookupVal es q with _ | w <;> rfl
      · rcases hc : insertItem r v ps with e | child
        · simp only [insertItem, hl, hc] at hok
          exact Except.noConfusion hok
        · simp only [insertItem, hl, hc, Except.ok.injEq] at hok
          subst hok
          have hchild := ih v child hc
          cases kp with
          | nil =>
            rw [if_neg (by simp), nodeItems_dict_nil, nodeItems_dict_nil,
              lookupVal_setEntry]
            by_cases hp : "root_items" = p
            · rw [if_pos hp, hp, hl]
              cases v with
              | dict es2 =>
                rcases insertItem_dict_shape hc with ⟨es', he'⟩
                subst he'
                rfl
              | recs its =>
                have hv := insertItem_recs_ok hc
                subst hv
                rfl
            · rw [if_neg hp]
          | cons q qs =>
            rw [nodeItems_dict_cons, nodeItems_dict_cons, lookupVal_setEntry]
            by_cases hq : q = p
            · subst hq
              simp only [hl, eq_self_iff_true, if_true]
              rw [hchild qs]
              by_cases hqs : qs = ps ∧ excludedFromTree r = false
              · rw [if_pos hqs, if_pos ⟨by rw [hqs.1], hqs.2⟩]
              · rw [if_neg hqs,
                  if_neg (fun hh => hqs ⟨(by simpa using hh.1 : qs = ps), hh.2⟩)]
            · rw [if_neg hq, if_neg (by simp [hq])]

theorem nodeItems_buildTreeAux :
    ∀ (out : List DiffRecord) (t t' : PyNode), buildTreeAux t out = Except.ok t' →
      ∀ kp : List String,
        nodeItems t' kp = nodeItems t kp ++
          out.filter (fun r => decide (pathParts r.path = kp) && !excludedFromTree r) := by
  intro out
  induction out with
  | nil =>
    intro t t' hok kp
    simp only [buildTreeAux, Except.ok.injEq] at hok
    subst hok
    simp
  | cons r rs ih =>
    intro t t' hok kp
    rcases hc : insertItem r t (pathParts r.path) with e | t1
    · simp only [buildTreeAux, hc] at hok
      exact Except.noConfusion hok
    · simp only [buildTreeAux, hc] at hok
      rw [ih t1 t' hok kp, nodeItems_insertItem r (pathParts r.path) t t1 hc kp,
        List.filter_cons]
      by_cases hcond : kp = pathParts r.path ∧ excludedFromTree r = false
      · rw [if_pos hcond]
        have : (decide (pathParts r.path = kp) && !excludedFromTree r) = true := by
          simp [hcond.1.symm, hcond.2]
        rw [this]
        simp
      · rw [if_neg hcond]
        have : (decide (pathParts r.path = kp) && !excludedFromTree r) = false := by
          rcases hx : excludedFromTree r with _ | _
          · have hkp : ¬ pathParts r.path = kp := fun h => hcond ⟨h.symm, hx⟩
            simp [hkp]
          · simp [hx]
        rw [this]
        simp

/-- C4 (amended): whenever `_build_tree` completes without raising, it
places every record of the record set in exactly the node whose key path
equals the record's path, in input order, except that a record that is a
parent header and unmatched (disposition Unmatched-Removed, or
Unmatched-Added for a target-only parent) is excluded from every record
list; in particular every record present in a node has a path equal to
that node's key path.  (The builder does raise `AttributeError` - caught
by `handle_initial` as status 5 - when a path segment collides with the
magic "root_items" key, so the placement guarantee is conditional on a
successful build.) -/
theorem C4_tree_amended (out : List DiffRecord) (t : PyNode) (kp : List String)
    (hok : buildTree out = Except.ok t) :
    nodeItems t kp =
      out.filter (fun r => decide (pathParts r.path = kp) && !excludedFromTree r) := by
  rw [nodeItems_buildTreeAux out (.dict []) t hok kp, nodeItems_emptyDict]
  rfl

theorem C4_tree_amended_witness :
    nodeItems
      (PyNode.dict [("a", PyNode.dict
        [("root_items", PyNode.recs [addedRecord ((parse ["a", " b"]).getD 1 default)])])])
      ["a"] =
    (ConfDiff.compare ["a", " b"] []).filter
      (fun r => decide (pathParts r.path = ["a"]) && !excludedFromTree r) :=
  C4_tree_amended (ConfDiff.compare ["a", " b"] [])
    (PyNode.dict [("a", PyNode.dict
      [("root_items", PyNode.recs [addedRecord ((parse ["a", " b"]).getD 1 default)])])])
    ["a"] (by rfl)

/-- C4 counterexample: two violations of the original claim.  First, with an
empty base and target `a` / `  b`, the output contains an added
parent-header record (disposition Unmatched-Added, not Unmatched-Removed)
whose path addresses the root node, yet the build succeeds and the root
node's record list is empty: the exclusion also covers unmatched-added
parent headers.  Second, on target and base both `root_items` / `  x`, the
claimed placement is impossible altogether: the path segment `root_items`
collides with the magic key and `_build_tree` raises `AttributeError`
(`.error ()` in the embedding), so the matched child record is placed in no
node at all. -/
theorem C4_counterexample :
    addedRecord ((parse ["a", " b"]).getD 0 default) ∈ ConfDiff.compare ["a", " b"] [] ∧
    (addedRecord ((parse ["a", " b"]).getD 0 default)).is_parent = true ∧
    disposition (addedRecord ((parse ["a", " b"]).getD 0 default)) = Disp.added ∧
    pathParts (addedRecord ((parse ["a", " b"]).getD 0 default)).path = [] ∧
    (buildTree (ConfDiff.compare ["a", " b"] [])).isOk = true ∧
    treeItems (ConfDiff.compare ["a", " b"] []) [] = [] ∧
    buildTree (ConfDiff.compare ["root_items", "  x"] ["root_items", "  x"]) =
      Except.error () :=
  ⟨by decide, by decide, by decide, by decide, by rfl, by rfl, by rfl⟩

/-! ## Counting lemmas for the compliance summary -/

theorem countP_congr_mem {α : Type} {l : List α} {p q : α → Bool}
    (h : ∀ a ∈ l, p a = q a) : l.countP p = l.countP q := by
  induction l with
  | nil => rfl
  | cons a l ih =>
    rw [List.countP_cons, List.countP_cons, h a (List.mem_cons_self a l),
      ih (fun x hx => h x (List.mem_cons_of_mem a hx))]

/-! ## Pointwise class equalities under the record invariant -/

theorem class_eq_disp {tp : List ParsedLine} {r : DiffRecord} (hok : recordOK tp r) :
    ((!excludedFromTree r && decide (renderClass r = some "is-unchanged")) =
      (!r.is_parent && decide (disposition r = Disp.identical))) ∧
    ((!excludedFromTree r && decide (renderClass r = some "is-changed")) =
      (!r.is_parent && decide (disposition r = Disp.changed))) ∧
    ((!excludedFromTree r && decide (renderClass r = some "is-added")) =
      (!r.is_parent && decide (disposition r = Disp.added))) ∧
    ((!excludedFromTree r && decide (renderClass r = some "is-removed")) =
      (!r.is_parent && decide (disposition r = Disp.removed))) := by
  rcases ha : r.is_added with _ | _
  · rcases hm : r.is_matched with _ | _
    · refine ⟨?_, ?_, ?_, ?_⟩ <;>
        simp [renderClass, disposition, excludedFromTree, ha, hm]
    · have hfacts := hok.2.2.2 hm
      by_cases hlt : r.similarity_score < 1
      · have hp : r.is_parent = false := by
          rcases hpp : r.is_parent with _ | _
          · rfl
          · exfalso
            have := (hfacts.2.2.2.2.2.2.1 hpp).2
            rw [this] at hlt
            exact absurd hlt (by norm_num)
        refine ⟨?_, ?_, ?_, ?_⟩ <;>
          simp [renderClass, disposition, excludedFromTree, ha, hm, hlt, hp]
      · refine ⟨?_, ?_, ?_, ?_⟩ <;>
          (rcases hpp : r.is_parent with _ | _ <;>
            simp [renderClass, disposition, excludedFromTree, ha, hm, hlt, hpp])
  · have hm := (hok.2.1 ha).1
    refine ⟨?_, ?_, ?_, ?_⟩ <;>
      (rcases hpp : r.is_parent with _ | _ <;>
        simp [renderClass, disposition, excludedFromTree, ha, hm, hpp])

/-! ## Idempotence -/

theorem candidatesAux_range_skip (path : String) (n : Nat) :
    ∀ (pre suf : List ParsedLine) (i : Nat), i + pre.length ≤ n →
      candidatesAux path (List.range n) i (pre ++ suf) =
        candidatesAux path (List.range n) (i + pre.length) suf := by
  intro pre
  induction pre with
  | nil => intro suf i h; simp
  | cons t pre ih =>
    intro suf i h
    have hin : i ∈ List.range n := List.mem_range.mpr (by
      simp only [List.length_cons] at h
      omega)
    rw [List.cons_append, candidatesAux, if_neg (by simp [hin]),
      ih suf (i + 1) (by simp only [List.length_cons] at h; omega),
      show i + 1 + pre.length = i + (t :: pre).length from by
        simp only [List.length_cons]; omega]

theorem matchResult_self (p : List ParsedLine) (hp : ∀ x ∈ p, pySplit x.string ≠ [])
    (k : Nat) (b : ParsedLine) (hdrop : p.drop k = b :: p.drop (k + 1)) :
    matchResult p (List.range k) b = (some k, 1) := by
  have hklt : k < p.length := by
    have hlen := congrArg List.length hdrop
    simp only [List.length_drop, List.length_cons] at hlen
    omega
  have hb : pySplit b.string ≠ [] := by
    refine hp b (List.drop_subset k p ?_)
    rw [hdrop]
    exact List.mem_cons_self b _
  have hcands : candidatesOf p b.path (List.range k) =
      (k, b) :: candidatesAux b.path (List.range k) (k + 1) (p.drop (k + 1)) := by
    unfold candidatesOf
    have hsplit : p = p.take k ++ p.drop k := (List.take_append_drop k p).symm
    rw [show candidatesAux b.path (List.range k) 0 p =
        candidatesAux b.path (List.range k) 0 (p.take k ++ p.drop k) from by rw [← hsplit]]
    rw [candidatesAux_range_skip b.path k (p.take k) (p.drop k) 0
      (by simp [List.length_take])]
    have htk : 0 + (p.take k).length = k := by
      simp [List.length_take]
      omega
    rw [htk, hdrop, candidatesAux,
      if_pos ⟨rfl, by simp⟩]
  unfold matchResult scanCandidates
  rcases hpar : b.is_parent with _ | _
  · rw [if_neg (by simp [hpar]), hcands, List.foldl_cons]
    have hstep : pickBest b.string (none, -1) (k, b) =
        (some k, cisco_similarity b.string b.string) := by
      unfold pickBest
      rw [if_pos (by
        show cisco_similarity b.string b.string > (-1 : ℚ)
        rw [cisco_similarity_self hb]
        norm_num)]
    rw [hstep, cisco_similarity_self hb]
    exact foldl_pickBest_stay _ _ (fun c _ => cisco_similarity_le_one _ _)
  · rw [if_pos (by simp [hpar]), hcands, List.find?_cons_of_pos _ (by simp)]

theorem drop_succ_of_drop_cons {α : Type} :
    ∀ (k : Nat) (l : List α) (a : α) (t : List α), l.drop k = a :: t → l.drop (k + 1) = t := by
  intro k
  induction k with
  | zero =>
    intro l a t h
    simp only [List.drop_zero] at h
    rw [h]
    rfl
  | succ k ih =>
    intro l a t h
    cases l with
    | nil => simp at h
    | cons x xs =>
      rw [List.drop_succ_cons] at h
      rw [List.drop_succ_cons]
      exact ih xs a t h

theorem addedAux_range_all : ∀ (ts : List ParsedLine) (i n : Nat), i + ts.length ≤ n →
    addedAux (List.range n) i ts = [] := by
  intro ts
  induction ts with
  | nil => intro i n _; rfl
  | cons t ts ih =>
    intro i n h
    rw [addedAux, if_pos (List.mem_range.mpr (by simp only [List.length_cons] at h; omega))]
    exact ih (i + 1) n (by simp only [List.length_cons] at h; omega)

theorem compareLoop_self (p : List ParsedLine) (hp : ∀ x ∈ p, pySplit x.string ≠ []) :
    ∀ (bs : List ParsedLine) (k : Nat), k ≤ p.length → bs = p.drop k →
      (compareLoop p bs (List.range k)).2 = List.range p.length ∧
      ∀ r ∈ (compareLoop p bs (List.range k)).1,
        r.is_matched = true ∧ r.similarity_score = 1 ∧ r.is_added = false := by
  intro bs
  induction bs with
  | nil =>
    intro k hk hdrop
    have hkl : p.length ≤ k := by
      have hlen := congrArg List.length hdrop
      simp only [List.length_drop, List.length_nil] at hlen
      omega
    have hkeq : k = p.length := le_antisymm hk hkl
    subst hkeq
    exact ⟨rfl, by intro r hr; simp [compareLoop] at hr⟩
  | cons b bs ih =>
    intro k hk hdrop
    have hklt : k < p.length := by
      have hlen := congrArg List.length hdrop
      simp only [List.length_drop, List.length_cons] at hlen
      omega
    have hdk1 : p.drop (k + 1) = bs := drop_succ_of_drop_cons k p b bs hdrop.symm
    have hmr := matchResult_self p hp k b (by rw [hdk1]; exact hdrop.symm)
    have hthr : (3 : ℚ)/5 ≤ 1 := by norm_num
    rw [compareLoop]
    simp only [compareStep, hmr, if_pos hthr]
    rw [show List.range k ++ [k] = List.range (k + 1) from (List.range_succ k).symm]
    refine ⟨(ih (k + 1) (by omega) hdk1.symm).1, ?_⟩
    intro r hr
    rcases List.mem_cons.mp hr with hr | hr
    · rw [hr]
      exact ⟨rfl, rfl, rfl⟩
    · exact (ih (k + 1) (by omega) hdk1.symm).2 r hr

/-- C2: comparing a configuration text against an identical copy of itself
yields zero Unmatched-Removed records, zero Unmatched-Added records, and
every record Matched-Identical: each base line exact-matches its own target
counterpart, in order, with score 1.0, and no target line is left over. -/
theorem C2_idempotence (lines : List String) :
    ∀ r ∈ ConfDiff.compare lines lines, disposition r = Disp.identical := by
  intro r hr
  have hp : ∀ x ∈ parse lines, pySplit x.string ≠ [] := parse_tokens_ne_nil lines []
  unfold ConfDiff.compare compareParsed at hr
  have hzero : ([] : List Nat) = List.range 0 := rfl
  rw [hzero] at hr
  have hmain := compareLoop_self (parse lines) hp (parse lines) 0 (Nat.zero_le _) (by simp)
  rcases List.mem_append.mp hr with hr | hr
  · have hprops := hmain.2 r hr
    simp [disposition, hprops.1, hprops.2.1, hprops.2.2]
  · rw [hmain.1, addedAux_range_all (parse lines) 0 (parse lines).length (by omega)] at hr
    simp at hr

/-- Witness for C2: the single record of a one-line self-comparison is
Matched-Identical. -/
theorem C2_idempotence_witness :
    disposition ((ConfDiff.compare ["a"] ["a"]).getD 0 default) = Disp.identical :=
  C2_idempotence ["a"] _ (by decide)


/-! ## Occurrence-scanning lemmas for the regex statistics -/

theorem litMatch_eq_some {q : List Char} :
    ∀ {s r : List Char}, litMatch q s = some r ↔ s = q ++ r := by
  induction q with
  | nil =>
    intro s r
    simp [litMatch]
  | cons p ps ih =>
    intro s r
    cases s with
    | nil => simp [litMatch]
    | cons c cs =>
      by_cases hc : c = p
      · subst hc
        rw [litMatch, if_pos rfl]
        simp [ih]
      · rw [litMatch, if_neg hc]
        simp
        exact fun h => absurd h hc

theorem litMatch_self_append (q rest : List Char) : litMatch q (q ++ rest) = some rest :=
  litMatch_eq_some.mpr rfl

theorem prefix_append_right {q z : List Char} (w : List Char) (h : q <+: z) :
    q <+: z ++ w :=
  h.trans (List.prefix_append z w)

theorem prefix_of_append_left {q z w : List Char} (h : q <+: z ++ w)
    (hle : q.length ≤ z.length) : q <+: z := by
  have hq := List.prefix_iff_eq_take.mp h
  rw [List.take_append_of_le_length hle] at hq
  rw [hq]
  exact List.take_prefix _ _

theorem prefix_split {q z w : List Char} (h : q <+: z ++ w)
    (hgt : z.length < q.length) : z <+: q ∧ q.drop z.length <+: w := by
  have hq := List.prefix_iff_eq_take.mp h
  rw [List.take_append_eq_append_take, List.take_of_length_le (le_of_lt hgt)] at hq
  constructor
  · rw [hq]
    exact List.prefix_append _ _
  · rw [hq, List.drop_left]
    exact ⟨w.drop (q.length - z.length), by rw [List.take_append_drop]⟩

theorem get?_within {q z : List Char} (h : q <+: z) {i : Nat} (hi : i < q.length) :
    z.get? i = q.get? i := by
  rcases h with ⟨t, ht⟩
  rw [← ht]
  exact List.get?_append hi

theorem pPat_length : pPat.length = 11 := by decide

theorem pPat_get6 : pPat.get? 6 = some '"' := by decide

theorem pPat_get7 : pPat.get? 7 = some 'i' := by decide

theorem pPat_get0 : pPat.get? 0 = some 'c' := by decide

theorem pPat_get5 : pPat.get? 5 = some '=' := by decide

/-- A position where the pattern head occurs pins the quote and the
following `i` of the surrounding string. -/
theorem site_chars {s : List Char} (h : pPat <+: s) :
    s.get? 6 = some '"' ∧ s.get? 7 = some 'i' :=
  ⟨by rw [get?_within h (by rw [pPat_length]; omega)]; exact pPat_get6,
   by rw [get?_within h (by rw [pPat_length]; omega)]; exact pPat_get7⟩

theorem addC_zero_right (x : Counts) : addC x zeroC = x := by
  rcases x with ⟨a, b, c, d⟩
  simp [addC, zeroC]

theorem addC_zero_left (x : Counts) : addC zeroC x = x := by
  rcases x with ⟨a, b, c, d⟩
  simp [addC, zeroC]

theorem addC_assoc (x y z : Counts) : addC (addC x y) z = addC x (addC y z) := by
  rcases x with ⟨a1, b1, c1, d1⟩
  rcases y with ⟨a2, b2, c2, d2⟩
  rcases z with ⟨a3, b3, c3, d3⟩
  simp [addC, Nat.add_assoc]

theorem addC_comm (x y : Counts) : addC x y = addC y x := by
  rcases x with ⟨a1, b1, c1, d1⟩
  rcases y with ⟨a2, b2, c2, d2⟩
  simp [addC, Nat.add_comm]

theorem projC_addC (x y : Counts) (d : Disp) :
    projC (addC x y) d = projC x d + projC y d := by
  rcases x with ⟨a1, b1, c1, d1⟩
  rcases y with ⟨a2, b2, c2, d2⟩
  cases d <;> rfl

theorem projC_zero (d : Disp) : projC zeroC d = 0 := by cases d <;> rfl

theorem projC_unitC_same (d : Disp) : projC (unitC d) d = 1 := by cases d <;> rfl

theorem projC_unitC_other {d d0 : Disp} (h : d ≠ d0) : projC (unitC d0) d = 0 := by
  cases d <;> cases d0 <;> first | exact absurd rfl h | rfl

theorem scanAux_shift : ∀ (s : List Char) (a b : Counts),
    scanAux s (addC a b) = (scanAux s b).map (addC a) := by
  intro s
  induction s with
  | nil => intro a b; rfl
  | cons c rest ih =>
    intro a b
    rw [scanAux, scanAux]
    by_cases hsite : pPat.isPrefixOf (c :: rest)
    · rw [if_pos hsite, if_pos hsite]
      rcases hcl : classifySite (c :: rest) with _ | d
      · rfl
      · show scanAux rest (addC (addC a b) (unitC d)) =
          Option.map (addC a) (scanAux rest (addC b (unitC d)))
        rw [addC_assoc]
        exact ih a (addC b (unitC d))
    · rw [if_neg hsite, if_neg hsite]
      exact ih a b

theorem scanAux_of_scanCounts {s : List Char} {t : Counts}
    (h : scanCounts s = some t) (acc : Counts) : scanAux s acc = some (addC acc t) := by
  have hsh := scanAux_shift s acc zeroC
  rw [addC_zero_right] at hsh
  have h' : scanAux s zeroC = some t := h
  rw [hsh, h']
  rfl

/-- Transporting a classification across an appended suffix. -/
theorem fullPat_incompat {d1 d2 : Disp} (h : d1 ≠ d2) (v : List Char) :
    ¬ (fullPat d1 <+: v ∧ fullPat d2 <+: v) := by
  intro ⟨h1, h2⟩
  rcases Nat.le_total (fullPat d1).length (fullPat d2).length with hle | hle
  · have hp := List.prefix_of_prefix_length_le h1 h2 hle
    revert hp
    cases d1 <;> cases d2 <;> first | exact absurd rfl h | decide
  · have hp := List.prefix_of_prefix_length_le h2 h1 hle
    revert hp
    cases d1 <;> cases d2 <;> first | exact absurd rfl h | decide

theorem classifySite_sound {s : List Char} {d : Disp}
    (h : classifySite s = some d) : fullPat d <+: s := by
  unfold classifySite at h
  by_cases h1 : (fullPat .added).isPrefixOf s
  · rw [if_pos h1] at h
    cases h
    exact List.isPrefixOf_iff_prefix.mp h1
  · rw [if_neg h1] at h
    by_cases h2 : (fullPat .removed).isPrefixOf s
    · rw [if_pos h2] at h
      cases h
      exact List.isPrefixOf_iff_prefix.mp h2
    · rw [if_neg h2] at h
      by_cases h3 : (fullPat .changed).isPrefixOf s
      · rw [if_pos h3] at h
        cases h
        exact List.isPrefixOf_iff_prefix.mp h3
      · rw [if_neg h3] at h
        by_cases h4 : (fullPat .identical).isPrefixOf s
        · rw [if_pos h4] at h
          cases h
          exact List.isPrefixOf_iff_prefix.mp h4
        · rw [if_neg h4] at h
          cases h

theorem classifySite_append {z w : List Char} {d : Disp}
    (h : classifySite z = some d) : classifySite (z ++ w) = some d := by
  have hd := classifySite_sound h
  have hdw : fullPat d <+: z ++ w := prefix_append_right w hd
  have hother : ∀ d2 : Disp, d2 ≠ d → ¬ (fullPat d2).isPrefixOf (z ++ w) := by
    intro d2 hne hpre
    exact fullPat_incompat hne (z ++ w) ⟨List.isPrefixOf_iff_prefix.mp hpre, hdw⟩
  unfold classifySite
  cases d with
  | added => rw [if_pos (List.isPrefixOf_iff_prefix.mpr hdw)]
  | removed =>
    rw [if_neg (hother .added (by intro hc; cases hc)),
      if_pos (List.isPrefixOf_iff_prefix.mpr hdw)]
  | changed =>
    rw [if_neg (hother .added (by intro hc; cases hc)),
      if_neg (hother .removed (by intro hc; cases hc)),
      if_pos (List.isPrefixOf_iff_prefix.mpr hdw)]
  | identical =>
    rw [if_neg (hother .added (by intro hc; cases hc)),
      if_neg (hother .removed (by intro hc; cases hc)),
      if_neg (hother .changed (by intro hc; cases hc)),
      if_pos (List.isPrefixOf_iff_prefix.mpr hdw)]

theorem lastSafe_cons {c : Char} {l : List Char} (h : lastSafe (c :: l) = true)
    (hne : l ≠ []) : lastSafe l = true := by
  unfold lastSafe at *
  rwa [show (c :: l).getLast? = l.getLast? from by
    rcases l with _ | ⟨x, xs⟩
    · exact absurd rfl hne
    · rfl] at h

/-- A straddling pattern head forces the left side to end in a pattern
character; `lastSafe` rules that out. -/
theorem no_straddle_lastSafe {X R : List Char} (hsafe : lastSafe X = true)
    (hX : X ≠ []) (hlt : X.length < pPat.length) : ¬ pPat <+: X ++ R := by
  intro hpre
  have hsplit := (prefix_split hpre hlt).1
  have hlen : 0 < X.length := List.length_pos.mpr hX
  have hlt11 : X.length < 11 := by rw [pPat_length] at hlt; exact hlt
  have hlast : X.getLast? = X.get? (X.length - 1) := List.getLast?_eq_get? X
  have hc : X.get? (X.length - 1) = pPat.get? (X.length - 1) :=
    (get?_within hsplit (by omega)).symm
  rcases hg : pPat.get? (X.length - 1) with _ | ch
  · rw [List.get?_eq_none, pPat_length] at hg
    omega
  · have hmem : ch ∈ pPat := by
      have := List.get?_mem hg
      exact this
    unfold lastSafe at hsafe
    rw [hlast, hc, hg] at hsafe
    simp at hsafe
    exact absurd hmem (by simpa using hsafe)

/-- A straddling pattern head forces the right side to begin with a
pattern-tail character; `headSafe` rules that out. -/
theorem no_straddle_headSafe {X R : List Char} (hsafe : headSafe R = true)
    (hX : X ≠ []) (hlt : X.length < pPat.length) : ¬ pPat <+: X ++ R := by
  intro hpre
  have hlen : 0 < X.length := List.length_pos.mpr hX
  have hsplit := (prefix_split hpre hlt).2
  have hne : pPat.drop X.length ≠ [] := by
    intro hc
    have := congrArg List.length hc
    rw [List.length_drop, pPat_length] at this
    simp at this
    rw [pPat_length] at hlt
    omega
  rcases hsplit with ⟨t, ht⟩
  have hhead : R.head? = (pPat.drop X.length).head? := by
    rw [← ht]
    rcases hd : pPat.drop X.length with _ | ⟨x, xs⟩
    · exact absurd hd hne
    · rfl
  rcases hh : (pPat.drop X.length).head? with _ | ch
  · rw [List.head?_eq_none_iff] at hh
    exact absurd hh hne
  · have hmem : ch ∈ pPat.drop 1 := by
      have h1 : pPat.drop X.length = (pPat.drop 1).drop (X.length - 1) := by
        rw [List.drop_drop]
        congr 1
        omega
      rw [h1] at hh
      have := List.head?_eq_head (l := (pPat.drop 1).drop (X.length - 1)) ?hne
      case hne =>
        rw [← h1]
        exact hne
      rw [this] at hh
      have hhd := List.head_mem (l := (pPat.drop 1).drop (X.length - 1)) ?hne2
      case hne2 =>
        rw [← h1]
        exact hne
      rw [(Option.some.injEq _ _).mp hh] at hhd
      exact List.mem_of_mem_drop hhd
    unfold headSafe at hsafe
    rw [hhead, hh] at hsafe
    simp at hsafe
    exact absurd hmem (by simpa using hsafe)

/-- Pattern heads inside the left part are position-stable under append. -/
theorem isPrefixOf_append_long {X R : List Char} (hge : pPat.length ≤ X.length) :
    pPat.isPrefixOf (X ++ R) = pPat.isPrefixOf X := by
  by_cases h : pPat.isPrefixOf X
  · rw [h]
    exact List.isPrefixOf_iff_prefix.mpr
      (prefix_append_right R (List.isPrefixOf_iff_prefix.mp h))
  · rw [Bool.eq_false_iff.mpr h]
    rw [Bool.eq_false_iff]
    intro hc
    exact h (List.isPrefixOf_iff_prefix.mpr
      (prefix_of_append_left (List.isPrefixOf_iff_prefix.mp hc) hge))


/-- Append lemma, left-safe form: a scanned left part whose last character
is not a pattern character composes with any right part. -/
theorem scanAux_append_lastSafe :
    ∀ (X : List Char) (acc acc' : Counts), lastSafe X = true →
      scanAux X acc = some acc' → ∀ R, scanAux (X ++ R) acc = scanAux R acc' := by
  intro X
  induction X with
  | nil =>
    intro acc acc' _ hX R
    simp only [scanAux, Option.some.injEq] at hX
    subst hX
    rfl
  | cons c X' ih =>
    intro acc acc' hsafe hX R
    by_cases hsite : pPat.isPrefixOf (c :: X')
    · have hlong : pPat.length ≤ (c :: X').length :=
        (List.isPrefixOf_iff_prefix.mp hsite).length_le
      have hsite2 : pPat.isPrefixOf (c :: (X' ++ R)) = true := by
        rw [show c :: (X' ++ R) = (c :: X') ++ R from rfl, isPrefixOf_append_long hlong]
        exact hsite
      rw [scanAux, if_pos hsite] at hX
      rw [show (c :: X') ++ R = c :: (X' ++ R) from rfl, scanAux, if_pos hsite2]
      rcases hcl : classifySite (c :: X') with _ | d
      · rw [hcl] at hX
        exact absurd hX (by simp)
      · have hcl2 : classifySite (c :: (X' ++ R)) = some d := classifySite_append hcl
        rw [hcl] at hX
        rw [hcl2]
        show scanAux (X' ++ R) (addC acc (unitC d)) = scanAux R acc'
        have hX' : scanAux X' (addC acc (unitC d)) = some acc' := hX
        have hne : X' ≠ [] := by
          intro hc
          subst hc
          rw [pPat_length] at hlong
          simp at hlong
        exact ih (addC acc (unitC d)) acc' (lastSafe_cons hsafe hne) hX' R
    · rw [scanAux, if_neg hsite] at hX
      have hsite2 : ¬ pPat.isPrefixOf (c :: (X' ++ R)) = true := by
        by_cases hlong : pPat.length ≤ (c :: X').length
        · rw [show c :: (X' ++ R) = (c :: X') ++ R from rfl, isPrefixOf_append_long hlong]
          exact hsite
        · push_neg at hlong
          intro hc
          exact no_straddle_lastSafe hsafe (by simp) hlong
            (List.isPrefixOf_iff_prefix.mp hc)
      rw [show (c :: X') ++ R = c :: (X' ++ R) from rfl, scanAux, if_neg hsite2]
      cases hX'nil : X' with
      | nil =>
        subst hX'nil
        simp only [scanAux, Option.some.injEq] at hX
        subst hX
        rfl
      | cons y ys =>
        have hne : X' ≠ [] := by rw [hX'nil]; simp
        rw [← hX'nil]
        exact ih acc acc' (lastSafe_cons hsafe hne) hX R

/-- Append lemma, right-safe form: a scanned left part composes with a
right part whose first character is not a pattern-tail character. -/
theorem scanAux_append_headSafe :
    ∀ (X : List Char) (acc acc' : Counts) {R : List Char}, headSafe R = true →
      scanAux X acc = some acc' → scanAux (X ++ R) acc = scanAux R acc' := by
  intro X
  induction X with
  | nil =>
    intro acc acc' R _ hX
    simp only [scanAux, Option.some.injEq] at hX
    subst hX
    rfl
  | cons c X' ih =>
    intro acc acc' R hsafe hX
    by_cases hsite : pPat.isPrefixOf (c :: X')
    · have hlong : pPat.length ≤ (c :: X').length :=
        (List.isPrefixOf_iff_prefix.mp hsite).length_le
      have hsite2 : pPat.isPrefixOf (c :: (X' ++ R)) = true := by
        rw [show c :: (X' ++ R) = (c :: X') ++ R from rfl, isPrefixOf_append_long hlong]
        exact hsite
      rw [scanAux, if_pos hsite] at hX
      rw [show (c :: X') ++ R = c :: (X' ++ R) from rfl, scanAux, if_pos hsite2]
      rcases hcl : classifySite (c :: X') with _ | d
      · rw [hcl] at hX
        exact absurd hX (by simp)
      · have hcl2 : classifySite (c :: (X' ++ R)) = some d := classifySite_append hcl
        rw [hcl] at hX
        rw [hcl2]
        show scanAux (X' ++ R) (addC acc (unitC d)) = scanAux R acc'
        exact ih (addC acc (unitC d)) acc' hsafe hX
    · rw [scanAux, if_neg hsite] at hX
      have hsite2 : ¬ pPat.isPrefixOf (c :: (X' ++ R)) = true := by
        by_cases hlong : pPat.length ≤ (c :: X').length
        · rw [show c :: (X' ++ R) = (c :: X') ++ R from rfl, isPrefixOf_append_long hlong]
          exact hsite
        · push_neg at hlong
          intro hc
          exact no_straddle_headSafe hsafe (by simp) hlong
            (List.isPrefixOf_iff_prefix.mp hc)
      rw [show (c :: X') ++ R = c :: (X' ++ R) from rfl, scanAux, if_neg hsite2]
      exact ih acc acc' hsafe hX

theorem nqiOK_cons {c : Char} {l : List Char} (h : nqiOK (c :: l)) : nqiOK l := by
  rcases h with ⟨h1, h2⟩
  constructor
  · intro i hi hqi
    exact h1 (i + 1) (by simpa using Nat.succ_lt_succ hi)
      (by simpa using hqi)
  · rcases hl : l with _ | ⟨y, ys⟩
    · simp
    · rw [← hl]
      intro hc
      apply h2
      rw [show (c :: l).getLast? = l.getLast? from by rw [hl]; rfl]
      exact hc

/-- Pass-through lemma: a part in which no double quote is followed by `i`
(and none ends the part) contains no pattern head at all, even looking into
a head-safe right part. -/
theorem scanAux_pass_nqi :
    ∀ (X : List Char), nqiOK X → ∀ {R : List Char}, headSafe R = true →
      ∀ acc, scanAux (X ++ R) acc = scanAux R acc := by
  intro X
  induction X with
  | nil => intro _ R _ acc; rfl
  | cons c X' ih =>
    intro hnqi R hsafe acc
    have hsite2 : ¬ pPat.isPrefixOf (c :: (X' ++ R)) = true := by
      intro hc
      have hpre := List.isPrefixOf_iff_prefix.mp hc
      by_cases hlong : pPat.length ≤ (c :: X').length
      · have hin : pPat <+: (c :: X') :=
          prefix_of_append_left (by exact hpre) hlong
        have hchars := site_chars hin
        have h6 : (c :: X').get? 6 = some '"' := hchars.1
        have h7 : (c :: X').get? 7 = some 'i' := hchars.2
        exact hnqi.1 6 (by
            have := List.get?_eq_some.mp h7
            rcases this with ⟨hlt, _⟩
            omega) ⟨h6, h7⟩
      · push_neg at hlong
        by_cases hlen7 : 7 ≤ (c :: X').length
        · have hsplit := (prefix_split hpre hlong).1
          have h6 : (c :: X').get? 6 = some '"' := by
            have h := get?_within hsplit (show 6 < (c :: X').length by omega)
            rw [← h]
            exact pPat_get6
          by_cases hlen8 : 8 ≤ (c :: X').length
          · have h7 : (c :: X').get? 7 = some 'i' := by
              have h := get?_within hsplit (show 7 < (c :: X').length by omega)
              rw [← h]
              exact pPat_get7
            exact hnqi.1 6 (by omega) ⟨h6, h7⟩
          · have hlen : (c :: X').length = 7 := by omega
            apply hnqi.2
            rw [List.getLast?_eq_get? _, hlen]
            exact h6
        · push_neg at hlen7
          exact no_straddle_headSafe hsafe (by simp) hlong hpre
    rw [show (c :: X') ++ R = c :: (X' ++ R) from rfl, scanAux, if_neg hsite2]
    exact ih (nqiOK_cons hnqi) hsafe acc

/-- Quote-free strings contain no pattern head and no terminal quote. -/
theorem nqiOK_of_qFree {s : List Char} (h : qFree s = true) : nqiOK s := by
  have hnx : ('"' : Char) ∉ s := by
    unfold qFree at h
    simpa using h
  constructor
  · intro i _ hqi
    exact hnx (List.get?_mem hqi.1)
  · intro hc
    exact hnx (List.mem_of_getLast?_eq_some hc)

theorem nqiOK_append {a b : List Char} (ha : nqiOK a) (hb : nqiOK b) :
    nqiOK (a ++ b) := by
  constructor
  · intro i hi hqi
    rcases hqi with ⟨hq, hii⟩
    by_cases h1 : i + 1 < a.length
    · rw [List.get?_append (by omega)] at hq
      rw [List.get?_append h1] at hii
      exact ha.1 i (by omega) ⟨hq, hii⟩
    · by_cases h0 : i < a.length
      · have hie : i = a.length - 1 := by omega
        apply ha.2
        rw [List.getLast?_eq_get? _, ← hie]
        rw [List.get?_append h0] at hq
        exact hq
      · push_neg at h0
        have hq' : b.get? (i - a.length) = some '"' := by
          rw [List.get?_append_right h0] at hq
          exact hq
        have hii' : b.get? (i - a.length + 1) = some 'i' := by
          rw [List.get?_append_right (by omega)] at hii
          rw [show i + 1 - a.length = i - a.length + 1 from by omega] at hii
          exact hii
        have hlt : i - a.length < b.length := by
          rcases List.get?_eq_some.mp hq' with ⟨hlt, _⟩
          exact hlt
        exact hb.1 (i - a.length) hlt ⟨hq', hii'⟩
  · intro hc
    rcases hbn : b with _ | ⟨y, ys⟩
    · subst hbn
      rw [List.append_nil] at hc
      exact ha.2 hc
    · have hbne : b ≠ [] := by rw [hbn]; simp
      rw [List.getLast?_append_of_ne_nil _ hbne] at hc
      exact hb.2 hc

/-- Skip lemma: positions without a pattern head are skipped. -/
theorem scanAux_skip :
    ∀ (k : Nat) (z : List Char) (acc : Counts),
      (∀ j, j < k → ¬ pPat <+: z.drop j) →
      scanAux z acc = scanAux (z.drop k) acc := by
  intro k
  induction k with
  | zero => intro z acc _; rfl
  | succ k ih =>
    intro z acc hns
    cases z with
    | nil => simp
    | cons c rest =>
      have h0 : ¬ pPat.isPrefixOf (c :: rest) = true := by
        intro hc
        exact hns 0 (by omega) (by simpa using List.isPrefixOf_iff_prefix.mp hc)
      rw [scanAux, if_neg h0]
      rw [show (c :: rest).drop (k + 1) = rest.drop k from rfl]
      exact ih rest acc (fun j hj => by
        have := hns (j + 1) (by omega)
        simpa using this)

/-- Quote-free strings scan to zero in any context. -/
theorem scanAux_qFree {s : List Char} (h : qFree s = true) (acc : Counts) :
    scanAux s acc = some acc := by
  induction s with
  | nil => rfl
  | cons c rest ih =>
    have hnx : ('"' : Char) ∉ c :: rest := by
      unfold qFree at h
      simpa using h
    have hsite : ¬ pPat.isPrefixOf (c :: rest) = true := by
      intro hc
      have := site_chars (List.isPrefixOf_iff_prefix.mp hc)
      exact hnx (List.get?_mem this.1)
    rw [scanAux, if_neg hsite]
    apply ih
    unfold qFree at h ⊢
    simp at h ⊢
    exact h.2


/-! ## Composition framework for scanned fragments -/

/-- A fragment that scans cleanly in any right context, contributing `cnt`. -/
def ScanPassS (x : List Char) (cnt : Counts) : Prop :=
  ∀ (R : List Char) (acc : Counts), scanAux (x ++ R) acc = scanAux R (addC acc cnt)

/-- A fragment that scans cleanly whenever the right context is head-safe. -/
def ScanPassW (x : List Char) (cnt : Counts) : Prop :=
  ∀ (R : List Char) (acc : Counts), headSafe R = true →
    scanAux (x ++ R) acc = scanAux R (addC acc cnt)

theorem S_of_lastSafe {x : List Char} {cnt : Counts}
    (hscan : scanCounts x = some cnt) (hsafe : lastSafe x = true) : ScanPassS x cnt := by
  intro R acc
  exact scanAux_append_lastSafe x acc (addC acc cnt) hsafe
    (scanAux_of_scanCounts hscan acc) R

theorem W_of_scan {x : List Char} {cnt : Counts}
    (hscan : scanCounts x = some cnt) : ScanPassW x cnt := by
  intro R acc hR
  exact scanAux_append_headSafe x acc (addC acc cnt) hR (scanAux_of_scanCounts hscan acc)

theorem W_of_nqi {x : List Char} (h : nqiOK x) : ScanPassW x zeroC := by
  intro R acc hR
  rw [addC_zero_right]
  exact scanAux_pass_nqi x h hR acc

theorem S_nil : ScanPassS [] zeroC := by
  intro R acc
  rw [List.nil_append, addC_zero_right]

theorem S_append {x y : List Char} {cx cy : Counts}
    (hx : ScanPassS x cx) (hy : ScanPassS y cy) : ScanPassS (x ++ y) (addC cx cy) := by
  intro R acc
  rw [List.append_assoc, hx (y ++ R) acc, hy R (addC acc cx), addC_assoc]

theorem WS_append {x y : List Char} {cx cy : Counts}
    (hx : ScanPassW x cx) (hy : ScanPassS y cy) (hne : y ≠ [])
    (hsafe : headSafe y = true) : ScanPassS (x ++ y) (addC cx cy) := by
  intro R acc
  have hyR : headSafe (y ++ R) = true := by
    unfold headSafe at *
    rcases y with _ | ⟨c, cs⟩
    · exact absurd rfl hne
    · exact hsafe
  rw [List.append_assoc, hx (y ++ R) acc hyR, hy R (addC acc cx), addC_assoc]

theorem scanCounts_of_S {x : List Char} {cnt : Counts} (h : ScanPassS x cnt) :
    scanCounts x = some cnt := by
  have := h [] zeroC
  rw [List.append_nil] at this
  unfold scanCounts
  rw [this, addC_zero_left]
  rfl

/-! ## Relating the findall count to the scanner -/

theorem wsChomp_space {c : Char} (h : pyIsSpace c = true) (l : List Char) (n : Nat) :
    wsChomp (c :: l) n = wsChomp l (n + 1) := by
  rw [wsChomp, if_pos h]

theorem wsChomp_nonspace {c : Char} (h : pyIsSpace c = false) (l : List Char) (n : Nat) :
    wsChomp (c :: l) n = (n, c :: l) := by
  rw [wsChomp, if_neg (by rw [h]; intro hc; cases hc)]

theorem clsOf_cons : ∀ d : Disp, ∃ cs : List Char, clsOf d = 'i' :: cs := by
  intro d
  cases d <;> exact ⟨_, rfl⟩

theorem matchClassAt_fullPat {d : Disp} {s : List Char} (h : fullPat d <+: s) :
    matchClassAt (clsOf d) s = some (s.drop (fullPat d).length) := by
  rcases h with ⟨t, ht⟩
  rw [← ht, List.drop_left]
  unfold matchClassAt
  have h1 : litMatch pPat (fullPat d ++ t) = some ((' ' :: (clsOf d ++ ['"'])) ++ t) := by
    rw [show fullPat d ++ t = pPat ++ ((' ' :: (clsOf d ++ ['"'])) ++ t) from by
      rw [fullPat]; simp]
    exact litMatch_self_append _ _
  rcases clsOf_cons d with ⟨cs, hcs⟩
  have h2 : wsChomp ((' ' :: (clsOf d ++ ['"'])) ++ t) 0 = (1, (clsOf d ++ ['"']) ++ t) := by
    rw [show (' ' :: (clsOf d ++ ['"'])) ++ t = ' ' :: ((clsOf d ++ ['"']) ++ t) from rfl,
      wsChomp_space (by decide), hcs,
      show (('i' :: cs) ++ ['"']) ++ t = 'i' :: ((cs ++ ['"']) ++ t) from rfl,
      wsChomp_nonspace (by decide)]
  simp only [h1, h2]
  exact litMatch_self_append _ _

theorem matchClassAt_no_site {cls s : List Char} (h : ¬ pPat <+: s) :
    matchClassAt cls s = none := by
  unfold matchClassAt
  rcases hm : litMatch pPat s with _ | r
  · rfl
  · exact absurd ⟨r, (litMatch_eq_some.mp hm).symm⟩ h

theorem clsOf_get3_ne {d d0 : Disp} (h : d ≠ d0) :
    (clsOf d).get? 3 ≠ (clsOf d0).get? 3 := by
  cases d <;> cases d0 <;> first | exact absurd rfl h | decide

theorem matchClassAt_other {d d0 : Disp} (hne : d ≠ d0) {s : List Char}
    (h : fullPat d0 <+: s) : matchClassAt (clsOf d) s = none := by
  rcases h with ⟨t, ht⟩
  rw [← ht]
  unfold matchClassAt
  have h1 : litMatch pPat (fullPat d0 ++ t) = some ((' ' :: (clsOf d0 ++ ['"'])) ++ t) := by
    rw [show fullPat d0 ++ t = pPat ++ ((' ' :: (clsOf d0 ++ ['"'])) ++ t) from by
      rw [fullPat]; simp]
    exact litMatch_self_append _ _
  rcases clsOf_cons d0 with ⟨cs, hcs⟩
  have h2 : wsChomp ((' ' :: (clsOf d0 ++ ['"'])) ++ t) 0 = (1, (clsOf d0 ++ ['"']) ++ t) := by
    rw [show (' ' :: (clsOf d0 ++ ['"'])) ++ t = ' ' :: ((clsOf d0 ++ ['"']) ++ t) from rfl,
      wsChomp_space (by decide), hcs,
      show (('i' :: cs) ++ ['"']) ++ t = 'i' :: ((cs ++ ['"']) ++ t) from rfl,
      wsChomp_nonspace (by decide)]
  simp only [h1, h2]
  show litMatch (clsOf d ++ ['"']) ((clsOf d0 ++ ['"']) ++ t) = none
  rcases hlit : litMatch (clsOf d ++ ['"']) ((clsOf d0 ++ ['"']) ++ t) with _ | r
  · rfl
  · exfalso
    have heq := litMatch_eq_some.mp hlit
    have hpre : (clsOf d ++ ['"']) <+: (clsOf d0 ++ ['"']) ++ t := ⟨r, heq.symm⟩
    have hg1 : ((clsOf d0 ++ ['"']) ++ t).get? 3 = (clsOf d ++ ['"']).get? 3 :=
      get?_within hpre (by cases d <;> decide)
    have hg2 : ((clsOf d0 ++ ['"']) ++ t).get? 3 = (clsOf d0).get? 3 := by
      rw [List.get?_append (by cases d0 <;> decide),
        List.get?_append (by cases d0 <;> decide)]
    have hg3 : (clsOf d ++ ['"']).get? 3 = (clsOf d).get? 3 :=
      List.get?_append (by cases d <;> decide)
    rw [hg2, hg3] at hg1
    exact clsOf_get3_ne hne hg1.symm

theorem fullPat_no_eq_inside : ∀ d : Disp, ∀ j < (fullPat d).length, 1 ≤ j →
    j + 5 < (fullPat d).length → (fullPat d).get? (j + 5) ≠ some '=' := by
  intro d
  cases d <;> decide

theorem fullPat_no_c_tail : ∀ d : Disp, ∀ j < (fullPat d).length,
    (fullPat d).length ≤ j + 5 → (fullPat d).get? j ≠ some 'c' := by
  intro d
  cases d <;> decide

theorem no_site_inside {d : Disp} {s : List Char} (h : fullPat d <+: s) :
    ∀ j, 1 ≤ j → j < (fullPat d).length → ¬ pPat <+: s.drop j := by
  intro j h1 h2 hsite
  have hc0 : s.get? j = some 'c' := by
    have := get?_within hsite (show 0 < pPat.length by decide)
    rw [List.get?_drop] at this
    rw [show j + 0 = j from rfl] at this
    rw [this, pPat_get0]
  have hc5 : s.get? (j + 5) = some '=' := by
    have := get?_within hsite (show 5 < pPat.length by decide)
    rw [List.get?_drop] at this
    rw [this, pPat_get5]
  by_cases hin : j + 5 < (fullPat d).length
  · have := get?_within h hin
    rw [hc5] at this
    exact fullPat_no_eq_inside d j h2 h1 hin this.symm
  · push_neg at hin
    have := get?_within h h2
    rw [hc0] at this
    exact fullPat_no_c_tail d j h2 hin this.symm

theorem fullPat_len_ge : ∀ d : Disp, 13 ≤ (fullPat d).length := by
  intro d
  cases d <;> decide

theorem countAux_eq_proj :
    ∀ (n : Nat) (s : List Char), s.length ≤ n → ∀ (t : Counts), scanCounts s = some t →
      ∀ (d : Disp) (f : Nat), s.length ≤ f → ∀ (acc : Nat),
        countAux (clsOf d) f s acc = acc + projC t d := by
  intro n
  induction n with
  | zero =>
    intro s hs t ht d f hf acc
    have hnil : s = [] := List.length_eq_zero.mp (by omega)
    subst hnil
    have ht' : (some zeroC : Option Counts) = some t := ht
    have htz : t = zeroC := ((Option.some.injEq _ _).mp ht').symm
    subst htz
    rw [projC_zero]
    cases f <;> simp [countAux]
  | succ n ih =>
    intro s hs t ht d f hf acc
    cases s with
    | nil =>
      have ht' : (some zeroC : Option Counts) = some t := ht
      have htz : t = zeroC := ((Option.some.injEq _ _).mp ht').symm
      subst htz
      rw [projC_zero]
      cases f <;> simp [countAux]
    | cons c rest =>
      cases f with
      | zero => simp at hf
      | succ f' =>
        by_cases hsite : pPat.isPrefixOf (c :: rest)
        · have ht' : scanAux (c :: rest) zeroC = some t := ht
          rw [scanAux, if_pos hsite] at ht'
          rcases hcl : classifySite (c :: rest) with _ | d0
          · rw [hcl] at ht'
            exact absurd ht' (by simp)
          · rw [hcl] at ht'
            have ht2 : scanAux rest (unitC d0) = some t := by
              have : addC zeroC (unitC d0) = unitC d0 := addC_zero_left _
              rw [← this]
              exact ht'
            have hshift := scanAux_shift rest (unitC d0) zeroC
            rw [addC_zero_right] at hshift
            rw [hshift] at ht2
            rcases hrest : scanAux rest zeroC with _ | t1
            · rw [hrest] at ht2
              exact absurd ht2 (by simp)
            · rw [hrest] at ht2
              have htt : t = addC (unitC d0) t1 :=
                ((Option.some.injEq _ _).mp ht2).symm
              have hfull := classifySite_sound hcl
              have hlen13 := fullPat_len_ge d0
              have hlenpre := hfull.length_le
              by_cases hd : d = d0
              · subst hd
                have hmfull := matchClassAt_fullPat hfull
                rw [countAux]
                simp only [hmfull]
                have hskip : scanAux ((c :: rest).drop (fullPat d).length) zeroC =
                    some t1 := by
                  have hs1 : scanAux rest zeroC =
                      scanAux (rest.drop ((fullPat d).length - 1)) zeroC := by
                    apply scanAux_skip
                    intro j hj hpre
                    exact no_site_inside hfull (j + 1) (by omega) (by omega)
                      (by
                        rw [show (c :: rest).drop (j + 1) = rest.drop j from rfl]
                        exact hpre)
                  have hdrop : (c :: rest).drop (fullPat d).length =
                      rest.drop ((fullPat d).length - 1) := by
                    rcases hm : (fullPat d).length with _ | m
                    · omega
                    · rfl
                  rw [hdrop, ← hs1]
                  exact hrest
                have hlendrop : ((c :: rest).drop (fullPat d).length).length ≤ n := by
                  rw [List.length_drop, List.length_cons]
                  have hnn : rest.length + 1 ≤ n + 1 := by simpa using hs
                  omega
                have hflen : ((c :: rest).drop (fullPat d).length).length ≤ f' := by
                  rw [List.length_drop, List.length_cons]
                  have hnn : rest.length + 1 ≤ f' + 1 := by simpa using hf
                  omega
                rw [ih ((c :: rest).drop (fullPat d).length) hlendrop t1 hskip d f'
                  hflen (acc + 1)]
                rw [htt, projC_addC, projC_unitC_same]
                omega
              · have hmnone := matchClassAt_other hd hfull
                rw [countAux]
                simp only [hmnone]
                have hlenrest : rest.length ≤ n := by simp at hs; omega
                have hfrest : rest.length ≤ f' := by simp at hf; omega
                rw [ih rest hlenrest t1 hrest d f' hfrest acc]
                rw [htt, projC_addC, projC_unitC_other hd, Nat.zero_add]
        · have hnosite : ¬ pPat <+: (c :: rest) := by
            intro hc
            exact hsite (List.isPrefixOf_iff_prefix.mpr hc)
          rw [countAux]
          simp only [matchClassAt_no_site hnosite]
          have ht' : scanAux (c :: rest) zeroC = some t := ht
          rw [scanAux, if_neg hsite] at ht'
          have hlenrest : rest.length ≤ n := by simp at hs; omega
          have hfrest : rest.length ≤ f' := by simp at hf; omega
          exact ih rest hlenrest t ht' d f' hfrest acc

/-- The findall counts of a string whose scan succeeds are exactly the
scanner's counts. -/
theorem reCount_of_scanCounts {s : String} {t : Counts}
    (h : scanCounts s.data = some t) (d : Disp) : reCount d s = projC t d := by
  unfold reCount
  rw [countAux_eq_proj s.data.length s.data le_rfl t h d s.data.length le_rfl 0,
    Nat.zero_add]


/-! ## String data decomposition lemmas -/

theorem data_foldl_append : ∀ (ss : List String) (init : String),
    (ss.foldl (· ++ ·) init).data = init.data ++ (ss.map String.data).flatten := by
  intro ss
  induction ss with
  | nil => intro init; simp
  | cons s rest ih =>
    intro init
    rw [List.foldl_cons, ih, List.map_cons, List.flatten_cons, String.data_append]
    rw [List.append_assoc]

theorem data_join (ss : List String) :
    (String.join ss).data = (ss.map String.data).flatten := by
  have := data_foldl_append ss ""
  simpa [String.join] using this

theorem singleton_data (c : Char) : (String.singleton c).data = [c] := rfl

theorem nqiOK_singleton {c : Char} (h : ¬ c = '"') : nqiOK [c] := by
  constructor
  · intro i hi hqi
    have hz : i = 0 := by simpa using hi
    subst hz
    exact h (by simpa using hqi.1)
  · intro hc
    exact h (by simpa using hc)

theorem nqiOK_hlChar (dps : List Nat) (p : Nat × Char) (h : ¬ p.2 = '"') :
    nqiOK (hlChar dps p).data := by
  unfold hlChar
  by_cases hd : dps.contains p.1
  · rw [if_pos hd]
    rw [String.data_append, String.data_append]
    exact nqiOK_append
      (nqiOK_append (by decide) (by rw [singleton_data]; exact nqiOK_singleton h))
      (by decide)
  · rw [if_neg hd, singleton_data]
    exact nqiOK_singleton h

theorem nqiOK_flatten : ∀ (ls : List (List Char)),
    (∀ l ∈ ls, nqiOK l) → nqiOK ls.flatten := by
  intro ls
  induction ls with
  | nil =>
    intro _
    exact ⟨fun i hi => by simp at hi, by simp⟩
  | cons l rest ih =>
    intro h
    rw [List.flatten_cons]
    exact nqiOK_append (h l (by simp)) (ih (fun x hx => h x (by simp [hx])))

theorem qFree_not_mem {s : List Char} (h : qFree s = true) : ('"' : Char) ∉ s := by
  unfold qFree at h
  simpa using h

theorem nqiOK_highlight (text : String) (dps : List Nat)
    (h : qFree text.data = true) : nqiOK (highlightDiff text dps).data := by
  unfold highlightDiff
  by_cases hd : dps = []
  · rw [if_pos hd]
    exact nqiOK_of_qFree h
  · rw [if_neg hd, data_join, List.map_map]
    apply nqiOK_flatten
    intro l hl
    rcases List.mem_map.mp hl with ⟨p, hp, hpl⟩
    have hmem : p.2 ∈ text.data := by
      have := List.mem_map_of_mem Prod.snd hp
      rwa [List.enum_map_snd] at this
    have hpc : ¬ p.2 = '"' := by
      intro hc
      rw [hc] at hmem
      exact qFree_not_mem h hmem
    rw [← hpl]
    exact nqiOK_hlChar dps p hpc

/-! ## Escaped panes are quote-free -/

theorem qFree_append {a b : List Char} (ha : qFree a = true) (hb : qFree b = true) :
    qFree (a ++ b) = true := by
  unfold qFree at *
  simp at *
  exact ⟨ha, hb⟩

theorem qFree_escChar (c : Char) : qFree (escChar c).data = true := by
  unfold escChar
  by_cases h1 : c = '&'
  · rw [if_pos h1]; decide
  · rw [if_neg h1]
    by_cases h2 : c = '<'
    · rw [if_pos h2]; decide
    · rw [if_neg h2]
      by_cases h3 : c = '>'
      · rw [if_pos h3]; decide
      · rw [if_neg h3]
        by_cases h4 : c = '\''
        · rw [if_pos h4]; decide
        · rw [if_neg h4]
          by_cases h5 : c = '"'
          · rw [if_pos h5]; decide
          · rw [if_neg h5, singleton_data]
            unfold qFree
            simp
            exact fun hc => h5 hc.symm

theorem qFree_flatten : ∀ (ls : List (List Char)),
    (∀ l ∈ ls, qFree l = true) → qFree ls.flatten = true := by
  intro ls
  induction ls with
  | nil => intro _; decide
  | cons l rest ih =>
    intro h
    rw [List.flatten_cons]
    exact qFree_append (h l (by simp)) (ih (fun x hx => h x (by simp [hx])))

theorem qFree_jinjaEscape (s : String) : qFree (jinjaEscape s).data = true := by
  unfold jinjaEscape
  rw [data_join, List.map_map]
  apply qFree_flatten
  intro l hl
  rcases List.mem_map.mp hl with ⟨c, _, hcl⟩
  rw [← hcl]
  exact qFree_escChar c

/-! ## Decimal strings are scan-neutral -/

theorem natStrAux_digits : ∀ (f n : Nat), ∀ c ∈ natStrAux f n,
    48 ≤ c.toNat ∧ c.toNat ≤ 57 := by
  intro f
  induction f with
  | zero => intro n c hc; simp [natStrAux] at hc
  | succ f ih =>
    intro n c hc
    have hdig : ∀ m < 10, 48 ≤ (Char.ofNat (48 + m)).toNat ∧
        (Char.ofNat (48 + m)).toNat ≤ 57 := by decide
    rw [natStrAux] at hc
    by_cases hn : n < 10
    · rw [if_pos hn] at hc
      have hce : c = Char.ofNat (48 + n) := by simpa using hc
      subst hce
      exact hdig n hn
    · rw [if_neg hn] at hc
      rcases List.mem_append.mp hc with hc1 | hc2
      · exact ih (n / 10) c hc1
      · have hce : c = Char.ofNat (48 + n % 10) := by simpa using hc2
        subst hce
        exact hdig (n % 10) (Nat.mod_lt _ (by omega))


/-! ## Scan characterization of the rendered fragments -/

/-- The fixed prefix of a simple item div (everything before the record
text). -/
def itemLit (cls icon : String) : String :=
  "<div class=\"item " ++ cls ++ "\" data-type=\"" ++ cls ++ "\">" ++
    "<i class=\"fas fa-" ++ icon ++ "\"></i>"

theorem renderSimpleItem_eq (r : DiffRecord) (cls icon : String) :
    renderSimpleItem r cls icon = itemLit cls icon ++ r.string ++ "</div>" := rfl

/-- The fixed prefix of a changed item div. -/
def chgLit1 : String :=
  "<div class=\"item is-changed\" data-type=\"is-changed\">" ++
    "<i class=\"fas fa-not-equal\"></i>"

/-- The arrow separator between the two highlighted sides. -/
def chgMid : String :=
  "<span class=\"arrow\"><i class=\"fas fa-arrow-right\"></i></span>"

theorem renderChangedItem_eq (r : DiffRecord) :
    renderChangedItem r =
      chgLit1 ++ highlightDiff r.string r.diff_positions ++ chgMid ++
        highlightDiff r.best_match r.diff_positions ++ "</div>" := rfl

/-- The regex contribution of one record's item div. -/
def recCnt (r : DiffRecord) : Counts :=
  if r.is_added then unitC .added
  else if !r.is_matched then unitC .removed
  else if r.similarity_score < 1 then unitC .changed
  else if r.is_parent then zeroC
  else unitC .identical

theorem headSafe_append_left {x z : List Char} (h : headSafe x = true) (hne : x ≠ []) :
    headSafe (x ++ z) = true := by
  unfold headSafe at *
  rcases x with _ | ⟨c, cs⟩
  · exact absurd rfl hne
  · exact h

theorem pass_simple {r : DiffRecord} {cls icon : String} {cnt : Counts}
    (hcnt : scanCounts (itemLit cls icon).data = some cnt)
    (hlast : lastSafe (itemLit cls icon).data = true)
    (hq : qFree r.string.data = true) :
    ScanPassS (renderSimpleItem r cls icon).data cnt := by
  have h1 : ScanPassS (itemLit cls icon).data cnt := S_of_lastSafe hcnt hlast
  have h2 : ScanPassW r.string.data zeroC := W_of_nqi (nqiOK_of_qFree hq)
  have h3 : ScanPassS "</div>".data zeroC := S_of_lastSafe (by decide) (by decide)
  have h23 : ScanPassS (r.string.data ++ "</div>".data) (addC zeroC zeroC) :=
    WS_append h2 h3 (by decide) (by decide)
  have h123 := S_append h1 h23
  rw [addC_zero_right, addC_zero_right] at h123
  have hdata : (renderSimpleItem r cls icon).data =
      (itemLit cls icon).data ++ (r.string.data ++ "</div>".data) := by
    rw [renderSimpleItem_eq, String.data_append, String.data_append, List.append_assoc]
  rw [hdata]
  exact h123

theorem pass_changed {r : DiffRecord}
    (hqs : qFree r.string.data = true) (hqb : qFree r.best_match.data = true) :
    ScanPassS (renderChangedItem r).data (unitC .changed) := by
  have hF : ScanPassS "</div>".data zeroC := S_of_lastSafe (by decide) (by decide)
  have hH2 : ScanPassW (highlightDiff r.best_match r.diff_positions).data zeroC :=
    W_of_nqi (nqiOK_highlight _ _ hqb)
  have hH2F : ScanPassS ((highlightDiff r.best_match r.diff_positions).data ++
      "</div>".data) (addC zeroC zeroC) := WS_append hH2 hF (by decide) (by decide)
  have hM : ScanPassS chgMid.data zeroC := S_of_lastSafe (by decide) (by decide)
  have hMrest := S_append hM hH2F
  have hH1 : ScanPassW (highlightDiff r.string r.diff_positions).data zeroC :=
    W_of_nqi (nqiOK_highlight _ _ hqs)
  have hne : chgMid.data ++ ((highlightDiff r.best_match r.diff_positions).data ++
      "</div>".data) ≠ [] := by
    intro hc
    have := congrArg List.length hc
    simp [chgMid] at this
  have hsafe : headSafe (chgMid.data ++
      ((highlightDiff r.best_match r.diff_positions).data ++ "</div>".data)) = true :=
    headSafe_append_left (by decide) (by decide)
  have hH1rest := WS_append hH1 hMrest hne hsafe
  have hL : ScanPassS chgLit1.data (unitC .changed) := S_of_lastSafe (by decide) (by decide)
  have hall := S_append hL hH1rest
  rw [addC_zero_right, addC_zero_right, addC_zero_left, addC_zero_right] at hall
  have hdata : (renderChangedItem r).data =
      chgLit1.data ++ ((highlightDiff r.string r.diff_positions).data ++
        (chgMid.data ++ ((highlightDiff r.best_match r.diff_positions).data ++
          "</div>".data))) := by
    rw [renderChangedItem_eq, String.data_append, String.data_append,
      String.data_append, String.data_append, List.append_assoc, List.append_assoc,
      List.append_assoc]
  rw [hdata]
  exact hall

theorem renderItem_pass (r : DiffRecord) (hqs : qFree r.string.data = true)
    (hqb : qFree r.best_match.data = true) :
    ScanPassS (renderItem r).data (recCnt r) := by
  unfold renderItem recCnt
  by_cases ha : r.is_added
  · rw [if_pos ha, if_pos ha]
    exact pass_simple (by decide) (by decide) hqs
  · rw [if_neg ha, if_neg ha]
    by_cases hm : !r.is_matched
    · rw [if_pos hm, if_pos hm]
      exact pass_simple (by decide) (by decide) hqs
    · rw [if_neg hm, if_neg hm]
      by_cases hsc : r.similarity_score < 1
      · rw [if_pos hsc, if_pos hsc]
        exact pass_changed hqs hqb
      · rw [if_neg hsc, if_neg hsc]
        by_cases hp : r.is_parent
        · rw [if_pos hp, if_pos hp]
          exact S_nil
        · rw [if_neg hp, if_neg hp]
          exact pass_simple (by decide) (by decide) hqs


/-! ## Scan characterization of the section cards -/

theorem digit_char_facts (c : Char) (h1 : 48 ≤ c.toNat) (h2 : c.toNat ≤ 57) :
    (¬ c = '"') ∧ pPat.contains c = false ∧ (pPat.drop 1).contains c = false := by
  have hp : ∀ x ∈ pPat, x.toNat < 48 ∨ 57 < x.toNat := by decide
  refine ⟨?_, ?_, ?_⟩
  · intro hc
    subst hc
    exact absurd h1 (by decide)
  · rcases hb : pPat.contains c with _ | _
    · rfl
    · have hmem : c ∈ pPat := by simpa using hb
      rcases hp c hmem with h | h <;> omega
  · rcases hb : (pPat.drop 1).contains c with _ | _
    · rfl
    · have hmem : c ∈ pPat.drop 1 := by simpa using hb
      have hmem2 : c ∈ pPat := List.mem_of_mem_drop hmem
      rcases hp c hmem2 with h | h <;> omega

theorem natStrAux_ne_nil (f n : Nat) (hf : 0 < f) : natStrAux f n ≠ [] := by
  cases f with
  | zero => omega
  | succ f =>
    rw [natStrAux]
    by_cases hn : n < 10
    · rw [if_pos hn]
      simp
    · rw [if_neg hn]
      simp

theorem natStr_ne_nil (n : Nat) : (natStr n).data ≠ [] :=
  natStrAux_ne_nil (n + 1) n (by omega)

theorem natStr_qFree (n : Nat) : qFree (natStr n).data = true := by
  unfold qFree
  rcases hb : (natStr n).data.contains '"' with _ | _
  · rfl
  · have hmem : ('"' : Char) ∈ (natStr n).data := by simpa using hb
    have := natStrAux_digits (n + 1) n '"' hmem
    exact absurd this.1 (by decide)

theorem natStr_scan (n : Nat) : scanCounts (natStr n).data = some zeroC := by
  unfold scanCounts
  rw [scanAux_qFree (natStr_qFree n) zeroC]

theorem natStr_lastSafe (n : Nat) : lastSafe (natStr n).data = true := by
  unfold lastSafe
  rcases hl : (natStr n).data.getLast? with _ | c
  · rfl
  · have hmem : c ∈ (natStr n).data := List.mem_of_getLast?_eq_some hl
    have hd := natStrAux_digits (n + 1) n c hmem
    show (!pPat.contains c) = true
    rw [(digit_char_facts c hd.1 hd.2).2.1]
    rfl

theorem natStr_headSafe (n : Nat) : headSafe (natStr n).data = true := by
  unfold headSafe
  rcases hl : (natStr n).data.head? with _ | c
  · rfl
  · have hmem : c ∈ (natStr n).data := by
      rcases hd : (natStr n).data with _ | ⟨x, xs⟩
      · rw [hd] at hl
        cases hl
      · rw [hd] at hl
        have : c = x := by
          rw [show (x :: xs).head? = some x from rfl] at hl
          exact ((Option.some.injEq _ _).mp hl).symm
        rw [this]
        simp
    have hd := natStrAux_digits (n + 1) n c hmem
    show (!(pPat.drop 1).contains c) = true
    rw [(digit_char_facts c hd.1 hd.2).2.2]
    rfl

theorem natStr_pass (n : Nat) : ScanPassS (natStr n).data zeroC :=
  S_of_lastSafe (natStr_scan n) (natStr_lastSafe n)

theorem stateOfNode_cases (out : List DiffRecord) (es : List (String × PyNode)) :
    stateOfNode out es = none ∨ stateOfNode out es = some "removed" ∨
      stateOfNode out es = some "added" := by
  unfold stateOfNode
  split
  · split
    · rename_i sc hsc
      by_cases h1 : sc = -1
      · rw [if_pos h1]
        exact Or.inr (Or.inl rfl)
      · rw [if_neg h1]
        by_cases h2 : sc = -2
        · rw [if_pos h2]
          exact Or.inr (Or.inr rfl)
        · rw [if_neg h2]
          exact Or.inl rfl
    · exact Or.inl rfl
  · exact Or.inl rfl

theorem cardCls_facts (state : Option String)
    (hshape : state = none ∨ state = some "removed" ∨ state = some "added") :
    scanCounts (cardCls state).data = some zeroC ∧
    lastSafe (cardCls state).data = true ∧
    headSafe (cardCls state).data = true ∧ (cardCls state).data ≠ [] := by
  rcases hshape with h | h | h <;> subst h <;>
    exact ⟨by decide, by decide, by decide, by decide⟩

theorem cardString_pass {state : Option String}
    (hshape : state = none ∨ state = some "removed" ∨ state = some "added")
    (depth : Nat) {title body : String} {cntB : Counts}
    (hqt : qFree title.data = true) (hbody : ScanPassS body.data cntB) :
    ScanPassS (cardString state depth title body).data cntB := by
  rcases cardCls_facts state hshape with ⟨hc_scan, hc_last, hc_head, hc_ne⟩
  have h11 : ScanPassS cc6.data zeroC := S_of_lastSafe (by decide) (by decide)
  have h10 := S_append hbody h11
  have h9 : ScanPassS cc5.data zeroC := S_of_lastSafe (by decide) (by decide)
  have h9' := S_append h9 h10
  have hT : ScanPassW title.data zeroC := W_of_nqi (nqiOK_of_qFree hqt)
  have hTne : cc5.data ++ (body.data ++ cc6.data) ≠ [] := by
    intro hc
    have := congrArg List.length hc
    simp [cc5] at this
  have hTsafe : headSafe (cc5.data ++ (body.data ++ cc6.data)) = true :=
    headSafe_append_left (by decide) (by decide)
  have hT' := WS_append hT h9' hTne hTsafe
  have h7 : ScanPassS cc4.data zeroC := S_of_lastSafe (by decide) (by decide)
  have h7' := S_append h7 hT'
  have h6 := S_append (natStr_pass depth) h7'
  have h5 : ScanPassS cc3.data zeroC := S_of_lastSafe (by decide) (by decide)
  have h5' := S_append h5 h6
  have h4 : ScanPassW cc2.data zeroC := W_of_scan (by decide)
  have h4ne : (natStr depth).data ++ (cc3.data ++ ((natStr depth).data ++
      (cc4.data ++ (title.data ++ (cc5.data ++ (body.data ++ cc6.data)))))) ≠ [] := by
    intro hc
    rcases List.append_eq_nil.mp hc with ⟨hz, _⟩
    exact natStr_ne_nil depth hz
  have h4safe : headSafe ((natStr depth).data ++ (cc3.data ++ ((natStr depth).data ++
      (cc4.data ++ (title.data ++ (cc5.data ++ (body.data ++ cc6.data))))))) = true :=
    headSafe_append_left (natStr_headSafe depth) (natStr_ne_nil depth)
  have h4' := WS_append h4 (S_append (natStr_pass depth) h5') h4ne h4safe
  have h2 : ScanPassS (cardCls state).data zeroC := S_of_lastSafe hc_scan hc_last
  have h2' := S_append h2 h4'
  have h1 : ScanPassW cc1.data zeroC := W_of_scan (by decide)
  have h1ne : (cardCls state).data ++ (cc2.data ++ ((natStr depth).data ++
      (cc3.data ++ ((natStr depth).data ++ (cc4.data ++ (title.data ++
        (cc5.data ++ (body.data ++ cc6.data)))))))) ≠ [] := by
    intro hc
    rcases List.append_eq_nil.mp hc with ⟨hz, _⟩
    exact hc_ne hz
  have h1safe : headSafe ((cardCls state).data ++ (cc2.data ++ ((natStr depth).data ++
      (cc3.data ++ ((natStr depth).data ++ (cc4.data ++ (title.data ++
        (cc5.data ++ (body.data ++ cc6.data))))))))) = true :=
    headSafe_append_left hc_head hc_ne
  have hall := WS_append h1 h2' h1ne h1safe
  have hdata : (cardString state depth title body).data =
      cc1.data ++ ((cardCls state).data ++ (cc2.data ++ ((natStr depth).data ++
        (cc3.data ++ ((natStr depth).data ++ (cc4.data ++ (title.data ++
          (cc5.data ++ (body.data ++ cc6.data))))))))) := by
    unfold cardString
    rw [String.data_append, String.data_append, String.data_append,
      String.data_append, String.data_append, String.data_append,
      String.data_append, String.data_append, String.data_append,
      String.data_append]
    rw [List.append_assoc, List.append_assoc, List.append_assoc, List.append_assoc,
      List.append_assoc, List.append_assoc, List.append_assoc, List.append_assoc,
      List.append_assoc]
  rw [hdata]
  simpa only [addC_zero_left, addC_zero_right] using hall


/-! ## Aggregate regex counts and quote-freeness of tree values -/

/-- Total regex contribution of a record list rendered as item divs. -/
def cntRecs : List DiffRecord → Counts
  | [] => zeroC
  | r :: rs => addC (recCnt r) (cntRecs rs)

mutual

/-- Total regex contribution of a tree value once rendered. -/
def cntNode : PyNode → Counts
  | .recs its => cntRecs its
  | .dict es => cntEnts es

/-- Total regex contribution of a dict's entries once rendered. -/
def cntEnts : List (String × PyNode) → Counts
  | [] => zeroC
  | (_, v) :: rest => addC (cntNode v) (cntEnts rest)

end

/-- Both texts of a record are free of the `"` character. -/
def qfRec (r : DiffRecord) : Bool := qFree r.string.data && qFree r.best_match.data

mutual

/-- Every string reachable in a tree value is quote-free. -/
def qfNode : PyNode → Bool
  | .recs its => its.all qfRec
  | .dict es => qfEnts es

/-- Every key and every reachable string of the entries is quote-free. -/
def qfEnts : List (String × PyNode) → Bool
  | [] => true
  | (k, v) :: rest => qFree k.data && qfNode v && qfEnts rest

end

/-- What one record adds to the page counts: nothing when the tree builder
excludes it, else its item-div contribution. -/
def insCnt (r : DiffRecord) : Counts :=
  if excludedFromTree r then zeroC else recCnt r

/-- Total page counts contributed by a record list fed to the builder. -/
def outCnt : List DiffRecord → Counts
  | [] => zeroC
  | r :: rs => addC (insCnt r) (outCnt rs)

theorem addC_left_comm (a b c : Counts) : addC a (addC b c) = addC b (addC a c) := by
  rcases a with ⟨a1, a2, a3, a4⟩
  rcases b with ⟨b1, b2, b3, b4⟩
  rcases c with ⟨c1, c2, c3, c4⟩
  simp [addC]
  omega

theorem addC_cancel_right {a b c : Counts} (h : addC a c = addC b c) : a = b := by
  rcases a with ⟨a1, a2, a3, a4⟩
  rcases b with ⟨b1, b2, b3, b4⟩
  rcases c with ⟨c1, c2, c3, c4⟩
  simp [addC] at h
  simp
  omega

theorem addC_rot (a b c : Counts) : addC (addC a b) c = addC (addC c b) a := by
  rcases a with ⟨a1, a2, a3, a4⟩
  rcases b with ⟨b1, b2, b3, b4⟩
  rcases c with ⟨c1, c2, c3, c4⟩
  simp [addC]
  omega

theorem cntRecs_append (a b : List DiffRecord) :
    cntRecs (a ++ b) = addC (cntRecs a) (cntRecs b) := by
  induction a with
  | nil => rw [List.nil_append, cntRecs, addC_zero_left]
  | cons r rs ih => rw [List.cons_append, cntRecs, cntRecs, ih, addC_assoc]

theorem cntEnts_append (a b : List (String × PyNode)) :
    cntEnts (a ++ b) = addC (cntEnts a) (cntEnts b) := by
  induction a with
  | nil => rw [List.nil_append, cntEnts, addC_zero_left]
  | cons e rest ih =>
    rcases e with ⟨k, v⟩
    rw [List.cons_append, cntEnts, cntEnts, ih, addC_assoc]

theorem qfEnts_append (a b : List (String × PyNode)) :
    qfEnts (a ++ b) = (qfEnts a && qfEnts b) := by
  induction a with
  | nil => rw [List.nil_append, qfEnts, Bool.true_and]
  | cons e rest ih =>
    rcases e with ⟨k, v⟩
    rw [List.cons_append, qfEnts, qfEnts, ih]
    simp [Bool.and_assoc]

theorem cntEnts_setEntry {es : List (String × PyNode)} {key : String} {old : PyNode}
    (nv : PyNode) (h : lookupVal es key = some old) :
    addC (cntEnts (setEntry es key nv)) (cntNode old) =
      addC (cntEnts es) (cntNode nv) := by
  induction es with
  | nil => cases h
  | cons e rest ih =>
    rcases e with ⟨k, v⟩
    by_cases hk : k = key
    · rw [lookupVal, if_pos hk] at h
      have hv : v = old := Option.some.inj h
      subst hv
      rw [setEntry, if_pos hk, cntEnts, cntEnts]
      exact addC_rot (cntNode nv) (cntEnts rest) (cntNode v)
    · rw [lookupVal, if_neg hk] at h
      rw [setEntry, if_neg hk, cntEnts, cntEnts, addC_assoc, addC_assoc, ih h]

theorem qfEnts_setEntry {es : List (String × PyNode)} {key : String} {nv : PyNode}
    (hq : qfEnts es = true) (hnv : qfNode nv = true) :
    qfEnts (setEntry es key nv) = true := by
  induction es with
  | nil => rfl
  | cons e rest ih =>
    rcases e with ⟨k, v⟩
    rw [qfEnts, Bool.and_assoc, Bool.and_eq_true, Bool.and_eq_true] at hq
    by_cases hk : k = key
    · rw [setEntry, if_pos hk, qfEnts, Bool.and_assoc, hq.1, hnv, hq.2.2]
      rfl
    · rw [setEntry, if_neg hk, qfEnts, Bool.and_assoc, hq.1, hq.2.1, ih hq.2.2]
      rfl

theorem insertItem_cnt {r : DiffRecord} :
    ∀ (parts : List String) (t t' : PyNode),
      insertItem r t parts = Except.ok t' →
      cntNode t' = addC (cntNode t) (insCnt r) := by
  intro parts
  induction parts with
  | nil =>
    intro t t' hok
    rcases t with es | its
    · by_cases hx : excludedFromTree r
      · rw [insertItem, if_pos hx] at hok
        have ht : PyNode.dict es = t' := Except.ok.inj hok
        rw [← ht, insCnt, if_pos hx, addC_zero_right]
      · rw [insertItem, if_neg hx] at hok
        rcases hl : lookupVal es "root_items" with _ | v
        · rw [hl] at hok
          have ht : PyNode.dict (es ++ [("root_items", PyNode.recs [r])]) = t' :=
            Except.ok.inj hok
          rw [← ht, cntNode, cntEnts_append, cntEnts, cntEnts, cntNode, cntRecs,
            cntRecs, addC_zero_right, addC_zero_right, cntNode, insCnt, if_neg hx]
        · rcases v with es2 | its
          · rw [hl] at hok
            cases hok
          · rw [hl] at hok
            have ht : PyNode.dict
                (setEntry es "root_items" (PyNode.recs (its ++ [r]))) = t' :=
              Except.ok.inj hok
            have hstep := cntEnts_setEntry (PyNode.recs (its ++ [r])) hl
            rw [show cntNode (PyNode.recs (its ++ [r])) =
                addC (cntNode (PyNode.recs its)) (recCnt r) from by
              rw [cntNode, cntNode, cntRecs_append, cntRecs, cntRecs,
                addC_zero_right]] at hstep
            rw [← addC_assoc, addC_comm (cntEnts es) (cntNode (PyNode.recs its)),
              addC_assoc, addC_comm (cntNode (PyNode.recs its))] at hstep
            have hcan := addC_cancel_right hstep
            rw [← ht, cntNode, hcan, cntNode, insCnt, if_neg hx]
    · by_cases hx : excludedFromTree r
      · rw [insertItem, if_pos hx] at hok
        have ht : PyNode.recs its = t' := Except.ok.inj hok
        rw [← ht, insCnt, if_pos hx, addC_zero_right]
      · rw [insertItem, if_neg hx] at hok
        cases hok
  | cons p ps ih =>
    intro t t' hok
    rcases t with es | its
    · rcases hl : lookupVal es p with _ | v
      · rcases hc : insertItem r (PyNode.dict []) ps with e | child
        · simp only [insertItem, hl, hc] at hok
          cases hok
        · simp only [insertItem, hl, hc] at hok
          cases hok
          have hch := ih (PyNode.dict []) child hc
          simp only [cntNode]
          rw [cntEnts_append]
          simp only [cntEnts]
          rw [addC_zero_right, hch]
          simp only [cntNode, cntEnts]
          rw [addC_zero_left]
      · rcases hc : insertItem r v ps with e | child
        · simp only [insertItem, hl, hc] at hok
          cases hok
        · simp only [insertItem, hl, hc] at hok
          cases hok
          have hch := ih v child hc
          have hstep := cntEnts_setEntry child hl
          rw [hch, addC_left_comm (cntEnts es) (cntNode v) (insCnt r),
            addC_comm (cntNode v)] at hstep
          have hcan := addC_cancel_right hstep
          simp only [cntNode]
          exact hcan
    · cases hok

theorem insertItem_qf {r : DiffRecord} (hr : qfRec r = true) :
    ∀ (parts : List String) (t t' : PyNode),
      (∀ p ∈ parts, qFree p.data = true) → qfNode t = true →
      insertItem r t parts = Except.ok t' → qfNode t' = true := by
  intro parts
  induction parts with
  | nil =>
    intro t t' hp ht hok
    rcases t with es | its
    · by_cases hx : excludedFromTree r
      · rw [insertItem, if_pos hx] at hok
        rw [← Except.ok.inj hok]
        exact ht
      · rw [insertItem, if_neg hx] at hok
        rw [qfNode] at ht
        rcases hl : lookupVal es "root_items" with _ | v
        · rw [hl] at hok
          rw [← Except.ok.inj hok, qfNode, qfEnts_append, ht, qfEnts, qfEnts,
            qfNode]
          simp only [List.all_cons, List.all_nil, hr]
          decide
        · rcases v with es2 | its
          · rw [hl] at hok
            cases hok
          · rw [hl] at hok
            rw [← Except.ok.inj hok, qfNode]
            refine qfEnts_setEntry ht ?_
            rw [qfNode, List.all_append]
            have hits : its.all qfRec = true := by
              clear hok
              induction es with
              | nil => cases hl
              | cons e rest ihe =>
                rcases e with ⟨k, v⟩
                rw [qfEnts, Bool.and_assoc, Bool.and_eq_true, Bool.and_eq_true] at ht
                by_cases hk : k = "root_items"
                · rw [lookupVal, if_pos hk] at hl
                  have hv : v = PyNode.recs its := Option.some.inj hl
                  rw [hv, qfNode] at ht
                  exact ht.2.1
                · rw [lookupVal, if_neg hk] at hl
                  exact ihe ht.2.2 hl
            rw [hits]
            simp [hr]
    · by_cases hx : excludedFromTree r
      · rw [insertItem, if_pos hx] at hok
        rw [← Except.ok.inj hok]
        exact ht
      · rw [insertItem, if_neg hx] at hok
        cases hok
  | cons p ps ih =>
    intro t t' hp ht hok
    have hphead : qFree p.data = true := hp p (by simp)
    have hptail : ∀ q ∈ ps, qFree q.data = true := fun q hq => hp q (by simp [hq])
    rcases t with es | its
    · rw [qfNode] at ht
      rcases hl : lookupVal es p with _ | v
      · rcases hc : insertItem r (PyNode.dict []) ps with e | child
        · simp only [insertItem, hl, hc] at hok
          cases hok
        · simp only [insertItem, hl, hc] at hok
          cases hok
          have hch := ih (PyNode.dict []) child hptail (by rfl) hc
          rw [qfNode, qfEnts_append, ht, qfEnts, qfEnts, hphead, hch]
          rfl
      · rcases hc : insertItem r v ps with e | child
        · simp only [insertItem, hl, hc] at hok
          cases hok
        · simp only [insertItem, hl, hc] at hok
          cases hok
          have hv : qfNode v = true := by
            clear hc
            induction es with
            | nil => cases hl
            | cons e rest ihe =>
              rcases e with ⟨k, w⟩
              rw [qfEnts, Bool.and_assoc, Bool.and_eq_true, Bool.and_eq_true] at ht
              by_cases hk : k = p
              · rw [lookupVal, if_pos hk] at hl
                rw [← Option.some.inj hl]
                exact ht.2.1
              · rw [lookupVal, if_neg hk] at hl
                exact ihe ht.2.2 hl
          have hch := ih v child hptail hv hc
          rw [qfNode]
          exact qfEnts_setEntry ht hch
    · cases hok

theorem buildTreeAux_cnt :
    ∀ (rs : List DiffRecord) (t t' : PyNode),
      buildTreeAux t rs = Except.ok t' →
      cntNode t' = addC (cntNode t) (outCnt rs) := by
  intro rs
  induction rs with
  | nil =>
    intro t t' hok
    rw [← Except.ok.inj hok, outCnt, addC_zero_right]
  | cons r rest ih =>
    intro t t' hok
    rcases hi : insertItem r t (pathParts r.path) with e | t1
    · simp only [buildTreeAux, hi] at hok
      cases hok
    · simp only [buildTreeAux, hi] at hok
      have h1 := insertItem_cnt (pathParts r.path) t t1 hi
      have h2 := ih t1 t' hok
      rw [h2, h1, outCnt, addC_assoc]

theorem buildTreeAux_qf :
    ∀ (rs : List DiffRecord) (t t' : PyNode),
      (∀ r ∈ rs, qfRec r = true ∧ ∀ p ∈ pathParts r.path, qFree p.data = true) →
      qfNode t = true → buildTreeAux t rs = Except.ok t' → qfNode t' = true := by
  intro rs
  induction rs with
  | nil =>
    intro t t' _ ht hok
    rw [← Except.ok.inj hok]
    exact ht
  | cons r rest ih =>
    intro t t' hrs ht hok
    rcases hi : insertItem r t (pathParts r.path) with e | t1
    · simp only [buildTreeAux, hi] at hok
      cases hok
    · simp only [buildTreeAux, hi] at hok
      have hhead := hrs r (by simp)
      have h1 := insertItem_qf hhead.1 (pathParts r.path) t t1 hhead.2 ht hi
      exact ih t1 t' (fun q hq => hrs q (by simp [hq])) h1 hok


/-! ## The section renderer scans cleanly with the tree's counts -/

mutual

/-- Structural size of a tree value, for the render induction. -/
def nodeSize : PyNode → Nat
  | .recs _ => 0
  | .dict es => entsSize es + 1

/-- Structural size of a dict's entries. -/
def entsSize : List (String × PyNode) → Nat
  | [] => 0
  | (_, v) :: rest => nodeSize v + entsSize rest + 1

end

theorem S_empty_cnt {c : Counts} (h : ScanPassS [] c) : c = zeroC := by
  have h0 := h [] zeroC
  rw [List.nil_append] at h0
  have h1 : some zeroC = some (addC zeroC c) := h0
  rw [addC_zero_left] at h1
  exact (Option.some.inj h1).symm

theorem join_data_append (xs ys : List String) :
    (String.join (xs ++ ys)).data = (String.join xs).data ++ (String.join ys).data := by
  rw [data_join, data_join, data_join, List.map_append, List.flatten_append]

theorem items_pass : ∀ (its : List DiffRecord), its.all qfRec = true →
    ScanPassS (String.join (its.map renderItem)).data (cntRecs its) := by
  intro its
  induction its with
  | nil =>
    intro h
    exact S_nil
  | cons r rs ih =>
    intro h
    rw [List.all_cons, Bool.and_eq_true] at h
    have hq : qFree r.string.data = true ∧ qFree r.best_match.data = true := by
      have := h.1
      rw [qfRec, Bool.and_eq_true] at this
      exact this
    have hr := renderItem_pass r hq.1 hq.2
    have hrest := ih h.2
    have hdata : (String.join ((r :: rs).map renderItem)).data =
        (renderItem r).data ++ (String.join (rs.map renderItem)).data := by
      rw [List.map_cons, data_join, List.map_cons, List.flatten_cons, ← data_join]
    rw [hdata]
    exact S_append hr hrest

theorem render_pass_main :
    ∀ (n : Nat),
      (∀ (out : List DiffRecord) (title : String) (depth : Nat) (v : PyNode)
          (s : String), nodeSize v ≤ n → qFree title.data = true →
          qfNode v = true → renderVal out title depth v = Except.ok s →
          ScanPassS s.data (cntNode v)) ∧
      (∀ (out : List DiffRecord) (es : List (String × PyNode)) (depth : Nat)
          (parts : List String), entsSize es ≤ n → qfEnts es = true →
          renderBody out es depth = Except.ok parts →
          ScanPassS (String.join parts).data (cntEnts es) ∧
            (parts = [] → cntEnts es = zeroC)) := by
  intro n
  induction n with
  | zero =>
    constructor
    · intro out title depth v s hn hqt hqv hok
      rcases v with es | its
      · rw [nodeSize] at hn
        omega
      · simp only [renderVal] at hok
        cases hok
    · intro out es depth parts hn hqe hok
      rcases es with _ | ⟨⟨k, v⟩, rest⟩
      · simp only [renderBody] at hok
        cases hok
        exact ⟨S_nil, fun _ => rfl⟩
      · rw [entsSize] at hn
        omega
  | succ n ih =>
    constructor
    · intro out title depth v s hn hqt hqv hok
      rcases v with es | its
      · have hes : entsSize es ≤ n := by
          rw [nodeSize] at hn
          omega
        rcases hb : renderBody out es depth with e | parts0
        · simp only [renderVal, hb] at hok
          cases hok
        · simp only [renderVal, hb] at hok
          rw [qfNode] at hqv
          have hrec := ih.2 out es depth parts0 hes hqv hb
          by_cases hpe : parts0.isEmpty
          · rw [if_pos hpe] at hok
            cases hok
            have hz : cntEnts es = zeroC := hrec.2 (List.isEmpty_iff.mp hpe)
            rw [cntNode, hz]
            exact S_nil
          · rw [if_neg hpe] at hok
            cases hok
            rw [cntNode]
            exact cardString_pass (stateOfNode_cases out es) depth hqt hrec.1
      · simp only [renderVal] at hok
        cases hok
    · intro out es depth parts hn hqe hok
      rcases es with _ | ⟨⟨k, v⟩, rest⟩
      · simp only [renderBody] at hok
        cases hok
        exact ⟨S_nil, fun _ => rfl⟩
      · have hsz : nodeSize v ≤ n ∧ entsSize rest ≤ n := by
          rw [entsSize] at hn
          omega
        rw [qfEnts, Bool.and_assoc, Bool.and_eq_true, Bool.and_eq_true] at hqe
        by_cases hk : k = "root_items"
        · rcases v with es2 | its
          · rcases es2 with _ | ⟨e2, rest2⟩
            · rcases hrb : renderBody out rest depth with e | more
              · simp only [renderBody, if_pos hk, renderItemsVal, hrb] at hok
                cases hok
              · simp only [renderBody, if_pos hk, renderItemsVal, hrb] at hok
                cases hok
                have hrest := ih.2 out rest depth more hsz.2 hqe.2.2 hrb
                refine ⟨?_, ?_⟩
                · rw [List.nil_append, cntEnts, cntNode, cntEnts, addC_zero_left]
                  exact hrest.1
                · intro hnil
                  rw [List.nil_append] at hnil
                  rw [cntEnts, cntNode, cntEnts, addC_zero_left]
                  exact hrest.2 hnil
            · simp only [renderBody, if_pos hk, renderItemsVal] at hok
              cases hok
          · rcases hrb : renderBody out rest depth with e | more
            · simp only [renderBody, if_pos hk, renderItemsVal, hrb] at hok
              cases hok
            · simp only [renderBody, if_pos hk, renderItemsVal, hrb] at hok
              cases hok
              have hrest := ih.2 out rest depth more hsz.2 hqe.2.2 hrb
              have hqits : its.all qfRec = true := by
                have := hqe.2.1
                rw [qfNode] at this
                exact this
              have hits := items_pass its hqits
              refine ⟨?_, ?_⟩
              · rw [join_data_append, cntEnts, cntNode]
                exact S_append hits hrest.1
              · intro hnil
                rcases List.append_eq_nil.mp hnil with ⟨h1, h2⟩
                have hitsnil : its = [] := List.map_eq_nil.mp h1
                subst hitsnil
                rw [cntEnts, cntNode, cntRecs, addC_zero_left]
                exact hrest.2 h2
        · rcases hrv : renderVal out k (depth + 1) v with e | s0
          · simp only [renderBody, if_neg hk, hrv] at hok
            cases hok
          · rcases hrb : renderBody out rest depth with e | more
            · simp only [renderBody, if_neg hk, hrv, hrb] at hok
              cases hok
            · simp only [renderBody, if_neg hk, hrv, hrb] at hok
              cases hok
              have hrest := ih.2 out rest depth more hsz.2 hqe.2.2 hrb
              have hs0 := ih.1 out k (depth + 1) v s0 hsz.1 hqe.1 hqe.2.1 hrv
              refine ⟨?_, ?_⟩
              · rw [join_data_append, cntEnts]
                have hone : (String.join [s0]).data = s0.data := by
                  rw [data_join, List.map_cons, List.map_nil, List.flatten_cons,
                    List.flatten_nil, List.append_nil]
                rw [hone]
                exact S_append hs0 hrest.1
              · intro hnil
                rcases List.append_eq_nil.mp hnil with ⟨h1, _⟩
                cases h1

/-- A successful `_render_section` call scans cleanly with its subtree's
total counts. -/
theorem renderVal_pass {out : List DiffRecord} {title : String} {depth : Nat}
    {v : PyNode} {s : String} (hqt : qFree title.data = true)
    (hqv : qfNode v = true) (hok : renderVal out title depth v = Except.ok s) :
    ScanPassS s.data (cntNode v) :=
  (render_pass_main (nodeSize v)).1 out title depth v s le_rfl hqt hqv hok

/-- A successful section loop scans cleanly with the entries' total counts,
and an empty part list forces zero counts. -/
theorem renderBody_pass {out : List DiffRecord} {es : List (String × PyNode)}
    {depth : Nat} {parts : List String} (hqe : qfEnts es = true)
    (hok : renderBody out es depth = Except.ok parts) :
    ScanPassS (String.join parts).data (cntEnts es) ∧
      (parts = [] → cntEnts es = zeroC) :=
  (render_pass_main (entsSize es)).2 out es depth parts le_rfl hqe hok


/-! ## The full content string scans cleanly -/

theorem interc_go_append (s : String) :
    ∀ (l : List String) (a b : String),
      String.intercalate.go (a ++ b) s l = a ++ String.intercalate.go b s l := by
  intro l
  induction l with
  | nil =>
    intro a b
    rfl
  | cons x xs ih =>
    intro a b
    show String.intercalate.go (a ++ b ++ s ++ x) s xs =
      a ++ String.intercalate.go (b ++ s ++ x) s xs
    rw [String.append_assoc, String.append_assoc, ih a (b ++ (s ++ x))]
    rw [String.append_assoc]

theorem interc_cons (s a b : String) (l : List String) :
    String.intercalate s (a :: b :: l) = a ++ s ++ String.intercalate s (b :: l) := by
  show String.intercalate.go a s (b :: l) = a ++ s ++ String.intercalate.go b s l
  show String.intercalate.go (a ++ s ++ b) s l =
    a ++ s ++ String.intercalate.go b s l
  exact interc_go_append s l (a ++ s) b

/-- The newline-joined pieces scan cleanly with aggregate count `c`. -/
def PassJoin (l : List String) (c : Counts) : Prop :=
  ScanPassS (String.intercalate "\n" l).data c

theorem passJoin_nil : PassJoin [] zeroC := S_nil

theorem passJoin_single {s : String} {c : Counts} (h : ScanPassS s.data c) :
    PassJoin [s] c := h

theorem passJoin_cons {s : String} {c : Counts} {l : List String} {cl : Counts}
    (h : ScanPassS s.data c) (hl : PassJoin l cl) (hne : l ≠ []) :
    PassJoin (s :: l) (addC c cl) := by
  rcases l with _ | ⟨b, l2⟩
  · exact absurd rfl hne
  · unfold PassJoin
    rw [interc_cons]
    have hdata : (s ++ "\n" ++ String.intercalate "\n" (b :: l2)).data =
        s.data ++ ("\n".data ++ (String.intercalate "\n" (b :: l2)).data) := by
      rw [String.data_append, String.data_append, List.append_assoc]
    rw [hdata]
    have hnl : ScanPassS "\n".data zeroC := S_of_lastSafe (by decide) (by decide)
    have hall := S_append h (S_append hnl hl)
    rw [addC_zero_left] at hall
    exact hall

/-- The counts of an optional popped tree value. -/
def optCnt : Option PyNode → Counts
  | some g => cntNode g
  | none => zeroC

/-- Quote-freeness of an optional popped tree value. -/
def optQf : Option PyNode → Bool
  | some g => qfNode g
  | none => true

theorem popEntry_cnt (key : String) :
    ∀ (es : List (String × PyNode)),
      cntEnts es = addC (optCnt (popEntry es key).1)
        (cntEnts (popEntry es key).2) := by
  intro es
  induction es with
  | nil => simp [popEntry, cntEnts, optCnt, addC_zero_left]
  | cons e rest ih =>
    rcases e with ⟨k, v⟩
    by_cases hk : k = key
    · simp only [popEntry, if_pos hk]
      rw [cntEnts, optCnt]
    · rcases hp : popEntry rest key with ⟨found, rest2⟩
      simp only [popEntry, if_neg hk, hp]
      simp only [hp] at ih
      rw [cntEnts, ih, cntEnts]
      exact (addC_left_comm _ _ _)

theorem popEntry_qf (key : String) :
    ∀ (es : List (String × PyNode)), qfEnts es = true →
      optQf (popEntry es key).1 = true ∧ qfEnts (popEntry es key).2 = true := by
  intro es
  induction es with
  | nil =>
    intro h
    exact ⟨rfl, rfl⟩
  | cons e rest ih =>
    intro h
    rcases e with ⟨k, v⟩
    rw [qfEnts, Bool.and_assoc, Bool.and_eq_true, Bool.and_eq_true] at h
    by_cases hk : k = key
    · simp only [popEntry, if_pos hk]
      exact ⟨h.2.1, h.2.2⟩
    · rcases hp : popEntry rest key with ⟨found, rest2⟩
      simp only [hp] at ih
      have hr := ih h.2.2
      simp only [popEntry, if_neg hk, hp]
      refine ⟨hr.1, ?_⟩
      rw [qfEnts, Bool.and_assoc, h.1, h.2.1, hr.2]
      rfl

/-- What the global section contributes: either nothing (and the popped
value, if any, counts zero) or one section string carrying its counts. -/
theorem renderGlobal_pass {out : List DiffRecord} {og : Option PyNode}
    {glist : List String} (hq : optQf og = true)
    (hok : renderGlobal out og = Except.ok glist) :
    (glist = [] ∧ optCnt og = zeroC) ∨
    (∃ s, glist = [s] ∧ ScanPassS s.data (optCnt og)) := by
  rcases og with _ | g
  · rw [renderGlobal] at hok
    cases hok
    exact Or.inl ⟨rfl, rfl⟩
  · by_cases ht : pyTruthy g
    · rcases hrv : renderVal out "global" 0 (PyNode.dict [("root_items", g)])
        with e | s0
      · simp only [renderGlobal, if_pos ht, hrv] at hok
        cases hok
      · simp only [renderGlobal, if_pos ht, hrv] at hok
        cases hok
        refine Or.inr ⟨s0, rfl, ?_⟩
        have hqw : qfNode (PyNode.dict [("root_items", g)]) = true := by
          rw [qfNode, qfEnts, qfEnts]
          have hg : qfNode g = true := hq
          rw [hg]
          decide
        have hpass := renderVal_pass (by decide) hqw hrv
        rw [cntNode, cntEnts, cntEnts, addC_zero_right] at hpass
        rw [optCnt]
        exact hpass
    · simp only [renderGlobal, if_neg ht] at hok
      cases hok
      refine Or.inl ⟨rfl, ?_⟩
      rw [optCnt]
      rcases g with es | its
      · rcases es with _ | ⟨e, rest⟩
        · rfl
        · rw [pyTruthy] at ht
          simp at ht
      · rcases its with _ | ⟨r, rest⟩
        · rfl
        · rw [pyTruthy] at ht
          simp at ht

/-- The top-section loop yields newline-joinable pieces carrying the
entries' counts; an empty output list means there were no entries. -/
theorem renderTops_pass {out : List DiffRecord} :
    ∀ (es : List (String × PyNode)) (l : List String), qfEnts es = true →
      renderTops out es = Except.ok l →
      PassJoin l (cntEnts es) ∧ (l = [] → es = []) := by
  intro es
  induction es with
  | nil =>
    intro l _ hok
    rw [renderTops] at hok
    cases hok
    exact ⟨passJoin_nil, fun _ => rfl⟩
  | cons e rest ih =>
    intro l hq hok
    rcases e with ⟨k, v⟩
    rw [qfEnts, Bool.and_assoc, Bool.and_eq_true, Bool.and_eq_true] at hq
    rcases hrv : renderVal out k 0 v with e0 | s0
    · simp only [renderTops, hrv] at hok
      cases hok
    · rcases hrt : renderTops out rest with e0 | more
      · simp only [renderTops, hrv, hrt] at hok
        cases hok
      · simp only [renderTops, hrv, hrt] at hok
        cases hok
        have hs0 := renderVal_pass hq.1 hq.2.1 hrv
        have hrest := ih more hq.2.2 hrt
        refine ⟨?_, ?_⟩
        · rcases hm : more with _ | ⟨m1, mrest⟩
          · have hrnil : rest = [] := hrest.2 hm
            subst hrnil
            subst hm
            rw [cntEnts, cntEnts, addC_zero_right]
            exact passJoin_single hs0
          · subst hm
            rw [cntEnts]
            refine passJoin_cons hs0 ?_ (by simp)
            exact hrest.1
        · intro hc
          cases hc

/-- A successful `render` content string scans cleanly with the full tree
counts of the root entries. -/
theorem renderContent_pass {out : List DiffRecord} {es : List (String × PyNode)}
    {content : String} (hq : qfEnts es = true)
    (hok : renderContent out es = Except.ok content) :
    ScanPassS content.data (cntEnts es) := by
  rcases hp : popEntry es "root_items" with ⟨found, rest⟩
  have hcnt := popEntry_cnt "root_items" es
  have hqf := popEntry_qf "root_items" es hq
  simp only [hp] at hcnt hqf
  rcases hg : renderGlobal out found with e | glist
  · simp only [renderContent, hp, hg] at hok
    cases hok
  · rcases ht : renderTops out rest with e | tops
    · simp only [renderContent, hp, hg, ht] at hok
      cases hok
    · simp only [renderContent, hp, hg, ht] at hok
      cases hok
      have htops := renderTops_pass rest tops hqf.2 ht
      have hglob := renderGlobal_pass hqf.1 hg
      rw [hcnt]
      rcases hglob with ⟨hgnil, hgz⟩ | ⟨s0, hgs, hspass⟩
      · subst hgnil
        rw [hgz, addC_zero_left, List.nil_append]
        exact htops.1
      · subst hgs
        rcases hm : tops with _ | ⟨t1, trest⟩
        · have hrnil : rest = [] := htops.2 hm
          subst hrnil
          subst hm
          rw [cntEnts, addC_zero_right]
          exact passJoin_single hspass
        · subst hm
          show PassJoin ([s0] ++ (t1 :: trest)) _
          rw [List.singleton_append]
          refine passJoin_cons hspass ?_ (by simp)
          exact htops.1


/-! ## The template chunks scan cleanly -/

set_option maxRecDepth 20000 in
theorem tplA1_facts : scanCounts tplA1.data = some zeroC ∧ lastSafe tplA1.data = true := by
  refine ⟨?_, ?_⟩
  · decide
  · decide

set_option maxRecDepth 20000 in
theorem tplA2_facts : scanCounts tplA2.data = some zeroC ∧ lastSafe tplA2.data = true := by
  refine ⟨?_, ?_⟩
  · decide
  · decide

set_option maxRecDepth 20000 in
theorem tplA3_facts : scanCounts tplA3.data = some zeroC ∧ lastSafe tplA3.data = true := by
  refine ⟨?_, ?_⟩
  · decide
  · decide

set_option maxRecDepth 20000 in
theorem tplA4_facts : scanCounts tplA4.data = some zeroC ∧ lastSafe tplA4.data = true := by
  refine ⟨?_, ?_⟩
  · decide
  · decide

set_option maxRecDepth 20000 in
theorem tplA5_facts : scanCounts tplA5.data = some zeroC ∧ lastSafe tplA5.data = true := by
  refine ⟨?_, ?_⟩
  · decide
  · decide

set_option maxRecDepth 20000 in
theorem tplA6_facts : scanCounts tplA6.data = some zeroC ∧ lastSafe tplA6.data = true := by
  refine ⟨?_, ?_⟩
  · decide
  · decide

set_option maxRecDepth 20000 in
theorem tplA7_facts : scanCounts tplA7.data = some zeroC ∧ lastSafe tplA7.data = true := by
  refine ⟨?_, ?_⟩
  · decide
  · decide

set_option maxRecDepth 20000 in
theorem tplA8_facts : scanCounts tplA8.data = some zeroC ∧ lastSafe tplA8.data = true := by
  refine ⟨?_, ?_⟩
  · decide
  · decide

set_option maxRecDepth 20000 in
theorem tplA9_facts : scanCounts tplA9.data = some zeroC ∧ lastSafe tplA9.data = true := by
  refine ⟨?_, ?_⟩
  · decide
  · decide

set_option maxRecDepth 20000 in
theorem tplA10_facts : scanCounts tplA10.data = some zeroC ∧ lastSafe tplA10.data = true := by
  refine ⟨?_, ?_⟩
  · decide
  · decide

set_option maxRecDepth 20000 in
theorem tplB1_facts : scanCounts tplB1.data = some zeroC ∧ lastSafe tplB1.data = true := by
  refine ⟨?_, ?_⟩
  · decide
  · decide

set_option maxRecDepth 20000 in
theorem tplC1_facts : scanCounts tplC1.data = some zeroC ∧ lastSafe tplC1.data = true := by
  refine ⟨?_, ?_⟩
  · decide
  · decide

set_option maxRecDepth 20000 in
theorem tplD1_facts : scanCounts tplD1.data = some zeroC ∧ lastSafe tplD1.data = true := by
  refine ⟨?_, ?_⟩
  · decide
  · decide

set_option maxRecDepth 20000 in
theorem tplD2_facts : scanCounts tplD2.data = some zeroC ∧ lastSafe tplD2.data = true := by
  refine ⟨?_, ?_⟩
  · decide
  · decide

set_option maxRecDepth 20000 in
theorem tplD3_facts : scanCounts tplD3.data = some zeroC ∧ lastSafe tplD3.data = true := by
  refine ⟨?_, ?_⟩
  · decide
  · decide

set_option maxRecDepth 20000 in
theorem tplD4_facts : scanCounts tplD4.data = some zeroC ∧ lastSafe tplD4.data = true := by
  refine ⟨?_, ?_⟩
  · decide
  · decide


/-! ## The whole page scans cleanly with the content's counts -/

theorem page_pass {content : String} {cnt : Counts}
    (hc : ScanPassS content.data cnt) (basec targetc : String) :
    ScanPassS (tplA ++ content ++ tplB ++ jinjaEscape basec ++ tplC ++
      jinjaEscape targetc ++ tplD).data cnt := by
  have d4 : ScanPassS tplD4.data zeroC := S_of_lastSafe tplD4_facts.1 tplD4_facts.2
  have d3 := S_append (S_of_lastSafe tplD3_facts.1 tplD3_facts.2) d4
  have d2 := S_append (S_of_lastSafe tplD2_facts.1 tplD2_facts.2) d3
  have d1 := S_append (S_of_lastSafe tplD1_facts.1 tplD1_facts.2) d2
  have hE2 : ScanPassW (jinjaEscape targetc).data zeroC :=
    W_of_nqi (nqiOK_of_qFree (qFree_jinjaEscape targetc))
  have hDne : tplD1.data ++ (tplD2.data ++ (tplD3.data ++ tplD4.data)) ≠ [] := by
    intro h
    rcases List.append_eq_nil.mp h with ⟨h1, _⟩
    exact (by decide : tplD1.data ≠ []) h1
  have hDsafe : headSafe (tplD1.data ++ (tplD2.data ++ (tplD3.data ++ tplD4.data)))
      = true := headSafe_append_left (by decide) (by decide)
  have e2 := WS_append hE2 d1 hDne hDsafe
  have c1 := S_append (S_of_lastSafe tplC1_facts.1 tplC1_facts.2) e2
  have hE1 : ScanPassW (jinjaEscape basec).data zeroC :=
    W_of_nqi (nqiOK_of_qFree (qFree_jinjaEscape basec))
  have hCne : tplC1.data ++ ((jinjaEscape targetc).data ++
      (tplD1.data ++ (tplD2.data ++ (tplD3.data ++ tplD4.data)))) ≠ [] := by
    intro h
    rcases List.append_eq_nil.mp h with ⟨h1, _⟩
    exact (by decide : tplC1.data ≠ []) h1
  have hCsafe : headSafe (tplC1.data ++ ((jinjaEscape targetc).data ++
      (tplD1.data ++ (tplD2.data ++ (tplD3.data ++ tplD4.data))))) = true :=
    headSafe_append_left (by decide) (by decide)
  have e1 := WS_append hE1 c1 hCne hCsafe
  have b1 := S_append (S_of_lastSafe tplB1_facts.1 tplB1_facts.2) e1
  have ct := S_append hc b1
  have a10 := S_append (S_of_lastSafe tplA10_facts.1 tplA10_facts.2) ct
  have a9 := S_append (S_of_lastSafe tplA9_facts.1 tplA9_facts.2) a10
  have a8 := S_append (S_of_lastSafe tplA8_facts.1 tplA8_facts.2) a9
  have a7 := S_append (S_of_lastSafe tplA7_facts.1 tplA7_facts.2) a8
  have a6 := S_append (S_of_lastSafe tplA6_facts.1 tplA6_facts.2) a7
  have a5 := S_append (S_of_lastSafe tplA5_facts.1 tplA5_facts.2) a6
  have a4 := S_append (S_of_lastSafe tplA4_facts.1 tplA4_facts.2) a5
  have a3 := S_append (S_of_lastSafe tplA3_facts.1 tplA3_facts.2) a4
  have a2 := S_append (S_of_lastSafe tplA2_facts.1 tplA2_facts.2) a3
  have a1 := S_append (S_of_lastSafe tplA1_facts.1 tplA1_facts.2) a2
  have hall := a1
  simp only [addC_zero_left, addC_zero_right] at hall
  have hdata : (tplA ++ content ++ tplB ++ jinjaEscape basec ++ tplC ++
      jinjaEscape targetc ++ tplD).data =
      tplA1.data ++ (tplA2.data ++ (tplA3.data ++ (tplA4.data ++ (tplA5.data ++
        (tplA6.data ++ (tplA7.data ++ (tplA8.data ++ (tplA9.data ++
        (tplA10.data ++ (content.data ++ (tplB1.data ++
        ((jinjaEscape basec).data ++ (tplC1.data ++ ((jinjaEscape targetc).data ++
        (tplD1.data ++ (tplD2.data ++ (tplD3.data ++ tplD4.data))))))))))))))))) := by
    rw [tplA, tplB, tplC, tplD]
    simp only [String.data_append, List.append_assoc]
  rw [hdata]
  exact hall


/-! ## Per-record counts equal per-disposition non-parent counts -/

theorem insCnt_proj {tp : List ParsedLine} {r : DiffRecord} (hok : recordOK tp r)
    (d : Disp) :
    projC (insCnt r) d =
      if !r.is_parent && decide (disposition r = d) then 1 else 0 := by
  rcases ha : r.is_added with _ | _
  · rcases hm : r.is_matched with _ | _
    · rcases hp : r.is_parent with _ | _
      · simp only [insCnt, recCnt, excludedFromTree, disposition, ha, hm, hp]
        cases d <;> rfl
      · simp only [insCnt, recCnt, excludedFromTree, disposition, ha, hm, hp]
        cases d <;> rfl
    · have hfacts := hok.2.2.2 hm
      by_cases hlt : r.similarity_score < 1
      · have hp : r.is_parent = false := by
          rcases hpp : r.is_parent with _ | _
          · rfl
          · exfalso
            have := (hfacts.2.2.2.2.2.2.1 hpp).2
            rw [this] at hlt
            exact absurd hlt (by norm_num)
        simp only [insCnt, recCnt, excludedFromTree, disposition, ha, hm, hp, hlt,
          if_pos, if_neg, Bool.not_true, Bool.not_false, Bool.false_and,
          Bool.and_false, Bool.true_and]
        cases d <;> rfl
      · rcases hp : r.is_parent with _ | _
        · simp only [insCnt, recCnt, excludedFromTree, disposition, ha, hm, hp, hlt]
          cases d <;> rfl
        · simp only [insCnt, recCnt, excludedFromTree, disposition, ha, hm, hp, hlt]
          cases d <;> rfl
  · have hm := (hok.2.1 ha).1
    rcases hp : r.is_parent with _ | _
    · simp only [insCnt, recCnt, excludedFromTree, disposition, ha, hm, hp]
      cases d <;> rfl
    · simp only [insCnt, recCnt, excludedFromTree, disposition, ha, hm, hp]
      cases d <;> rfl

theorem outCnt_disp {tp : List ParsedLine} :
    ∀ (out : List DiffRecord), (∀ r ∈ out, recordOK tp r) → ∀ (d : Disp),
      projC (outCnt out) d = dispCountNonParent out d := by
  intro out
  induction out with
  | nil =>
    intro _ d
    rw [outCnt, dispCountNonParent, List.countP_nil, projC_zero]
  | cons r rs ih =>
    intro h d
    rw [outCnt, projC_addC, insCnt_proj (h r (by simp)) d,
      ih (fun q hq => h q (by simp [hq])) d, dispCountNonParent,
      dispCountNonParent, List.countP_cons]
    omega

/-! ## Quote-freeness flows from the input lines to the records -/

theorem qFree_of_mem_subset {a b : List Char} (hsub : ∀ c ∈ a, c ∈ b)
    (h : qFree b = true) : qFree a = true := by
  unfold qFree at *
  rcases hc : a.contains '"' with _ | _
  · rfl
  · have hmem : ('"' : Char) ∈ a := by simpa using hc
    have hb : ('"' : Char) ∈ b := hsub _ hmem
    rw [show b.contains '"' = true by simpa using hb] at h
    exact h

theorem mem_pyStripList {c : Char} {cs : List Char} (h : c ∈ pyStripList cs) :
    c ∈ cs := by
  unfold pyStripList at h
  have h1 := List.mem_reverse.mp h
  have h2 := (List.dropWhile_sublist _).mem h1
  have h3 := List.mem_reverse.mp h2
  exact (List.dropWhile_sublist _).mem h3

theorem qFree_pyStrip {s : String} (h : qFree s.data = true) :
    qFree (pyStrip s).data = true :=
  qFree_of_mem_subset (fun c hc => mem_pyStripList hc) h

theorem splitCharAux_mem_chars (sep : Char) :
    ∀ (cs acc : List Char) (t : String), t ∈ splitCharAux sep cs acc →
      ∀ c ∈ t.data, c ∈ cs ∨ c ∈ acc := by
  intro cs
  induction cs with
  | nil =>
    intro acc t ht c hc
    rw [splitCharAux] at ht
    rcases List.mem_singleton.mp ht with h
    rw [h] at hc
    exact Or.inr (List.mem_reverse.mp hc)
  | cons x cs ih =>
    intro acc t ht c hc
    rw [splitCharAux] at ht
    by_cases hx : x = sep
    · rw [if_pos hx] at ht
      rcases List.mem_cons.mp ht with h | h
      · rw [h] at hc
        exact Or.inr (List.mem_reverse.mp hc)
      · rcases ih [] t h c hc with h2 | h2
        · exact Or.inl (List.mem_cons_of_mem x h2)
        · cases h2
    · rw [if_neg hx] at ht
      rcases ih (x :: acc) t ht c hc with h2 | h2
      · exact Or.inl (List.mem_cons_of_mem x h2)
      · rcases List.mem_cons.mp h2 with h3 | h3
        · rw [h3]
          exact Or.inl (List.mem_cons_self x cs)
        · exact Or.inr h3

theorem qFree_pathParts {p : String} (h : qFree p.data = true) :
    ∀ t ∈ pathParts p, qFree t.data = true := by
  intro t ht
  rw [pathParts] at ht
  by_cases hp : p = ""
  · rw [if_pos hp] at ht
    cases ht
  · rw [if_neg hp] at ht
    rw [splitChar] at ht
    refine qFree_of_mem_subset (fun c hc => ?_) h
    rcases splitCharAux_mem_chars DELIMC p.data [] t ht c hc with h2 | h2
    · exact h2
    · cases h2

theorem qFree_intercalate {sep : String} (hsep : qFree sep.data = true) :
    ∀ (l : List String), (∀ x ∈ l, qFree x.data = true) →
      qFree (String.intercalate sep l).data = true := by
  intro l
  induction l with
  | nil =>
    intro _
    show qFree ("" : String).data = true
    decide
  | cons x xs ih =>
    intro h
    rcases xs with _ | ⟨y, ys⟩
    · exact h x (by simp)
    · rw [interc_cons]
      rw [String.data_append, String.data_append]
      refine qFree_append (qFree_append (h x (by simp)) hsep) ?_
      exact ih (fun z hz => h z (by simp [hz]))

theorem parseAux_qf :
    ∀ (lines : List String) (stack : List (Nat × String)),
      (∀ l ∈ lines, qFree l.data = true) →
      (∀ p ∈ stack, qFree p.2.data = true) →
      ∀ r ∈ parseAux lines stack,
        qFree r.string.data = true ∧ qFree r.path.data = true := by
  intro lines
  induction lines with
  | nil =>
    intro stack _ _ r hr
    cases hr
  | cons line rest ih =>
    intro stack hl hs r hr
    have hline : qFree line.data = true := hl line (by simp)
    have hrest : ∀ l ∈ rest, qFree l.data = true := fun l h2 => hl l (by simp [h2])
    have hstack2 : ∀ p ∈ stack.dropWhile (fun q => q.1 ≥ indentOf line),
        qFree p.2.data = true :=
      fun p h2 => hs p ((List.dropWhile_sublist _).mem h2)
    rw [parseAux] at hr
    by_cases hstr : pyStrip line = ""
    · rw [if_pos hstr] at hr
      exact ih stack hrest hs r hr
    · rw [if_neg hstr] at hr
      rcases List.mem_cons.mp hr with hr | hr
      · rw [hr]
        refine ⟨qFree_pyStrip hline, ?_⟩
        refine qFree_intercalate (by decide) _ (fun x hx => ?_)
        rcases List.mem_map.mp hx with ⟨q, hq, hqx⟩
        rw [← hqx]
        exact hstack2 q (List.mem_reverse.mp hq)
      · refine ih ((indentOf line, pyStrip line) ::
          stack.dropWhile (fun q => q.1 ≥ indentOf line)) hrest ?_ r hr
        intro p hp
        rcases List.mem_cons.mp hp with hp | hp
        · rw [hp]
          exact qFree_pyStrip hline
        · exact hstack2 p hp

theorem parse_qf {lines : List String} (h : ∀ l ∈ lines, qFree l.data = true) :
    ∀ r ∈ parse lines, qFree r.string.data = true ∧ qFree r.path.data = true :=
  parseAux_qf lines [] h (fun p hp => absurd hp (List.not_mem_nil p))

theorem compareLoop_mem_shape {tp : List ParsedLine} :
    ∀ (bs : List ParsedLine) (used : List Nat), ∀ r ∈ (compareLoop tp bs used).1,
      ∃ b ∈ bs, r.string = b.string ∧ r.path = b.path := by
  intro bs
  induction bs with
  | nil =>
    intro used r hr
    cases hr
  | cons b bs ih =>
    intro used r hr
    rw [compareLoop] at hr
    rcases List.mem_cons.mp hr with hr | hr
    · have hf := compareStep_fields tp used b
      exact ⟨b, by simp, by rw [hr, hf.1], by rw [hr, hf.2.1]⟩
    · rcases ih _ r hr with ⟨b2, hb2, hsp⟩
      exact ⟨b2, by simp [hb2], hsp⟩

/-- Quote-free input lines yield records whose texts and path (hence every
path segment) are quote-free. -/
theorem compare_qf {tl bl : List String}
    (htl : ∀ l ∈ tl, qFree l.data = true) (hbl : ∀ l ∈ bl, qFree l.data = true) :
    ∀ r ∈ ConfDiff.compare tl bl,
      qfRec r = true ∧ ∀ p ∈ pathParts r.path, qFree p.data = true := by
  intro r hr
  have hok := compare_recordOK tl bl r hr
  have hpt := parse_qf htl
  have hpb := parse_qf hbl
  have hbm : qFree r.best_match.data = true := by
    rcases hm : r.is_matched with _ | _
    · rw [(hok.2.2.1 hm).1]
      decide
    · rcases (hok.2.2.2 hm).2.2.2.2.2.1 with ⟨j, t, _, hget, hbm2, _⟩
      rw [hbm2]
      exact (hpt t (List.get?_mem hget)).1
  unfold ConfDiff.compare compareParsed at hr
  rcases List.mem_append.mp hr with hr | hr
  · rcases compareLoop_mem_shape _ _ r hr with ⟨b, hb, hsb, hpb2⟩
    have hqs : qFree r.string.data = true := by
      rw [hsb]
      exact (hpb b hb).1
    have hqp : qFree r.path.data = true := by
      rw [hpb2]
      exact (hpb b hb).2
    refine ⟨?_, qFree_pathParts hqp⟩
    rw [qfRec, hqs, hbm]
    rfl
  · rcases addedAux_mem_shape hr with ⟨t, ht, hrt⟩
    have hqs : qFree r.string.data = true := by
      rw [hrt]
      exact (hpt t ht).1
    have hqp : qFree r.path.data = true := by
      rw [hrt]
      exact (hpt t ht).2
    refine ⟨?_, qFree_pathParts hqp⟩
    rw [qfRec, hqs, hbm]
    rfl

/-! ## The page counts of a successful render -/

/-- Whenever the full pipeline succeeds, each of the four regex counts over
the rendered page equals the number of non-parent records of the matcher
output with the corresponding disposition - provided the configuration
lines are quote-free, so the raw config panes and item payloads cannot fake
an item div. -/
theorem renderHtml_counts {tl bl : List String} {html0 : String}
    (htl : ∀ l ∈ tl, qFree l.data = true) (hbl : ∀ l ∈ bl, qFree l.data = true)
    (hok : renderHtml tl bl = Except.ok html0) (d : Disp) :
    reCount d html0 = dispCountNonParent (ConfDiff.compare tl bl) d := by
  rcases hbt : buildTree (ConfDiff.compare tl bl) with e | root
  · simp only [renderHtml, hbt] at hok
    cases hok
  · rcases root with es | its
    · rcases hrc : renderContent (ConfDiff.compare tl bl) es with e | content
      · simp only [renderHtml, hbt, hrc] at hok
        cases hok
      · simp only [renderHtml, hbt, hrc] at hok
        cases hok
        have hqall := compare_qf htl hbl
        have hqroot : qfNode (PyNode.dict es) = true :=
          buildTreeAux_qf (ConfDiff.compare tl bl) (PyNode.dict [])
            (PyNode.dict es) hqall (by rfl) hbt
        have hqes : qfEnts es = true := by
          rw [qfNode] at hqroot
          exact hqroot
        have hcnt := buildTreeAux_cnt (ConfDiff.compare tl bl) (PyNode.dict [])
          (PyNode.dict es) hbt
        rw [cntNode, cntNode, cntEnts, addC_zero_left] at hcnt
        have hcp : ScanPassS content.data (cntEnts es) :=
          renderContent_pass hqes hrc
        rw [hcnt] at hcp
        have hpage := page_pass hcp (String.intercalate "\n" bl)
          (String.intercalate "\n" tl)
        rw [reCount_of_scanCounts (scanCounts_of_S hpage) d]
        exact outCnt_disp (ConfDiff.compare tl bl)
          (compare_recordOK tl bl) d
    · simp only [renderHtml, hbt] at hok
      cases hok


/-! ## C6: the compliance summary -/

/-- C6 (amended): the aggregate counts are regex-match counts over the full
rendered page, not record counts.  Whenever the input configuration lines
are free of the `"` character (so neither the unescaped item payloads nor
the raw config panes can fake an item div) and the pipeline completes
without raising, each of the four counts equals the number of NON-PARENT
records with the corresponding disposition (matched parent headers render
no counted item and unmatched parent headers are omitted from the tree),
and the stored status is the claimed tier formula over those counts:
1 (fully compliant) iff the changed and removed counts are both zero, else
4 (partially compliant) iff round(100 * unchanged / (unchanged + changed +
removed)) >= 80 with round-half-to-even, else 3 (non-compliant).  When any
step raises - e.g. the `root_items` path collision of `_build_tree` - the
status is 5 instead and no summary is computed. -/
theorem C6_compliance_amended (tl bl : List String)
    (hq : (∀ l ∈ tl, qFree l.data = true) ∧ (∀ l ∈ bl, qFree l.data = true))
    (hok : (renderHtml tl bl).isOk = true) :
    (∀ d : Disp, reCount d (htmlOf tl bl) =
        dispCountNonParent (ConfDiff.compare tl bl) d) ∧
    checkStatus tl bl =
      claimTier (dispCountNonParent (ConfDiff.compare tl bl) Disp.identical)
        (dispCountNonParent (ConfDiff.compare tl bl) Disp.changed)
        (dispCountNonParent (ConfDiff.compare tl bl) Disp.removed) := by
  rcases hh : renderHtml tl bl with e | html0
  · rw [hh] at hok
    cases hok
  · have hcnts := fun d => renderHtml_counts hq.1 hq.2 hh d
    have hhtml : htmlOf tl bl = html0 := by
      rw [htmlOf, hh]
    refine ⟨fun d => by rw [hhtml]; exact hcnts d, ?_⟩
    have hstat : checkStatus tl bl =
        (if dispCountNonParent (ConfDiff.compare tl bl) Disp.changed = 0 ∧
            dispCountNonParent (ConfDiff.compare tl bl) Disp.removed = 0 then 1
         else if 80 ≤ (if dispCountNonParent (ConfDiff.compare tl bl) Disp.identical +
              dispCountNonParent (ConfDiff.compare tl bl) Disp.changed +
              dispCountNonParent (ConfDiff.compare tl bl) Disp.removed = 0 then (100 : ℤ)
            else pyRound ((dispCountNonParent (ConfDiff.compare tl bl) Disp.identical : ℚ) /
              ((dispCountNonParent (ConfDiff.compare tl bl) Disp.identical +
                dispCountNonParent (ConfDiff.compare tl bl) Disp.changed +
                dispCountNonParent (ConfDiff.compare tl bl) Disp.removed : ℕ) : ℚ) * 100))
          then 4 else 3) := by
      simp only [checkStatus, hh, hcnts]
    rw [hstat]
    by_cases hz : dispCountNonParent (ConfDiff.compare tl bl) Disp.changed = 0 ∧
        dispCountNonParent (ConfDiff.compare tl bl) Disp.removed = 0
    · rw [if_pos hz, claimTier, if_pos hz]
    · rw [if_neg hz, claimTier, if_neg hz]
      have hden : ¬ (dispCountNonParent (ConfDiff.compare tl bl) Disp.identical +
          dispCountNonParent (ConfDiff.compare tl bl) Disp.changed +
          dispCountNonParent (ConfDiff.compare tl bl) Disp.removed = 0) := by
        omega
      rw [if_neg hden]
      have harith : (dispCountNonParent (ConfDiff.compare tl bl) Disp.identical : ℚ) /
          ((dispCountNonParent (ConfDiff.compare tl bl) Disp.identical +
            dispCountNonParent (ConfDiff.compare tl bl) Disp.changed +
            dispCountNonParent (ConfDiff.compare tl bl) Disp.removed : ℕ) : ℚ) * 100 =
          100 * (dispCountNonParent (ConfDiff.compare tl bl) Disp.identical : ℚ) /
          ((dispCountNonParent (ConfDiff.compare tl bl) Disp.identical +
            dispCountNonParent (ConfDiff.compare tl bl) Disp.changed +
            dispCountNonParent (ConfDiff.compare tl bl) Disp.removed : ℕ) : ℚ) := by
        rw [div_mul_eq_mul_div, mul_comm]
      rw [harith]

theorem C6_compliance_amended_witness :
    ((∀ l ∈ ["a"], qFree l.data = true) ∧ (∀ l ∈ ["a"], qFree l.data = true)) ∧
    (renderHtml ["a"] ["a"]).isOk = true ∧
    ((∀ d : Disp, reCount d (htmlOf ["a"] ["a"]) =
        dispCountNonParent (ConfDiff.compare ["a"] ["a"]) d) ∧
      checkStatus ["a"] ["a"] =
        claimTier (dispCountNonParent (ConfDiff.compare ["a"] ["a"]) Disp.identical)
          (dispCountNonParent (ConfDiff.compare ["a"] ["a"]) Disp.changed)
          (dispCountNonParent (ConfDiff.compare ["a"] ["a"]) Disp.removed)) :=
  ⟨⟨by decide, by decide⟩, by rfl,
    C6_compliance_amended ["a"] ["a"] ⟨by decide, by decide⟩ (by rfl)⟩

/-- C6 counterexample: on target and base both `root_items` / `  x` every
record is Matched-Identical, so the original claim's formula over
per-disposition record counts yields tier 1 (fully compliant); but the
program never computes a summary at all - the path segment `root_items`
collides with `_build_tree`'s magic key, the builder raises
`AttributeError`, and `handle_initial` stores status 5. -/
theorem C6_counterexample :
    checkStatus ["root_items", "  x"] ["root_items", "  x"] = 5 ∧
    claimTier
      (dispCount (ConfDiff.compare ["root_items", "  x"] ["root_items", "  x"])
        Disp.identical)
      (dispCount (ConfDiff.compare ["root_items", "  x"] ["root_items", "  x"])
        Disp.changed)
      (dispCount (ConfDiff.compare ["root_items", "  x"] ["root_items", "  x"])
        Disp.removed) = 1 :=
  ⟨by rfl, by decide⟩

end ConfDiff
